import Mathlib

/-!
# Term-reference handles of the foreign language interface (`src/pl-fli.c`)

A shallow embedding of the handle layer of `pl-fli.c`: the local-stack slots that
back `term_t` handles, the chain of foreign frames that owns them, and the
validity checks of `O_VALIDATE_API`; on top of it the construction and analysis of
compound terms, lists and dicts, the release of blobs, the bookkeeping of the
pending exception (`copy_exception`, `classify_exception_p`, `PL_raise_exception`),
the atoms of character codes and of text, and the unification of a list with the
bytes of a string.  The last part embeds `canonicaliseFileName` of `os/pl-os.c`, which
works on a buffer of bytes.

Positions are counted in words.  One memory `mem` holds the cells of the global and
of the local stack; a stack shift keeps the position of every cell relative to its
stack, which is what a handle records, so positions are stable in the embedding.
-/

namespace SwiplFli

/-! ## Data model -/

/-- Modelled from the spec: the tagged word (its bit encoding lives in `pl-incl.h`,
which is not part of the sources).  A word is an unbound variable, an attributed
variable, an atom, a tagged integer, a boxed float, string or big integer, a compound
pointer or a reference to another cell; the first cell of a compound holds a functor
descriptor, the pair of a name and an arity. -/
inductive Word where
  | var
  | attvar (value : Nat)
  | atom (index : Nat)
  | int (value : Int)
  | float (cell : Nat)
  | string (cell : Nat)
  | compound (cell : Nat)
  | ref (cell : Nat)
  | functor (name : Nat) (arity : Nat)
  | bigint (cell : Nat)
  deriving DecidableEq

/-- A handle: the offset of a local-stack slot from the base of the local stack. -/
abbrev term_t := Nat

/-- Bytes in a word (`sizeof(word)`). -/
def sizeofWord : Nat := 8

/-- The range of `size_t`. -/
def SIZE_MAX1 : Nat := 2 ^ 64

/-- The atom written into a slot that was freed while it was not the top slot. -/
def ATOM_term_t_free : Word := Word.atom 0

/-- The word is an unbound variable (`isVar`). -/
def isVar (w : Word) : Bool :=
  match w with
  | Word.var => true
  | _ => false

/-- The word is an attributed variable (`isAttVar`). -/
def isAttVar (w : Word) : Bool :=
  match w with
  | Word.attvar _ => true
  | _ => false

/-- The word is a reference (`isRef`). -/
def isRef (w : Word) : Bool :=
  match w with
  | Word.ref _ => true
  | _ => false

/-- A cell holding this word can only be shared through a reference (`needsRef`):
it is a plain or an attributed variable. -/
def needsRef (w : Word) : Bool :=
  isVar w || isAttVar w

/-- A reference to the cell at position `p` (`makeRefG`). -/
def makeRefG (p : Nat) : Word := Word.ref p

/-- A foreign frame (`struct fliFrame`): the position of its record, the number of
handle slots it owns and the index of its lowest slot freed in place.  The slots
follow the record.  The declaration of the record is not part of the sources; the
counter is taken as an unbounded integer. -/
structure FliFrame where
  addr : Nat
  size : Int
  no_free_before : Nat
  deriving DecidableEq

/-- An environment frame (`struct localFrame`): the position of its record, whether
its predicate is foreign (`P_FOREIGN`) and the arity of the predicate.  The
arguments follow the record. -/
structure LocalFrame where
  addr : Nat
  foreign : Bool
  arity : Nat
  deriving DecidableEq

/-- A query frame; `frame` is the environment frame embedded in it. -/
structure QueryFrame where
  frame : LocalFrame
  deriving DecidableEq

/-- Return codes of the stack-growing routines. -/
inductive StackRc where
  | TRUE
  | LOCAL_OVERFLOW
  | GLOBAL_OVERFLOW
  | TRAIL_OVERFLOW
  deriving DecidableEq

/-- The engine state the handle layer works on (`LD`).  The three chains list a frame
before its parent: `fli_context` starts at the active foreign frame,
`environment_frame` at the current environment frame, `query` at the innermost
query.  An empty chain is the `NULL` pointer.  `exception` is the stack overflow left
pending by `raiseStackOverflow`; `exception_bin` is the handle that holds the pending
exception, `exception_term` the current exception (0 for none), and `gSpare` the
bytes of the emergency margin of the global stack. -/
structure LD where
  lBase : Nat
  lTop : Nat
  lMax : Nat
  lLimit : Nat
  gTop : Nat
  gMax : Nat
  gLimit : Nat
  mark_bar : Nat
  mem : Nat → Word
  trail : List Nat
  fli_context : List FliFrame
  environment_frame : List LocalFrame
  query : List QueryFrame
  sizeofFliFrame : Nat
  sizeofLocalFrame : Nat
  exception : Option StackRc
  exception_bin : term_t := 0
  exception_term : term_t := 0
  exception_processing : Bool := false
  gSpare : Nat := 0

/-- The slot a handle denotes (`valTermRef`). -/
def valTermRef (s : LD) (t : term_t) : Nat := s.lBase + t

/-- The handle of a slot (`consTermRef`). -/
def consTermRef (s : LD) (p : Nat) : term_t := p - s.lBase

/-- The first handle slot of a foreign frame, `(Word)(fr+1)`. -/
def frameSlots (s : LD) (fr : FliFrame) : Nat := fr.addr + s.sizeofFliFrame

/-- Position of argument `n` of an environment frame (`argFrameP`). -/
def argFrameP (s : LD) (fr : LocalFrame) (n : Nat) : Nat :=
  fr.addr + s.sizeofLocalFrame + n

/-- The position lies on the local stack (`onStack(local, p)`). -/
def onStackLocal (s : LD) (p : Nat) : Bool :=
  decide (s.lBase ≤ p) && decide (p < s.lTop)

/-! ## Stack space -/

/-- Modelled from the spec: `raiseStackOverflow` leaves the resource error pending
and returns false. -/
def raiseStackOverflow (s : LD) (rc : StackRc) : Bool × LD :=
  (false, { s with exception := some rc })

/-- Modelled from the spec: `ensureLocalSpace(bytes)` succeeds at once when the room
is there, otherwise grows the local stack when its limit allows, otherwise fails with
a stack overflow. -/
def ensureLocalSpace (s : LD) (bytes : Nat) : Bool × LD :=
  if s.lTop * sizeofWord + bytes ≤ s.lMax * sizeofWord then (true, s)
  else if s.lTop * sizeofWord + bytes ≤ s.lLimit * sizeofWord then
    (true, { s with lMax := s.lLimit })
  else raiseStackOverflow s StackRc.LOCAL_OVERFLOW

/-- Modelled from the spec: `hasGlobalSpace(n)`, room for `n` cells on the global
stack. -/
def hasGlobalSpace (s : LD) (n : Nat) : Bool :=
  decide (s.gTop + n ≤ s.gMax)

/-- Modelled from the spec: `ensureGlobalSpace(n, flags)` grows the global stack when
its limit allows and reports an overflow otherwise. -/
def ensureGlobalSpace (s : LD) (n : Nat) : StackRc × LD :=
  if s.gTop + n ≤ s.gMax then (StackRc.TRUE, s)
  else if s.gTop + n ≤ s.gLimit then (StackRc.TRUE, { s with gMax := s.gLimit })
  else (StackRc.GLOBAL_OVERFLOW, s)

/-- Modelled from the spec: `Trail(p, w)` binds the cell at `p` to `w` and records
the binding when the cell is on the local stack or below the mark. -/
def Trail (s : LD) (p : Nat) (w : Word) : LD :=
  { s with
    trail := if s.lBase ≤ p ∨ p < s.mark_bar then p :: s.trail else s.trail
    mem := Function.update s.mem p w }

/-! ## Creating handles -/

/-- The loop `for(i=0; i<n; i++) setVar(*t++)`. -/
def setVars (mem : Nat → Word) (t : Nat) : Nat → (Nat → Word)
  | 0 => mem
  | n + 1 => setVars (Function.update mem t Word.var) (t + 1) n

/-- `PL_new_term_refs(n)`; the result is `none` when `fli_context` is `NULL`. -/
def PL_new_term_refs (s : LD) (n : Nat) : Option (term_t × LD) :=
  match ensureLocalSpace s (n * sizeofWord % SIZE_MAX1) with
  | (false, s1) => some (0, s1)
  | (true, s1) =>
    let t := s1.lTop
    let r := consTermRef s1 t
    match s1.fli_context with
    | [] => none
    | fr :: parents =>
      some (r, { s1 with
        mem := setVars s1.mem t n
        lTop := t + n
        fli_context := { fr with size := fr.size + (n : Int) } :: parents })

/-- The inline `new_term_ref()`: one slot, without a check for space. -/
def new_term_ref (s : LD) : Option (term_t × LD) :=
  let t := s.lTop
  let r := consTermRef s t
  match s.fli_context with
  | [] => none
  | fr :: parents =>
    some (r, { s with
      mem := Function.update s.mem t Word.var
      lTop := t + 1
      fli_context := { fr with size := fr.size + 1 } :: parents })

/-- `PL_new_term_ref()`. -/
def PL_new_term_ref (s : LD) : Option (term_t × LD) :=
  match ensureLocalSpace s sizeofWord with
  | (false, s1) => some (0, s1)
  | (true, s1) => new_term_ref s1

/-- `PL_new_term_ref_noshift()`. -/
def PL_new_term_ref_noshift (s : LD) : Option (term_t × LD) :=
  if s.lTop + 1 > s.lMax then some (0, s)
  else new_term_ref s

/-! ## Validity checks (`O_VALIDATE_API`) -/

/-- The loop of `in_foreign_argv` over the environment frames from `fr` on. -/
def in_foreign_argv_from (s : LD) (p : Nat) : List LocalFrame → Bool
  | [] => false
  | fr :: parent =>
    if fr.foreign = true ∧ argFrameP s fr 0 ≤ p ∧ p < argFrameP s fr fr.arity then true
    else if fr.addr < p then false
    else in_foreign_argv_from s p parent

/-- `in_foreign_argv(p)`. -/
def in_foreign_argv (s : LD) (p : Nat) : Bool :=
  in_foreign_argv_from s p s.environment_frame

/-- The loop of `in_foreign_frame` over the foreign frames from `fr` on; `k` is the
place of `fr` on the chain of `fli_context`, which is what the returned frame pointer
is modelled by. -/
def in_foreign_frame_from (s : LD) (p : Nat) (k : Nat) : List FliFrame → Option Nat
  | [] => none
  | fr :: parent =>
    let p0 := frameSlots s fr
    if p0 ≤ p ∧ (p : Int) < (p0 : Int) + fr.size then some k
    else if fr.addr < p then none
    else in_foreign_frame_from s p (k + 1) parent

/-- `in_foreign_frame(p)`: the place on the chain of the frame found, `none` for
`NULL`. -/
def in_foreign_frame (s : LD) (p : Nat) : Option Nat :=
  in_foreign_frame_from s p 0 s.fli_context

/-- The loop of `in_query_arguments` over the query frames from `qf` on. -/
def in_query_arguments_from (s : LD) (p : Nat) : List QueryFrame → Bool
  | [] => false
  | qf :: parent =>
    let fr := qf.frame
    if argFrameP s fr 0 < p ∧ p < argFrameP s fr fr.arity then true
    else in_query_arguments_from s p parent

/-- `in_query_arguments(p)`. -/
def in_query_arguments (s : LD) (p : Nat) : Bool :=
  in_query_arguments_from s p s.query

/-- Outcome of a validity check: it returns, or it stops in `PL_api_error` with one
of the three messages. -/
inductive ApiCheck where
  | valid
  | out_of_range
  | freed
  | not_in_any_foreign_frame
  deriving DecidableEq

/-- `valid_term_t(t)`. -/
def valid_term_t (s : LD) (t : term_t) : ApiCheck :=
  let p := valTermRef s t
  if ¬ onStackLocal s p = true then ApiCheck.out_of_range
  else if s.mem p = ATOM_term_t_free then ApiCheck.freed
  else if in_foreign_argv s p = true ∨ (in_foreign_frame s p).isSome = true ∨
      in_query_arguments s p = true then ApiCheck.valid
  else ApiCheck.not_in_any_foreign_frame

/-- `valid_user_term_t(t)`. -/
def valid_user_term_t (s : LD) (t : term_t) : ApiCheck :=
  let p := valTermRef s t
  if ¬ onStackLocal s p = true then ApiCheck.out_of_range
  else if s.mem p = ATOM_term_t_free then ApiCheck.freed
  else if (in_foreign_frame s p).isSome = true then ApiCheck.valid
  else ApiCheck.not_in_any_foreign_frame

/-! ## Freeing and resetting handles -/

/-- The update `if ( i < fr->no_free_before ) fr->no_free_before = i` of one
frame. -/
def lowerNoFreeBefore (i : Nat) (fr : FliFrame) : FliFrame :=
  if i < fr.no_free_before then { fr with no_free_before := i } else fr

/-- `PL_free_term_ref(ref)`; `none` when a `NULL` frame pointer is dereferenced
(`fli_context` in the first branch, the result of `in_foreign_frame` in the
second). -/
def PL_free_term_ref (s : LD) (ref : term_t) : Option LD :=
  let p := valTermRef s ref
  if p + 1 = s.lTop then
    match s.fli_context with
    | [] => none
    | fr :: parents =>
      some { s with lTop := p, fli_context := { fr with size := fr.size - 1 } :: parents }
  else
    match in_foreign_frame s p with
    | none => none
    | some k =>
      match s.fli_context[k]? with
      | none => none
      | some fr =>
        let i := p - frameSlots s fr
        some { s with
          fli_context := s.fli_context.set k (lowerNoFreeBefore i fr)
          mem := Function.update s.mem p ATOM_term_t_free }

/-- `PL_reset_term_refs(r)`; `none` when `fli_context` is `NULL`. -/
def PL_reset_term_refs (s : LD) (r : term_t) : Option LD :=
  match s.fli_context with
  | [] => none
  | fr :: parents =>
    let top := valTermRef s r
    some { s with
      lTop := top
      fli_context := { fr with size := (top : Int) - (frameSlots s fr : Int) } :: parents }

/-! ## Globalizing and copying -/

/-- `globalizeTermRef(t)`; `fuel` bounds the number of times `goto retry` is taken,
and `none` means the bound was reached. -/
def globalizeTermRef : Nat → LD → term_t → Option (Bool × LD)
  | fuel, s, t =>
    let p := valTermRef s t
    if isVar (s.mem p) = true then
      if ¬ hasGlobalSpace s 1 = true then
        match ensureGlobalSpace s 1 with
        | (StackRc.TRUE, s1) =>
          match fuel with
          | 0 => none
          | k + 1 => globalizeTermRef k s1 t
        | (rc, s1) => some (raiseStackOverflow s1 rc)
      else
        let v := s.gTop
        let s1 := { s with gTop := s.gTop + 1, mem := Function.update s.mem v Word.var }
        some (true, Trail s1 p (makeRefG v))
    else some (true, s)

/-- The loop `while(isRef(*p)) p = unRef(*p)` of `deRef`; `fuel` bounds the number of
references followed. -/
def deRef (mem : Nat → Word) : Nat → Nat → Option Nat
  | fuel, p =>
    match mem p with
    | Word.ref q =>
      match fuel with
      | 0 => none
      | k + 1 => deRef mem k q
    | _ => some p

/-- The loop of `linkValG`, `linkValNoG` and `linkValI` started at the word `w`:
follow references, and return the last reference when it leads to a variable. -/
def linkValLoop (mem : Nat → Word) : Nat → Word → Option Word
  | fuel, w =>
    match w with
    | Word.ref q =>
      match fuel with
      | 0 => none
      | k + 1 => if needsRef (mem q) = true then some w else linkValLoop mem k (mem q)
    | _ => some w

/-- Modelled from the spec: `linkValI(p)` (declared in `pl-inline.h`), the link to
the value of the cell at `p`: the loop that `linkValG` in `pl-fli.c` runs, without
the branch that globalizes a variable, which the caller has to rule out. -/
def linkValI (mem : Nat → Word) (fuel : Nat) (p : Nat) : Option Word :=
  linkValLoop mem fuel (mem p)

/-- `PL_copy_term_ref(from)`; `none` when `fuel` does not suffice for one of the
loops or `fli_context` is `NULL`. -/
def PL_copy_term_ref (fuel : Nat) (s : LD) (frm : term_t) : Option (term_t × LD) :=
  match ensureLocalSpace s sizeofWord with
  | (false, s1) => some (0, s1)
  | (true, s1) =>
    match globalizeTermRef fuel s1 frm with
    | none => none
    | some (false, s2) => some (0, s2)
    | some (true, s2) =>
      let t := s2.lTop
      let r := consTermRef s2 t
      let p2 := valTermRef s2 frm
      match linkValI s2.mem fuel p2 with
      | none => none
      | some w =>
        match s2.fli_context with
        | [] => none
        | fr :: parents =>
          some (r, { s2 with
            mem := Function.update s2.mem t w
            lTop := t + 1
            fli_context := { fr with size := fr.size + 1 } :: parents })

/-! ## A concrete engine state -/

/-- A small state: the local stack starts at 100, the active foreign frame has its
record at 104 and owns the slots 108 and 109, its parent has its record at 100 and
owns no slot; the global stack has used the cells below 10. -/
def demoLD : LD where
  lBase := 100
  lTop := 110
  lMax := 112
  lLimit := 120
  gTop := 10
  gMax := 12
  gLimit := 20
  mark_bar := 0
  mem := fun a => if a = 108 then Word.int 42 else Word.var
  trail := []
  fli_context := [FliFrame.mk 104 2 1000, FliFrame.mk 100 0 1000]
  environment_frame := []
  query := []
  sizeofFliFrame := 4
  sizeofLocalFrame := 6
  exception := none

/-- The state `demoLD` after ten more slots were handed out: the local stack is full
and cannot grow. -/
def demoFullLD : LD :=
  { demoLD with
    lTop := 120
    lMax := 120
    fli_context := [FliFrame.mk 104 12 1000, FliFrame.mk 100 0 1000] }

/-! ## Sequences of handle operations -/

/-- The three operations on the handles of a frame. -/
inductive HandleOp where
  | new_term_ref
  | free_term_ref (h : term_t)
  | reset_term_refs (h : term_t)
  deriving DecidableEq

/-- What a sequence of operations did: the handles allocated, the calls that freed a
handle, those of them that freed the top slot, and the slots cut off by resets. -/
structure Tally where
  allocated : Nat
  freed : Nat
  freedOnTop : Nat
  discarded : Int
  deriving DecidableEq

/-- Nothing done yet. -/
def Tally.zero : Tally := Tally.mk 0 0 0 0

/-- One operation, with the bookkeeping of what it did. -/
def applyOp (s : LD) (c : Tally) : HandleOp → Option (LD × Tally)
  | HandleOp.new_term_ref =>
    match new_term_ref s with
    | none => none
    | some r => some (r.2, { c with allocated := c.allocated + 1 })
  | HandleOp.free_term_ref h =>
    match PL_free_term_ref s h with
    | none => none
    | some s1 =>
      some (s1, { c with
        freed := c.freed + 1
        freedOnTop := if valTermRef s h + 1 = s.lTop then c.freedOnTop + 1 else c.freedOnTop })
  | HandleOp.reset_term_refs h =>
    match PL_reset_term_refs s h with
    | none => none
    | some s1 =>
      some (s1, { c with discarded := c.discarded + ((s.lTop : Int) - (valTermRef s h : Int)) })

/-- A sequence of operations, from left to right. -/
def runOps : List HandleOp → LD → Tally → Option (LD × Tally)
  | [], s, c => some (s, c)
  | op :: ops, s, c =>
    match applyOp s c op with
    | none => none
    | some r => runOps ops r.1 r.2

/-- The size counter of the active frame. -/
def activeSize (s : LD) : Option Int :=
  s.fli_context.head?.map FliFrame.size

/-- The size counter and the bookkeeping after a sequence of operations. -/
def countAfter (ops : List HandleOp) (s : LD) : Option (Option Int × Tally) :=
  (runOps ops s Tally.zero).map fun r => (activeSize r.1, r.2)

/-- A freshly opened frame: the state `demoLD` before its two handles were made. -/
def demoEmptyLD : LD :=
  { demoLD with
    lTop := 108
    fli_context := [FliFrame.mk 104 0 1000, FliFrame.mk 100 0 1000] }

/-- The state after `globalizeTermRef` has made a global cell for the variable in the
slot at `p`: the statements `v = gTop++; setVar(*v); Trail(p, makeRefG(v))`. -/
def globalizeAt (s : LD) (p : Nat) : LD :=
  Trail { s with gTop := s.gTop + 1, mem := Function.update s.mem s.gTop Word.var } p
    (makeRefG s.gTop)

/-- The state `demoLD` with a global stack that is full and cannot grow. -/
def demoNoGlobalLD : LD :=
  { demoLD with gTop := 20, gMax := 20 }

/-! ## The layout of the frame chain -/

/-- Every parent frame lies below its child on the local stack: its record is at a
lower position and its slots end at or before the record of the child. -/
def framesStacked (s : LD) : List FliFrame → Bool
  | [] => true
  | child :: rest =>
    match rest with
    | [] => true
    | parent :: _ =>
      decide (parent.addr < child.addr) &&
        decide ((frameSlots s parent : Int) + parent.size ≤ (child.addr : Int)) &&
        framesStacked s rest

/-- A state that is not laid out as a stack: the record of the active frame, at 104,
sits inside the ten slots 104 .. 113 that its parent claims. -/
def demoOverlapLD : LD :=
  { demoLD with
    lTop := 114
    lMax := 120
    fli_context := [FliFrame.mk 104 0 1000, FliFrame.mk 100 10 1000] }

/-- A state with one live query and no foreign frame: the query frame has its record
at 100 and the two arguments of its predicate at 106 and 107. -/
def demoQueryLD : LD :=
  { demoLD with
    lTop := 108
    mem := fun _ => Word.var
    fli_context := []
    query := [QueryFrame.mk (LocalFrame.mk 100 false 2)] }

/-- The same layout for an executing foreign predicate: its frame has its record at
100 and its two arguments at 106 and 107. -/
def demoForeignLD : LD :=
  { demoLD with
    lTop := 108
    mem := fun _ => Word.var
    fli_context := []
    environment_frame := [LocalFrame.mk 100 true 2] }

/-! ## Terms: atoms, functors and compounds -/

/-- The atom `[]`. -/
def ATOM_nil : Word := Word.atom 1

/-- The atom `abort`. -/
def ATOM_abort : Word := Word.atom 2

/-- The atom `global`. -/
def ATOM_global : Word := Word.atom 3

/-- The atom `stack`. -/
def ATOM_stack : Word := Word.atom 4

/-- The atom `resource_error`. -/
def ATOM_resource_error : Word := Word.atom 5

/-- The atom `time_limit_exceeded`. -/
def ATOM_time_limit_exceeded : Word := Word.atom 6

/-- The functor `error/2`. -/
def FUNCTOR_error2 : Word := Word.functor 7 2

/-- The functor of list cells, `'[|]'/2`. -/
def FUNCTOR_dot2 : Word := Word.functor 8 2

/-- The functor `resource_error/1`. -/
def FUNCTOR_resource_error1 : Word := Word.functor 5 1

/-- The functor `type_error/2`. -/
def FUNCTOR_type_error2 : Word := Word.functor 9 2

/-- The functor `unwind/1`. -/
def FUNCTOR_unwind1 : Word := Word.functor 10 1

/-- The functor `halt/1`. -/
def FUNCTOR_halt1 : Word := Word.functor 11 1

/-- The functor `thread_exit/1`. -/
def FUNCTOR_thread_exit1 : Word := Word.functor 12 1

/-- The functor `time_limit_exceeded/1`. -/
def FUNCTOR_time_limit_exceeded1 : Word := Word.functor 6 1

/-- The word is an atom (`isAtom`). -/
def isAtom (w : Word) : Bool :=
  match w with
  | Word.atom _ => true
  | _ => false

/-- The word is a tagged integer (`isTaggedInt`). -/
def isTaggedInt (w : Word) : Bool :=
  match w with
  | Word.int _ => true
  | _ => false

/-- The word is a compound pointer (`isTerm`). -/
def isTerm (w : Word) : Bool :=
  match w with
  | Word.compound _ => true
  | _ => false

/-- The word is a boxed value: a float, a string or a big integer (`isIndirect`). -/
def isIndirect (w : Word) : Bool :=
  match w with
  | Word.float _ => true
  | Word.string _ => true
  | Word.bigint _ => true
  | _ => false

/-- The word is `[]` (`isNil`). -/
def isNil (w : Word) : Bool := decide (w = ATOM_nil)

/-- The cell a pointer word points to (`valPtr`). -/
def valPtr (w : Word) : Nat :=
  match w with
  | Word.compound a => a
  | Word.ref a => a
  | Word.float a => a
  | Word.string a => a
  | Word.bigint a => a
  | _ => 0

/-- A compound pointer to the block at `a` (`consPtr(a, TAG_COMPOUND|STG_GLOBAL)`). -/
def consPtr (a : Nat) : Word := Word.compound a

/-- The arity of a functor descriptor (`arityFunctor`). -/
def arityFunctor (f : Word) : Nat :=
  match f with
  | Word.functor _ n => n
  | _ => 0

/-- The atom naming a functor descriptor (`nameFunctor`). -/
def nameFunctor (f : Word) : Word :=
  match f with
  | Word.functor a _ => Word.atom a
  | _ => Word.atom 0

/-- The functor descriptor in the first cell of a compound (`functorTerm`). -/
def functorTerm (mem : Nat → Word) (w : Word) : Word := mem (valPtr w)

/-- The word is a compound with the functor `f` (`hasFunctor`). -/
def hasFunctor (mem : Nat → Word) (w f : Word) : Bool :=
  isTerm w && decide (functorTerm mem w = f)

/-- The word is a list cell (`isList`). -/
def isList (mem : Nat → Word) (w : Word) : Bool := hasFunctor mem w FUNCTOR_dot2

/-- The cell of argument `n`, counted from 0, of a compound (`argTermP`). -/
def argTermP (w : Word) (n : Nat) : Nat := valPtr w + 1 + n

/-- The cell can be bound: it holds a plain or an attributed variable (`canBind`). -/
def canBind (w : Word) : Bool := needsRef w

/-- Store a word in the slot of a handle (`setHandle`). -/
def setHandle (s : LD) (h : term_t) (w : Word) : LD :=
  { s with mem := Function.update s.mem (valTermRef s h) w }

/-- The idiom `if ( !hasGlobalSpace(n) ) { if ( (rc=ensureGlobalSpace(n, ALLOW_GC)) !=
true ) return raiseStackOverflow(rc); }`: false stands for the early return. -/
def requireGlobalSpace (s : LD) (n : Nat) : Bool × LD :=
  if ¬ hasGlobalSpace s n = true then
    match ensureGlobalSpace s n with
    | (StackRc.TRUE, s1) => (true, s1)
    | (rc, s1) => raiseStackOverflow s1 rc
  else (true, s)

/-- Modelled from the spec: `allocGlobal(n)` makes room for `n` cells on the global
stack, growing it when needed, and returns the old top after advancing the top by
`n`; it returns `NULL`, here `none`, when the room cannot be made. -/
def allocGlobal (s : LD) (n : Nat) : Option Nat × LD :=
  match requireGlobalSpace s n with
  | (false, s1) => (none, s1)
  | (true, s1) => (some s1.gTop, { s1 with gTop := s1.gTop + n })

/-- Modelled from the spec: `bindConst(p, w)` binds the variable in the cell `p` to
the constant `w` and trails the binding like `Trail`.  For an attributed variable the
binding goes through `assignAttVar`, whose wake-up goals are not part of the
embedding. -/
def bindConst (s : LD) (p : Nat) (w : Word) : Bool × LD := (true, Trail s p w)

/-! ## Building compounds from handles -/

/-- `bindConsVal(to, p)` on the memory, with `dest` for `to`; `none` when `fuel` does
not suffice to dereference `p`. -/
def bindConsVal (mem : Nat → Word) (fuel : Nat) (dest p : Nat) : Option (Nat → Word) :=
  match deRef mem fuel p with
  | none => none
  | some q =>
    if canBind (mem q) = true then
      if dest < q ∧ ¬ isAttVar (mem q) = true then
        some (Function.update (Function.update mem dest Word.var) q (makeRefG dest))
      else some (Function.update mem dest (makeRefG q))
    else some (Function.update mem dest (mem q))

/-- `bArgVar(ap, vp)`; `none` when `fuel` does not suffice to dereference `vp`. -/
def bArgVar (fuel : Nat) (s : LD) (ap vp : Nat) : Option LD :=
  match deRef s.mem fuel vp with
  | none => none
  | some q =>
    if isVar (s.mem q) = true then
      if ap < q then
        some (Trail { s with mem := Function.update s.mem ap Word.var } q (makeRefG ap))
      else some { s with mem := Function.update s.mem ap (makeRefG q) }
    else if isAttVar (s.mem q) = true then
      some { s with mem := Function.update s.mem ap (makeRefG q) }
    else some { s with mem := Function.update s.mem ap (s.mem q) }

/-- The loop `while( arity-- > 0 ) bindConsVal(++a, ai++)` of `PL_cons_functor_v`. -/
def consArgsV (fuel : Nat) : Nat → (Nat → Word) → Nat → Nat → Option (Nat → Word)
  | 0, mem, _, _ => some mem
  | n + 1, mem, a, ai =>
    match bindConsVal mem fuel (a + 1) ai with
    | none => none
    | some mem1 => consArgsV fuel n mem1 (a + 1) (ai + 1)

/-- The loop `while( arity-- > 0 ) { r = va_arg(args, term_t); bindConsVal(++a,
valHandleP(r)); }` of `cons_functorv`; `none` also when the argument list is too
short. -/
def consArgsList (fuel : Nat) (lBase : Nat) :
    Nat → (Nat → Word) → Nat → List term_t → Option (Nat → Word)
  | 0, mem, _, _ => some mem
  | _ + 1, _, _, [] => none
  | n + 1, mem, a, r :: args =>
    match bindConsVal mem fuel (a + 1) (lBase + r) with
    | none => none
    | some mem1 => consArgsList fuel lBase n mem1 (a + 1) args

/-- `cons_functorv(h, fd, args)`, the body of `PL_cons_functor(h, fd, ...)`. -/
def cons_functorv (fuel : Nat) (s : LD) (h : term_t) (fd : Word) (args : List term_t) :
    Option (Bool × LD) :=
  let arity := arityFunctor fd
  if arity = 0 then some (true, setHandle s h (nameFunctor fd))
  else
    match requireGlobalSpace s (1 + arity) with
    | (false, s1) => some (false, s1)
    | (true, s1) =>
      let t := s1.gTop
      let s2 := { s1 with gTop := s1.gTop + (1 + arity), mem := Function.update s1.mem t fd }
      match consArgsList fuel s2.lBase arity s2.mem t args with
      | none => none
      | some mem1 => some (true, setHandle { s2 with mem := mem1 } h (consPtr t))

/-- `PL_cons_functor(h, fd, ...)`, with the handles that follow `fd` as the list
`args`. -/
def PL_cons_functor (fuel : Nat) (s : LD) (h : term_t) (fd : Word) (args : List term_t) :
    Option (Bool × LD) :=
  cons_functorv fuel s h fd args

/-- `PL_cons_functor_v(h, fd, a0)`. -/
def PL_cons_functor_v (fuel : Nat) (s : LD) (h : term_t) (fd : Word) (a0 : term_t) :
    Option (Bool × LD) :=
  let arity := arityFunctor fd
  if arity = 0 then some (true, setHandle s h (nameFunctor fd))
  else
    match requireGlobalSpace s (1 + arity) with
    | (false, s1) => some (false, s1)
    | (true, s1) =>
      let t := s1.gTop
      let s2 := { s1 with gTop := s1.gTop + (1 + arity) }
      let ai := valTermRef s2 a0
      let s3 := { s2 with mem := Function.update s2.mem t fd }
      match consArgsV fuel arity s3.mem t ai with
      | none => none
      | some mem1 => some (true, setHandle { s3 with mem := mem1 } h (consPtr t))

/-- `PL_cons_list(l, head, tail)`. -/
def PL_cons_list (fuel : Nat) (s : LD) (l head tail : term_t) : Option (Bool × LD) :=
  match requireGlobalSpace s 3 with
  | (false, s1) => some (false, s1)
  | (true, s1) =>
    let a := s1.gTop
    let s2 := { s1 with gTop := s1.gTop + 3, mem := Function.update s1.mem a FUNCTOR_dot2 }
    match bindConsVal s2.mem fuel (a + 1) (valTermRef s2 head) with
    | none => none
    | some mem1 =>
      match bindConsVal mem1 fuel (a + 2) (valTermRef s2 tail) with
      | none => none
      | some mem2 => some (true, setHandle { s2 with mem := mem2 } l (consPtr a))

/-- Modelled from the spec: `valHandle(t)`, the word that the slot of `t` dereferences
to; `none` when `fuel` does not suffice. -/
def valHandle (fuel : Nat) (s : LD) (t : term_t) : Option Word :=
  (deRef s.mem fuel (valTermRef s t)).map s.mem

/-- `PL_get_compound_name_arity_sz(t, &name, &arity)`: `some none` is the result
false, `some (some (name, arity))` the result true with the two values stored. -/
def PL_get_compound_name_arity_sz (fuel : Nat) (s : LD) (t : term_t) :
    Option (Option (Word × Nat)) :=
  match valHandle fuel s t with
  | none => none
  | some w =>
    if isTerm w = true then
      let fd := functorTerm s.mem w
      some (some (nameFunctor fd, arityFunctor fd))
    else some none

/-- `PL_get_arg_sz(index, t, a)`. -/
def PL_get_arg_sz (fuel : Nat) (index : Nat) (s : LD) (t a : term_t) : Option (Bool × LD) :=
  match valHandle fuel s t with
  | none => none
  | some w =>
    if isTerm w = true ∧ index > 0 then
      let f := valPtr w
      let arity := arityFunctor (s.mem f)
      if index - 1 < arity then
        let p := f + 1 + (index - 1)
        match linkValI s.mem fuel p with
        | none => none
        | some v => some (true, setHandle s a v)
      else some (false, s)
    else some (false, s)

/-- A state for building compounds: `demoLD` with the atom `stack` in slot 108 and the
integer 7 in slot 109. -/
def demoArgsLD : LD :=
  { demoLD with mem := fun a => if a = 108 then ATOM_stack else Word.int 7 }

/-! ## Unifying with an atomic value -/

/-- Modelled from the spec: `equalIndirect(w1, w2)`, deep equality of two boxed
values: the boxed data, header included, that the two words point to are the same.
`boxed` gives the data stored at a cell of the global stack. -/
def equalIndirect (boxed : Nat → List Nat) (w1 w2 : Word) : Bool :=
  decide (boxed (valPtr w1) = boxed (valPtr w2))

/-- `PL_unify_atomic(t, w)`; `none` when `fuel` does not suffice to dereference the
handle. -/
def PL_unify_atomic (boxed : Nat → List Nat) (fuel : Nat) (s : LD) (t : term_t) (w : Word) :
    Option (Bool × LD) :=
  match deRef s.mem fuel (valTermRef s t) with
  | none => none
  | some p =>
    if canBind (s.mem p) = true then some (bindConst s p w)
    else if s.mem p = w then some (true, s)
    else if isIndirect w = true ∧ isIndirect (s.mem p) = true then
      some (equalIndirect boxed w (s.mem p), s)
    else some (false, s)

/-- Boxed data for examples: the cells 3 and 5 hold the same two words. -/
def demoBoxed (c : Nat) : List Nat :=
  if c = 3 ∨ c = 5 then [2, 77] else [1, c]

/-- The state `demoLD` with a string pointing to cell 3 in slot 108. -/
def demoStringLD : LD :=
  { demoLD with mem := fun a => if a = 108 then Word.string 3 else Word.var }

/-! ## Blobs -/

/-- The type descriptor of a blob (`PL_blob_t`): the flag `PL_BLOB_NOCOPY` and the
release callback with the value it returns for an atom, `none` for no callback. -/
structure PL_blob_t where
  nocopy : Bool
  release : Option (Nat → Bool)

/-- An atom record (`struct atom`): its type, its content pointer (`none` for `NULL`)
and the length of the content. -/
structure Atom where
  type : PL_blob_t
  name : Option Nat
  length : Nat

/-- The atom table (`GD->atoms`) together with the list of the atoms that a release
callback was run on, the latest first. -/
structure AtomTable where
  array : Nat → Atom
  released : List Nat

/-- `PL_free_blob(a)` for the atom with index `a`. -/
def PL_free_blob (gd : AtomTable) (a : Nat) : Bool × AtomTable :=
  let x := gd.array a
  let type := x.type
  match type.release with
  | none => (false, gd)
  | some release =>
    if type.nocopy = true ∧ x.name.isSome = true then
      let gd1 := { gd with released := a :: gd.released }
      if release a = true then
        (true, { gd1 with
          array := Function.update gd1.array a { x with length := 0, name := none } })
      else (false, gd1)
    else (false, gd)

/-- An atom table in which atom 20 is a no-copy blob with content at 4000 whose
release callback succeeds, atom 21 a no-copy blob whose callback fails, and every
other atom a copied text atom without callback. -/
def demoAtoms : AtomTable where
  array := fun a =>
    if a = 20 then Atom.mk (PL_blob_t.mk true (some fun _ => true)) (some 4000) 16
    else if a = 21 then Atom.mk (PL_blob_t.mk true (some fun _ => false)) (some 4100) 8
    else Atom.mk (PL_blob_t.mk false none) (some 5000) 3
  released := []

/-! ## Dicts -/

/-- Modelled from the spec: `dict_functor(len)`, the reserved head functor of a dict
with `len` keys; its arguments are the tag and the `len` pairs of a value and a
key. -/
def dict_functor (len : Nat) : Word := Word.functor 13 (2 * len + 1)

/-- Modelled from the spec: `is_dict_key(w)`, a well-formed dict key is an atom or a
tagged integer. -/
def is_dict_key (w : Word) : Bool := isAtom w || isTaggedInt w

/-- The first loop of `PL_put_dict`: `globalizeTermRef` on each of the `len` value
handles, stopping at the first failure. -/
def globalizeValues (fuel : Nat) : Nat → LD → term_t → Option (Bool × LD)
  | 0, s, _ => some (true, s)
  | n + 1, s, v =>
    match globalizeTermRef fuel s v with
    | none => none
    | some (false, s1) => some (false, s1)
    | some (true, s1) => globalizeValues fuel n s1 (v + 1)

/-- The second loop of `PL_put_dict` over the keys: write the link to the value and the
key; false stands for `goto invalid`. -/
def putDictPairs (fuel : Nat) (lBase : Nat) :
    List Word → (Nat → Word) → Nat → term_t → Option (Bool × (Nat → Word))
  | [], mem, _, _ => some (true, mem)
  | k :: keys, mem, p, v =>
    match linkValI mem fuel (lBase + v) with
    | none => none
    | some w =>
      let mem1 := Function.update mem p w
      if is_dict_key k = true then
        putDictPairs fuel lBase keys (Function.update mem1 (p + 1) k) (p + 2) (v + 1)
      else some (false, mem1)

/-- `PL_put_dict(t, tag, len, keys, values)` with `len` the length of the array `keys`
and `tag = none` for the tag 0.  The absent `dict_order(p0, NULL)` is the parameter
`dict_order`; following the spec it reports whether the keys of the dict at `p0` are
in canonical order and does not reorder them.  The array of keys lies in memory, so
`len*2+2` does not wrap. -/
def PL_put_dict (dict_order : (Nat → Word) → Nat → Bool) (fuel : Nat) (s : LD) (t : term_t)
    (tag : Option Word) (keys : List Word) (values : term_t) : Option (Int × LD) :=
  let len := keys.length
  let size := len * 2 + 2
  match globalizeValues fuel len s values with
  | none => none
  | some (false, s1) => some (0, s1)
  | some (true, s1) =>
    match allocGlobal s1 size with
    | (none, s2) => some (0, s2)
    | (some p0, s2) =>
      let mem3 := Function.update s2.mem p0 (dict_functor len)
      let tagged : Option (Nat → Word) :=
        match tag with
        | some tg => if isAtom tg = true then some (Function.update mem3 (p0 + 1) tg) else none
        | none => some (Function.update mem3 (p0 + 1) Word.var)
      match tagged with
      | none => some (-1, { s2 with mem := mem3, gTop := s2.gTop - size })
      | some mem4 =>
        match putDictPairs fuel s2.lBase keys mem4 (p0 + 2) values with
        | none => none
        | some (false, mem5) => some (-1, { s2 with mem := mem5, gTop := s2.gTop - size })
        | some (true, mem5) =>
          if dict_order mem5 p0 = true then
            some (1, setHandle { s2 with mem := mem5 } t (consPtr p0))
          else some (-2, { s2 with mem := mem5, gTop := s2.gTop - size })

/-- The index of an atom word. -/
def atomIndex (w : Word) : Nat :=
  match w with
  | Word.atom k => k
  | _ => 0

/-- A check of the key order for examples: the keys of the dict at `p0`, at the cells
`p0+3`, `p0+5`, ..., are atoms with increasing indices. -/
def demoDictOrder (mem : Nat → Word) (p0 : Nat) : Bool :=
  let n := (arityFunctor (mem p0) - 1) / 2
  decide (List.Pairwise (fun a b => a < b)
    ((List.range n).map fun i => atomIndex (mem (p0 + 3 + 2 * i))))

/-! ## Lists -/

/-- The results of `PL_skip_list`. -/
inductive ListType where
  | PL_LIST
  | PL_PARTIAL_LIST
  | PL_CYCLIC_TERM
  | PL_NOT_A_LIST
  deriving DecidableEq

/-- The loop of `skip_list` from the dereferenced cell `l`: while the cell holds a list
cell that was not met before, go on to its dereferenced tail and count; `seen` are the
list words met so far, `steps` bounds the number of cells skipped. -/
def skipListFrom (mem : Nat → Word) (fuel : Nat) :
    Nat → List Word → Nat → Nat → Option (Nat × Nat)
  | steps, seen, l, length =>
    if isList mem (mem l) = true ∧ mem l ∉ seen then
      match steps with
      | 0 => none
      | k + 1 =>
        match deRef mem fuel (argTermP (mem l) 1) with
        | none => none
        | some l1 => skipListFrom mem fuel k (mem l :: seen) l1 (length + 1)
    else some (length, l)

/-- Modelled from the spec: `skip_list(l, &tail)` follows the tails of the list cells
from `l` on until it reaches a cell that holds no list cell or a list cell it has met
before; it returns the number of cells skipped and the cell reached.  `none` when
`fuel` does not suffice. -/
def skip_list (mem : Nat → Word) (fuel : Nat) (l : Nat) : Option (Nat × Nat) :=
  match deRef mem fuel l with
  | none => none
  | some l0 => skipListFrom mem fuel fuel [] l0 0

/-- Modelled from the spec: `unify_ptrs(t1, t2, 0)` for a cell `t1` that holds an
unbound variable and a dereferenced cell `t2`.  Of two variables the one at the higher
address is bound to the one at the lower address, an attributed variable is not bound
over, and a value is bound to the variable; every binding is trailed. -/
def unify_ptrs (s : LD) (t1 t2 : Nat) : LD :=
  if t1 = t2 then s
  else if isVar (s.mem t2) = true then
    if t2 < t1 then Trail s t1 (makeRefG t2) else Trail s t2 (makeRefG t1)
  else if isAttVar (s.mem t2) = true then Trail s t1 (makeRefG t2)
  else Trail s t1 (s.mem t2)

/-- `PL_skip_list(list, tail, &len)`, with `tail = none` for the handle 0: the result,
the length stored in `*len` and the state. -/
def PL_skip_list (fuel : Nat) (s : LD) (list : term_t) (tail : Option term_t) :
    Option (ListType × Nat × LD) :=
  let l := valTermRef s list
  match skip_list s.mem fuel l with
  | none => none
  | some (length, t) =>
    let s1 :=
      match tail with
      | none => s
      | some tl =>
        let t2 := valTermRef s tl
        unify_ptrs { s with mem := Function.update s.mem t2 Word.var } t2 t
    if isNil (s1.mem t) = true then some (ListType.PL_LIST, length, s1)
    else if isVar (s1.mem t) = true then some (ListType.PL_PARTIAL_LIST, length, s1)
    else if isList s1.mem (s1.mem t) = true then some (ListType.PL_CYCLIC_TERM, length, s1)
    else some (ListType.PL_NOT_A_LIST, length, s1)

/-- Cells for examples: `[1,2,3]` at 20, `[1,2|X]` at 30 with `X` the cell 35, a list
cell at 40 whose tail is itself, `[1,2|foo]` at 50, and handles for the four lists in
the slots 108 to 111. -/
def demoListCells : List (Nat × Word) :=
  [(20, FUNCTOR_dot2), (21, Word.int 1), (22, Word.compound 23),
   (23, FUNCTOR_dot2), (24, Word.int 2), (25, Word.compound 26),
   (26, FUNCTOR_dot2), (27, Word.int 3), (28, ATOM_nil),
   (30, FUNCTOR_dot2), (31, Word.int 1), (32, Word.compound 33),
   (33, FUNCTOR_dot2), (34, Word.int 2), (35, Word.var),
   (40, FUNCTOR_dot2), (41, Word.int 1), (42, Word.compound 40),
   (50, FUNCTOR_dot2), (51, Word.int 1), (52, Word.compound 53),
   (53, FUNCTOR_dot2), (54, Word.int 2), (55, Word.atom 9),
   (108, Word.compound 20), (109, Word.compound 30), (110, Word.compound 40),
   (111, Word.compound 50)]

/-- The state for the list examples: the active frame owns the slots 108 to 112, the
last of which serves as the tail handle; the global stack is used up to cell 60. -/
def demoListLD : LD :=
  { demoLD with
    lTop := 113
    lMax := 120
    gTop := 60
    gMax := 80
    gLimit := 90
    mem := fun a => (demoListCells.lookup a).getD Word.var
    fli_context := [FliFrame.mk 104 5 1000, FliFrame.mk 100 0 1000] }

/-- The state `demoListLD` with `[]` in the slot of the handle 12. -/
def demoNilLD : LD :=
  { demoListLD with mem := Function.update demoListLD.mem 112 ATOM_nil }

/-! ## Foreign frames -/

/-- Modelled from the spec: the handle of a foreign frame (`fid_t`), the offset of its
record on the local stack; the mark that the record stores, the global top and the
length of the trail when the frame was opened, is carried along with it. -/
structure fid_t where
  frame : term_t
  gmark : Nat
  tmark : Nat
  deriving DecidableEq

/-- Modelled from the spec: `PL_open_foreign_frame()` pushes the record of a new,
empty frame at the local-stack top and makes it the active frame; it returns 0, here
`none`, when there is no room for the record. -/
def PL_open_foreign_frame (s : LD) : Option fid_t × LD :=
  match ensureLocalSpace s (s.sizeofFliFrame * sizeofWord) with
  | (false, s1) => (none, s1)
  | (true, s1) =>
    (some (fid_t.mk (consTermRef s1 s1.lTop) s1.gTop s1.trail.length),
      { s1 with
        lTop := s1.lTop + s1.sizeofFliFrame
        fli_context := FliFrame.mk s1.lTop 0 (SIZE_MAX1 - 1) :: s1.fli_context })

/-- The frames that remain when the frame with its record at `addr` is closed: its
parent chain. -/
def parentsOf (addr : Nat) : List FliFrame → List FliFrame
  | [] => []
  | fr :: parents => if fr.addr = addr then parents else parentsOf addr parents

/-- Modelled from the spec: `PL_close_foreign_frame(fid)` makes the parent of the frame
the active frame and lowers the local-stack top to the record of the frame; the terms
made meanwhile stay. -/
def PL_close_foreign_frame (s : LD) (fid : fid_t) : LD :=
  { s with
    fli_context := parentsOf (valTermRef s fid.frame) s.fli_context
    lTop := valTermRef s fid.frame }

/-- Undo the bindings recorded by the newest `n` entries of the trail. -/
def undoTrail (mem : Nat → Word) : Nat → List Nat → (Nat → Word) × List Nat
  | 0, trail => (mem, trail)
  | _ + 1, [] => (mem, [])
  | n + 1, p :: trail => undoTrail (Function.update mem p Word.var) n trail

/-- Modelled from the spec: `PL_rewind_foreign_frame(fid)` undoes the bindings made
since the frame was opened, lowers the global top to its mark and discards the handles
of the frame. -/
def PL_rewind_foreign_frame (s : LD) (fid : fid_t) : LD :=
  let u := undoTrail s.mem (s.trail.length - fid.tmark) s.trail
  { s with
    mem := u.1
    trail := u.2
    gTop := fid.gmark
    lTop := valTermRef s fid.frame + s.sizeofFliFrame
    fli_context :=
      FliFrame.mk (valTermRef s fid.frame) 0 (SIZE_MAX1 - 1)
        :: parentsOf (valTermRef s fid.frame) s.fli_context }

/-! ## Exceptions -/

/-- The classes of exceptions (`except_class`). -/
inductive except_class where
  | EXCEPT_NONE
  | EXCEPT_OTHER
  | EXCEPT_ERROR
  | EXCEPT_RESOURCE
  | EXCEPT_TIMEOUT
  | EXCEPT_UNWIND
  | EXCEPT_THREAD_EXIT
  | EXCEPT_HALT
  | EXCEPT_ABORT
  deriving DecidableEq

/-- Modelled from the spec: the numbering of `except_class` (declared in `pl-fli.h`),
in the order none < error < timeout < resource exhaustion < the family of abort,
unwind and halt; an unclassified term ranks between none and error. -/
def specRank : except_class → Nat
  | except_class.EXCEPT_NONE => 0
  | except_class.EXCEPT_OTHER => 1
  | except_class.EXCEPT_ERROR => 2
  | except_class.EXCEPT_TIMEOUT => 3
  | except_class.EXCEPT_RESOURCE => 4
  | except_class.EXCEPT_UNWIND => 5
  | except_class.EXCEPT_THREAD_EXIT => 6
  | except_class.EXCEPT_HALT => 7
  | except_class.EXCEPT_ABORT => 8

/-- `classify_exception_p(p)`; `none` when `fuel` does not suffice for a
dereference. -/
def classify_exception_p (mem : Nat → Word) (fuel : Nat) (p : Nat) : Option except_class :=
  match deRef mem fuel p with
  | none => none
  | some p0 =>
    if isVar (mem p0) = true then some except_class.EXCEPT_NONE
    else if isAtom (mem p0) = true then
      if mem p0 = ATOM_time_limit_exceeded then some except_class.EXCEPT_TIMEOUT
      else some except_class.EXCEPT_OTHER
    else if hasFunctor mem (mem p0) FUNCTOR_error2 = true then
      match deRef mem fuel (argTermP (mem p0) 0) with
      | none => none
      | some p1 =>
        if isAtom (mem p1) = true then
          if mem p1 = ATOM_resource_error then some except_class.EXCEPT_RESOURCE
          else some except_class.EXCEPT_ERROR
        else some except_class.EXCEPT_ERROR
    else if hasFunctor mem (mem p0) FUNCTOR_time_limit_exceeded1 = true then
      some except_class.EXCEPT_TIMEOUT
    else if hasFunctor mem (mem p0) FUNCTOR_unwind1 = true then
      match deRef mem fuel (argTermP (mem p0) 0) with
      | none => none
      | some p1 =>
        if isAtom (mem p1) = true then
          if mem p1 = ATOM_abort then some except_class.EXCEPT_ABORT
          else some except_class.EXCEPT_UNWIND
        else if hasFunctor mem (mem p1) FUNCTOR_halt1 = true then
          some except_class.EXCEPT_HALT
        else if hasFunctor mem (mem p1) FUNCTOR_thread_exit1 = true then
          some except_class.EXCEPT_THREAD_EXIT
        else some except_class.EXCEPT_UNWIND
    else some except_class.EXCEPT_OTHER

/-- The inline `classify_exception(t)` of a handle, `classify_exception_p` on its
slot. -/
def classify_exception (fuel : Nat) (s : LD) (t : term_t) : Option except_class :=
  classify_exception_p s.mem fuel (valTermRef s t)

/-- A stack as `has_emergency_space` sees it (`struct stack`): top, maximum and spare
margin, in bytes. -/
structure Stack where
  top : Nat
  max : Nat
  spare : Nat
  deriving DecidableEq

/-- The value of a 64-bit pattern read as `ssize_t`. -/
def toSsize (n : Nat) : Int :=
  if n % SIZE_MAX1 < 2 ^ 63 then ((n % SIZE_MAX1 : Nat) : Int)
  else ((n % SIZE_MAX1 : Nat) : Int) - (SIZE_MAX1 : Int)

/-- `has_emergency_space(s, needed)`.  Addresses and sizes are 64-bit: the sum `top +
needed` and the difference with `max` wrap, and `lacking` is the difference read as
`ssize_t`.  Past the first test `lacking` is positive, so that its comparison with
the unsigned `spare` is the comparison of the two numbers. -/
def has_emergency_space (st : Stack) (needed : Nat) : Bool × Stack :=
  let sum := (st.top + needed) % SIZE_MAX1
  let lacking : Int := toSsize (sum + SIZE_MAX1 - st.max % SIZE_MAX1)
  if lacking ≤ 0 then (true, st)
  else if lacking.toNat < st.spare then
    (true, { st with
      max := (st.max + lacking.toNat) % SIZE_MAX1
      spare := st.spare - lacking.toNat })
  else (false, st)

/-- The global stack of the state as a `Stack` (`&LD->stacks.global`). -/
def globalStack (s : LD) : Stack :=
  Stack.mk (s.gTop * sizeofWord) (s.gMax * sizeofWord) s.gSpare

/-- `has_emergency_space(&LD->stacks.global, needed)` with its effect on the state. -/
def has_emergency_space_global (s : LD) (needed : Nat) : Bool × LD :=
  let r := has_emergency_space (globalStack s) needed
  (r.1, { s with gMax := r.2.max / sizeofWord, gSpare := r.2.spare })

/-- `PL_is_variable(t)`. -/
def PL_is_variable (fuel : Nat) (s : LD) (t : term_t) : Option Bool :=
  (valHandle fuel s t).map canBind

/-- `PL_is_functor(t, f)`. -/
def PL_is_functor (fuel : Nat) (s : LD) (t : term_t) (f : Word) : Option Bool :=
  (valHandle fuel s t).map fun w => hasFunctor s.mem w f

/-- `PL_put_atom(t, a)`. -/
def PL_put_atom (s : LD) (t : term_t) (a : Word) : LD := setHandle s t a

/-- Modelled from the spec: `PL_same_term(t1, t2)`, the two handles refer to the same
term: they dereference to the same unbound cell or to the same word. -/
def PL_same_term (fuel : Nat) (s : LD) (t1 t2 : term_t) : Option Bool :=
  match deRef s.mem fuel (valTermRef s t1), deRef s.mem fuel (valTermRef s t2) with
  | some p1, some p2 =>
    if canBind (s.mem p1) = true then some (decide (p1 = p2))
    else some (decide (s.mem p1 = s.mem p2))
  | _, _ => none

/-- `PL_clear_exception()`.  Modelled from the spec: the absent
`resumeAfterException` returns to the state without exception, resetting the current
exception, the handle that holds it and the pending stack overflow. -/
def PL_clear_exception (s : LD) : LD :=
  if s.exception_term ≠ 0 then
    { s with
      exception_term := 0
      exception := none
      mem := Function.update s.mem (valTermRef s s.exception_bin) Word.var }
  else s

/-- The retry of `copy_exception` without the context of an `error/2` term: the
conjunction `(arg = PL_new_term_ref()) && (av = PL_new_term_refs(2)) && PL_get_arg(1,
ex, arg) && duplicate_term(arg, av+0, 0, 0) && PL_cons_functor_v(bin, FUNCTOR_error2,
av)`.  The absent `duplicate_term` is the parameter `dup`. -/
def stripContext (dup : LD → term_t → term_t → Bool × LD) (fuel : Nat) (s : LD)
    (ex bin : term_t) : Option (Bool × LD) :=
  match PL_new_term_ref s with
  | none => none
  | some (arg, s1) =>
    if arg = 0 then some (false, s1)
    else
      match PL_new_term_refs s1 2 with
      | none => none
      | some (av, s2) =>
        if av = 0 then some (false, s2)
        else
          match PL_get_arg_sz fuel 1 s2 ex arg with
          | none => none
          | some (false, s3) => some (false, s3)
          | some (true, s3) =>
            match dup s3 arg (av + 0) with
            | (false, s4) => some (false, s4)
            | (true, s4) => PL_cons_functor_v fuel s4 bin FUNCTOR_error2 av

/-- The term `error(resource_error(stack), global)` written at the global top by
`copy_exception`, and the handle `bin` set to it. -/
def synthesizeOverflow (s : LD) (bin : term_t) : LD :=
  let p := s.gTop
  let m0 := Function.update s.mem p FUNCTOR_error2
  let m1 := Function.update m0 (p + 1) (consPtr (p + 3))
  let m2 := Function.update m1 (p + 2) ATOM_global
  let m3 := Function.update m2 (p + 3) FUNCTOR_resource_error1
  let m4 := Function.update m3 (p + 4) ATOM_stack
  let s1 := { s with mem := m4, gTop := s.gTop + 5 }
  { s1 with mem := Function.update s1.mem (valTermRef s1 bin) (consPtr p) }

/-- The statements of `copy_exception` after a failed `duplicate_term`:
`PL_rewind_foreign_frame(fid); PL_clear_exception(); LD->exception.processing =
true`. -/
def afterFailedCopy (s : LD) (fid : fid_t) : LD :=
  { PL_clear_exception (PL_rewind_foreign_frame s fid) with exception_processing := true }

/-- `copy_exception(ex, bin)`, with the absent `duplicate_term` as the parameter
`dup`; the result is always true.  `none` when `fuel` does not suffice or
`fli_context` is `NULL`. -/
def copy_exception (dup : LD → term_t → term_t → Bool × LD) (fuel : Nat) (s : LD)
    (ex bin : term_t) : Option (Bool × LD) :=
  match PL_open_foreign_frame s with
  | (none, s1) => some (true, PL_put_atom s1 bin ATOM_abort)
  | (some fid, s1) =>
    match dup s1 ex bin with
    | (true, s2) => some (true, PL_close_foreign_frame s2 fid)
    | (false, s2) =>
      let s4 := afterFailedCopy s2 fid
      match PL_is_functor fuel s4 ex FUNCTOR_error2 with
      | none => none
      | some true =>
        match stripContext dup fuel s4 ex bin with
        | none => none
        | some (true, s5) => some (true, PL_close_foreign_frame s5 fid)
        | some (false, s5) =>
          some (true, PL_put_atom (PL_close_foreign_frame s5 fid) bin ATOM_abort)
      | some false =>
        match has_emergency_space_global s4 (5 * sizeofWord) with
        | (true, s5) =>
          some (true, PL_close_foreign_frame (synthesizeOverflow s5 bin) fid)
        | (false, s5) =>
          some (true, PL_put_atom (PL_close_foreign_frame s5 fid) bin ATOM_abort)

/-- `PL_raise_exception(exception)`, with the numbering of the classes as the
parameter `rank` and `duplicate_term` as `dup`.  `none` stands for `fatalError` on an
unbound exception, and for a `fuel` that does not suffice.  `enableSpareStacks()` and
`freezeGlobal()` adjust stack margins that are not part of the state. -/
def PL_raise_exception (rank : except_class → Nat) (dup : LD → term_t → term_t → Bool × LD)
    (fuel : Nat) (s : LD) (exception : term_t) : Option (Bool × LD) :=
  match PL_is_variable fuel s exception with
  | none => none
  | some true => none
  | some false =>
    let s1 := { s with exception_processing := true }
    match PL_same_term fuel s1 exception s1.exception_bin with
    | none => none
    | some true => some (false, { s1 with exception_term := s1.exception_bin })
    | some false =>
      match classify_exception fuel s1 s1.exception_bin, classify_exception fuel s1 exception with
      | some co, some cn =>
        if rank cn ≥ rank co then
          let s2 := setHandle s1 s1.exception_bin Word.var
          match copy_exception dup fuel s2 exception s2.exception_bin with
          | none => none
          | some (_, s3) => some (false, { s3 with exception_term := s3.exception_bin })
        else some (false, { s1 with exception_term := s1.exception_bin })
      | _, _ => none

/-- A stand-in for a `duplicate_term` that succeeds: it makes the target handle refer
to the source term itself; a real copy gives a term of the same shape. -/
def shareTerm (s : LD) (ex bin : term_t) : Bool × LD :=
  match deRef s.mem 8 (valTermRef s ex) with
  | some q => (true, setHandle s bin (s.mem q))
  | none => (false, s)

/-- A stand-in for a `duplicate_term` that fails for lack of stack. -/
def noCopy (s : LD) (_ex _bin : term_t) : Bool × LD := (false, s)

/-- Cells for the exception examples: `error(resource_error(stack), global)` at 20,
`error(type_error(integer, foo), context)` at 30, a second type error at 40 and the
term `foo(bar)` at 50; handles for the four terms in the slots 109 to 112. -/
def demoExceptionCells : List (Nat × Word) :=
  [(20, FUNCTOR_error2), (21, Word.compound 23), (22, ATOM_global),
   (23, FUNCTOR_resource_error1), (24, ATOM_stack),
   (30, FUNCTOR_error2), (31, Word.compound 33), (32, Word.atom 14),
   (33, FUNCTOR_type_error2), (34, Word.atom 15), (35, Word.atom 9),
   (40, FUNCTOR_error2), (41, Word.compound 43), (42, Word.atom 14),
   (43, FUNCTOR_type_error2), (44, Word.atom 16), (45, Word.atom 9),
   (50, Word.functor 9 1), (51, Word.atom 17),
   (109, Word.compound 30), (110, Word.compound 20), (111, Word.compound 40),
   (112, Word.compound 50)]

/-- The state for the exception examples: handle 8 is `exception_bin` and holds the
word `pending`; the global stack is used up to cell 60 and has 8 words of emergency
margin. -/
def demoExceptionLD (pending : Word) : LD :=
  { demoLD with
    lTop := 113
    lMax := 130
    gTop := 60
    gMax := 80
    gLimit := 90
    gSpare := 64
    mem := fun a => if a = 108 then pending else (demoExceptionCells.lookup a).getD Word.var
    fli_context := [FliFrame.mk 104 5 1000, FliFrame.mk 100 0 1000]
    exception_bin := 8 }

/-! ## Atoms from character codes and from text -/

/-- The part of `GD->atoms` that maps character codes to atoms: the page table
`for_code`, an entry being `NULL`, here `none`, or a page of 256 atom handles with 0
for an empty place; `freed` lists the pages handed to `PL_free`, newest first. -/
structure CodeAtoms where
  for_code : Nat → Option (Nat → Nat)
  freed : List Nat

/-- The handle of the atom `end_of_file`. -/
def ATOM_end_of_file : Nat := 18

/-- `codeToAtom(chrcode)`, with `uncached` for the routine `uncachedCodeToAtom`, which
looks the atom of one character up in the atom table and returns its handle.  `none`
stands for the failing `assert(chrcode >= 0)`. -/
def codeToAtom (uncached : Int → Nat) (g : CodeAtoms) (chrcode : Int) : Option (Nat × CodeAtoms) :=
  if chrcode = -1 then some (ATOM_end_of_file, g)
  else if chrcode < 0 then none
  else if chrcode < 2 ^ 15 then
    let page := chrcode.toNat / 256
    let entry := chrcode.toNat % 256
    let pv : Nat → Nat :=
      match g.for_code page with
      | some pv => pv
      | none => fun _ => 0
    let g1 := { g with for_code := Function.update g.for_code page (some pv) }
    if pv entry ≠ 0 then some (pv entry, g1)
    else
      let a := uncached chrcode
      let pv1 := Function.update pv entry a
      some (a, { g1 with for_code := Function.update g1.for_code page (some pv1) })
  else some (uncached chrcode, g)

/-- The loop `for(page=0, pv=GD->atoms.for_code; page<256; page++)` of
`cleanupCodeToAtom` with `n` rounds to go: the body works on the entry `pv`, and no
statement of the loop moves `pv`. -/
def cleanupCodeToAtomLoop : Nat → Nat → CodeAtoms → CodeAtoms
  | 0, _, g => g
  | n + 1, pv, g =>
    match g.for_code pv with
    | some _ =>
      cleanupCodeToAtomLoop n pv
        { g with for_code := Function.update g.for_code pv none, freed := pv :: g.freed }
    | none => cleanupCodeToAtomLoop n pv g

/-- `cleanupCodeToAtom()`. -/
def cleanupCodeToAtom (g : CodeAtoms) : CodeAtoms :=
  cleanupCodeToAtomLoop 256 0 g

/-- A stand-in for `uncachedCodeToAtom`: the atom of the code `c` has the handle
`1000 + c`. -/
def demoUncached (c : Int) : Nat := 1000 + c.toNat

/-- The empty page table. -/
def demoCodeAtoms : CodeAtoms := CodeAtoms.mk (fun _ => none) []

/-- The bytes of a C string argument: what lies in memory from the pointer on, the
terminating 0 and the bytes that follow it included. -/
abbrev CString := List Nat

/-- The length up to the first 0 byte (`strlen`). -/
def strlen (s : CString) : Nat := (s.takeWhile fun c => decide (c ≠ 0)).length

/-- Modelled from the spec: `lookupAtom(s, len)`, the handle of the atom whose text is
the `len` bytes at `s`; `intern` is the atom table, which gives equal texts the same
handle. -/
def lookupAtom (intern : List Nat → Nat) (s : CString) (len : Nat) : Nat :=
  intern (s.take len)

/-- `PL_new_atom_nchars(len, s)`. -/
def PL_new_atom_nchars (intern : List Nat → Nat) (len : Nat) (s : CString) : Nat :=
  let len1 := if len = SIZE_MAX1 - 1 then strlen s else len
  lookupAtom intern s len1

/-- `PL_put_atom_chars(t, s)`; the reference count that `PL_unregister_atom` lowers is
not part of the state. -/
def PL_put_atom_chars (intern : List Nat → Nat) (st : LD) (t : term_t) (s : CString) :
    Bool × LD :=
  let a := lookupAtom intern s (strlen s)
  (true, setHandle st t (Word.atom a))

/-- `PL_put_atom_nchars(t, len, s)`: the atom is looked up with the `len` of the call;
the `len` that the next statement computes is not used by any later statement. -/
def PL_put_atom_nchars (intern : List Nat → Nat) (st : LD) (t : term_t) (len : Nat)
    (s : CString) : Bool × LD :=
  let a := lookupAtom intern s len
  let _len1 := if len = SIZE_MAX1 - 1 then strlen s else len
  (true, setHandle st t (Word.atom a))

/-- A stand-in for the atom table: a text gets a handle of its own. -/
def demoIntern (text : List Nat) : Nat :=
  Nat.ofDigits 257 (text.map fun c => c + 1)

/-- The C string `"abc"` in a buffer of four bytes. -/
def demoAbc : CString := [97, 98, 99, 0]

/-! ## References to XPCE objects -/

/-- The functor `@/1`. -/
def FUNCTOR_at_sign1 : Word := Word.functor 13 1

/-- The value stored through `xpceref_t *ref`: an integer with the type `PL_INTEGER`
or an atom with the type `PL_ATOM`. -/
inductive xpceref_t where
  | PL_INTEGER (i : Int)
  | PL_ATOM (a : Nat)
  deriving DecidableEq

/-- The value of an `int` returned from a function of type `bool`: every value other
than 0 becomes true. -/
def boolOfInt (i : Int) : Bool := decide (i ≠ 0)

/-- The loop `do { ... } while(isRef(*p) && (p = unRef(*p)))` of
`_PL_get_xpce_reference`: `some (some r)` for `goto ok` with `r` stored, `some none`
for leaving the loop, `none` when `fuel` does not suffice.  `isTextAtom` tells the
handles of text atoms from those of blobs. -/
def xpceReferenceLoop (isTextAtom : Nat → Bool) (mem : Nat → Word) :
    Nat → Nat → Option (Option xpceref_t)
  | fuel, p =>
    match mem p with
    | Word.int i => some (some (xpceref_t.PL_INTEGER i))
    | Word.atom a =>
      if isTextAtom a = true then some (some (xpceref_t.PL_ATOM a)) else some none
    | Word.ref q =>
      if q = 0 then some none
      else
        match fuel with
        | 0 => none
        | k + 1 => xpceReferenceLoop isTextAtom mem k q
    | _ => some none

/-- `_PL_get_xpce_reference(t, ref)`: the boolean returned and what was stored through
`ref`, `none` for nothing. -/
def _PL_get_xpce_reference (isTextAtom : Nat → Bool) (fuel : Nat) (s : LD) (t : term_t) :
    Option (Bool × Option xpceref_t) :=
  match valHandle fuel s t with
  | none => none
  | some w =>
    if ¬ isTerm w = true then some (false, none)
    else
      let fd := functorTerm s.mem w
      if fd = FUNCTOR_at_sign1 then
        match xpceReferenceLoop isTextAtom s.mem fuel (argTermP w 0) with
        | none => none
        | some (some r) => some (true, some r)
        | some none => some (boolOfInt (-1), none)
      else some (false, none)

/-- The state `demoLD` with four terms: `@(f(a))` in slot 108, `@(X)` with `X` unbound
in slot 109, `@(42)` in slot 110 and `@(foo)` in slot 111. -/
def demoXpceLD : LD :=
  { demoLD with
    lTop := 112
    gTop := 40
    gMax := 60
    mem := fun a =>
      ([(20, FUNCTOR_at_sign1), (21, Word.compound 23), (23, Word.functor 9 1),
        (24, Word.atom 17),
        (26, FUNCTOR_at_sign1), (27, Word.var),
        (28, FUNCTOR_at_sign1), (29, Word.int 42),
        (30, FUNCTOR_at_sign1), (31, Word.atom 15),
        (108, Word.compound 20), (109, Word.compound 26), (110, Word.compound 28),
        (111, Word.compound 30)].lookup a).getD Word.var
    fli_context := [FliFrame.mk 104 4 1000, FliFrame.mk 100 0 1000] }

/-! ## Reading a float -/

/-- The word is a boxed float (`isFloat`). -/
def isFloat (w : Word) : Bool :=
  match w with
  | Word.float _ => true
  | _ => false

/-- The word is an integer, tagged or big (`isRational`; rationals that are not
integers have no word of their own in the embedding). -/
def isRational (w : Word) : Bool :=
  match w with
  | Word.int _ => true
  | Word.bigint _ => true
  | _ => false

/-- `get_float(t, f, error)`: the boolean returned, the double stored through `f`
(`none` for nothing stored) and the state.  The doubles are the values of a type `D`.
Three absent routines are parameters: `valFloat` reads a boxed float,
`promoteToFloatNumber` stands for `get_rational` followed by `promoteToFloatNumber`,
which gives the double of a number or fails and leaves its error in the state, and
`PL_type_error` raises the type error for `t`. -/
def get_float {D : Type} (valFloat : Word → D)
    (promoteToFloatNumber : LD → Word → Option D × LD) (PL_type_error : LD → term_t → LD)
    (fuel : Nat) (s : LD) (t : term_t) (error : Bool) : Option (Bool × Option D × LD) :=
  match valHandle fuel s t with
  | none => none
  | some w =>
    if isFloat w = true then some (true, some (valFloat w), s)
    else if isRational w = true then
      match promoteToFloatNumber s w with
      | (some f, s1) => some (true, some f, s1)
      | (none, s1) =>
        if ¬ error = true then some (false, none, PL_clear_exception s1)
        else some (false, none, s1)
    else if error = true then some (false, none, PL_type_error s t)
    else some (false, none, s)

/-- `PL_get_float(t, f)`. -/
def PL_get_float {D : Type} (valFloat : Word → D)
    (promoteToFloatNumber : LD → Word → Option D × LD) (PL_type_error : LD → term_t → LD)
    (fuel : Nat) (s : LD) (t : term_t) : Option (Bool × Option D × LD) :=
  get_float valFloat promoteToFloatNumber PL_type_error fuel s t false

/-- `PL_get_float_ex(t, f)`. -/
def PL_get_float_ex {D : Type} (valFloat : Word → D)
    (promoteToFloatNumber : LD → Word → Option D × LD) (PL_type_error : LD → term_t → LD)
    (fuel : Nat) (s : LD) (t : term_t) : Option (Bool × Option D × LD) :=
  get_float valFloat promoteToFloatNumber PL_type_error fuel s t true

/-- A stand-in for reading a boxed float: the double is named by its cell. -/
def demoValFloat (w : Word) : Nat := valPtr w

/-- A stand-in for the promotion of a number: a tagged integer has a double, named by
its absolute value, and a big integer is out of the range of the doubles, which leaves
an error as the current exception. -/
def demoPromote (s : LD) (w : Word) : Option Nat × LD :=
  match w with
  | Word.int i => (some i.natAbs, s)
  | _ => (none, { s with exception_term := s.exception_bin })

/-- A stand-in for `PL_type_error`: an error becomes the current exception. -/
def demoTypeError (s : LD) (_t : term_t) : LD :=
  { s with exception_term := s.exception_bin }

/-- The state `demoExceptionLD` with the type error of cell 30 pending as the current
exception, and a big integer in the slot of handle 12. -/
def demoPendingLD : LD :=
  { demoExceptionLD (Word.compound 30) with
    exception_term := 8
    mem := fun a =>
      if a = 112 then Word.bigint 70 else (demoExceptionLD (Word.compound 30)).mem a }

/-! ## Canonical file names (`os/pl-os.c`) -/

/-- The byte at place `i` of a buffer; `none` outside the buffer. -/
def peek (buf : List Nat) (i : Nat) : Option Nat := buf[i]?

/-- The byte `k` places before `p`, as in `out[-1]`; `none` before the start of the
buffer. -/
def peekBack (buf : List Nat) (p k : Nat) : Option Nat :=
  if p < k then none else buf[p - k]?

/-- Store the byte `c` at place `i`; `none` outside the buffer. -/
def poke (buf : List Nat) (i c : Nat) : Option (List Nat) :=
  if i < buf.length then some (buf.set i c) else none

/-- The string that starts the buffer: the bytes before the first 0. -/
def cstr (buf : List Nat) : List Nat := buf.takeWhile fun c => decide (c ≠ 0)

/-- The variables of `canonicaliseFileName`: the buffer that `path` points to, the
places `in`, `out` and `start` in it, and the stack `saveb` of saved places, newest
first. -/
structure Canon where
  buf : List Nat
  inn : Nat
  out : Nat
  start : Nat
  saveb : List Nat

/-- Where the block under the label `again` is left: by `goto out` with the buffer as
it is, or at its end, for the statements behind it. -/
inductive CanonExit where
  | gotoOut (buf : List Nat)
  | behind (st : Canon)

/-- The loop `while( in[0] == '/' && in[1] == '.' && in[2] == '.' && in[3] == '/' )
in += 3`. -/
def skipParents (buf : List Nat) : Nat → Nat → Option Nat
  | 0, _ => none
  | fuel + 1, i =>
    match peek buf i with
    | none => none
    | some c0 =>
      if c0 ≠ 47 then some i
      else
        match peek buf (i + 1) with
        | none => none
        | some c1 =>
          if c1 ≠ 46 then some i
          else
            match peek buf (i + 2) with
            | none => none
            | some c2 =>
              if c2 ≠ 46 then some i
              else
                match peek buf (i + 3) with
                | none => none
                | some c3 => if c3 ≠ 47 then some i else skipParents buf fuel (i + 3)

/-- The loop `while( in[0] == '.' && in[1] == '/' ) in += 2`. -/
def skipCurrent (buf : List Nat) : Nat → Nat → Option Nat
  | 0, _ => none
  | fuel + 1, i =>
    match peek buf i with
    | none => none
    | some c0 =>
      if c0 ≠ 46 then some i
      else
        match peek buf (i + 1) with
        | none => none
        | some c1 => if c1 ≠ 47 then some i else skipCurrent buf fuel (i + 2)

/-- The loop `while( in[1] == '/' ) in++`. -/
def skipSlashes (buf : List Nat) : Nat → Nat → Option Nat
  | 0, _ => none
  | fuel + 1, i =>
    match peek buf (i + 1) with
    | none => none
    | some c => if c ≠ 47 then some i else skipSlashes buf fuel (i + 1)

/-- The test `out[-1] == '.' && out[-2] == '.' && (out-2 == start || out[-3] ==
'/')`, reading no more bytes than the C expression does. -/
def parentOnTop (buf : List Nat) (out start : Nat) : Option Bool :=
  match peekBack buf out 1 with
  | none => none
  | some c1 =>
    if c1 ≠ 46 then some false
    else
      match peekBack buf out 2 with
      | none => none
      | some c2 =>
        if c2 ≠ 46 then some false
        else if out = start + 2 then some true
        else (peekBack buf out 3).map fun c3 => decide (c3 = 47)

/-- The call `strncpy(out, in, 3)`, byte by byte from the lowest place: once a 0 has
been copied, zeros are stored. -/
def strncpy3 (buf : List Nat) (out inn : Nat) : Option (List Nat) :=
  match peek buf inn with
  | none => none
  | some c0 =>
    match poke buf out c0 with
    | none => none
    | some b1 =>
      match (if c0 = 0 then some 0 else peek b1 (inn + 1)) with
      | none => none
      | some c1 =>
        match poke b1 (out + 1) c1 with
        | none => none
        | some b2 =>
          match (if c0 = 0 ∨ c1 = 0 then some 0 else peek b2 (inn + 2)) with
          | none => none
          | some c2 => poke b2 (out + 2) c2

/-- The block under the label `again`, entered with `*in == '/'` or by `goto again`;
`fuel` bounds the number of times the label is reached. -/
def canonAgain : Nat → Canon → Option CanonExit
  | 0, _ => none
  | fuel + 1, st =>
    match peek st.buf st.inn with
    | none => none
    | some c =>
      if c = 0 then some (CanonExit.behind st)
      else
        match skipSlashes st.buf (fuel + 1) st.inn with
        | none => none
        | some i =>
          match peek st.buf (i + 1) with
          | none => none
          | some c1 =>
            if c1 ≠ 46 then some (CanonExit.behind { st with inn := i })
            else
              match peek st.buf (i + 2) with
              | none => none
              | some c2 =>
                if c2 = 47 then canonAgain fuel { st with inn := i + 2 }
                else if c2 = 0 then (poke st.buf st.out 0).map CanonExit.gotoOut
                else if c2 ≠ 46 then some (CanonExit.behind { st with inn := i })
                else
                  match peek st.buf (i + 3) with
                  | none => none
                  | some c3 =>
                    if ¬ (c3 = 47 ∨ c3 = 0) then some (CanonExit.behind { st with inn := i })
                    else
                      match parentOnTop st.buf st.out st.start with
                      | none => none
                      | some true =>
                        (strncpy3 st.buf st.out i).map fun b =>
                          CanonExit.behind { st with buf := b, inn := i + 3, out := st.out + 3 }
                      | some false =>
                        match st.saveb with
                        | o :: rest =>
                          if c3 = 0 ∧ o > st.start + 1 then
                            (if o < 1 then none else poke st.buf (o - 1) 0).map
                              CanonExit.gotoOut
                          else canonAgain fuel { st with inn := i + 3, out := o, saveb := rest }
                        | [] =>
                          match peek st.buf st.start with
                          | none => none
                          | some s0 =>
                            if s0 = 47 ∧ st.out = st.start + 1 then
                              canonAgain fuel { st with inn := i + 3 }
                            else some (CanonExit.behind { st with inn := i })

/-- The statements behind the block: `if ( *in ) in++; if ( out > path && out[-1] !=
'/' ) *out++ = '/'; addBuffer(&saveb, out, char*)`. -/
def canonBehind (st : Canon) : Option Canon :=
  match peek st.buf st.inn with
  | none => none
  | some c =>
    let inn1 := if c ≠ 0 then st.inn + 1 else st.inn
    if st.out > 0 then
      match peekBack st.buf st.out 1 with
      | none => none
      | some d =>
        if d ≠ 47 then
          (poke st.buf st.out 47).map fun b =>
            { st with buf := b, inn := inn1, out := st.out + 1, saveb := (st.out + 1) :: st.saveb }
        else some { st with inn := inn1, saveb := st.out :: st.saveb }
    else some { st with inn := inn1, saveb := st.out :: st.saveb }

/-- The loop `while(*in)` and the statement `*out++ = *in++` behind it: the buffer when
the function returns; `fuel` bounds the number of rounds. -/
def canonLoop : Nat → Canon → Option (List Nat)
  | 0, _ => none
  | fuel + 1, st =>
    match peek st.buf st.inn with
    | none => none
    | some c =>
      if c = 0 then poke st.buf st.out c
      else if c = 47 then
        match canonAgain (fuel + 1) st with
        | none => none
        | some (CanonExit.gotoOut b) => some b
        | some (CanonExit.behind st1) =>
          match canonBehind st1 with
          | none => none
          | some st2 => canonLoop fuel st2
      else
        match poke st.buf st.out c with
        | none => none
        | some b => canonLoop fuel { st with buf := b, inn := st.inn + 1, out := st.out + 1 }

/-- `canonicaliseFileName(path, buflen)` as compiled without `O_HASDRIVES`,
`O_NETBIOS` and `O_HASSHARES`: `path` is the buffer of `buflen` bytes, the result the
buffer on return, and `none` stands for a read or write outside the buffer or a `fuel`
that does not suffice.  The absent `file_name_is_iri` is a parameter: the length of the
scheme of an IRI, 0 for a plain path. -/
def canonicaliseFileName (file_name_is_iri : List Nat → Nat) (fuel : Nat) (path : List Nat) :
    Option (List Nat) :=
  let sl := file_name_is_iri path
  let in0 := if sl ≠ 0 then sl + 3 else 0
  match skipParents path fuel in0 with
  | none => none
  | some in1 =>
    match skipCurrent path fuel in1 with
    | none => none
    | some in2 =>
      match peek path in2 with
      | none => none
      | some c =>
        if c = 47 then
          match poke path in0 47 with
          | none => none
          | some b => canonLoop fuel (Canon.mk b in2 (in0 + 1) in0 [in0 + 1])
        else canonLoop fuel (Canon.mk path in2 in0 in0 [in0])

/-- Every path is a plain path: the `file_name_is_iri` of the examples. -/
def noIri (_path : List Nat) : Nat := 0

/-! ## The check of the frame size -/

/-- The assertion under `O_CHECK_TERM_REFS`, `s == fr->size` for `s = (Word)lTop -
(Word)(fr+1)` and `fr` the active frame: the size counter is the number of words from
the first slot of the frame to the local-stack top.  It is false without a frame. -/
def check_term_refs (s : LD) : Bool :=
  match s.fli_context with
  | [] => false
  | fr :: _ => decide ((s.lTop : Int) - (frameSlots s fr : Int) = fr.size)

/-! ## Lists of character codes and of characters -/

/-- The routines that the list unifiers reach and that are absent from the sources.
`unify` is `unify_ptrs(p1, p2, ALLOW_GC|ALLOW_SHIFT)` on two cells; `fitsTagged` is the
test `valInt(consInt(i)) == i`; `put_int64` is `put_int64(&w, i, 0)`, giving its return
code, with `StackRc.TRUE` for true, the word stored in `w` and the state; `O_BIGNUM`
tells whether the build has big integers; `get_int64` reads the integer of a word,
`none` for the result false; `PL_representation_error` raises
`representation_error(int64)` and `PL_type_error` raises `type_error(integer, t)`;
`boxed` gives the data of a boxed value; `intern` is the atom table behind
`lookupAtom`; `put_wchar` gives the wide characters written for a code and
`lookupBlob` the handle of the blob of type `ucs_atom` with that text. -/
structure Prims where
  unify : LD → Nat → Nat → Bool × LD
  fitsTagged : Int → Bool
  put_int64 : LD → Int → StackRc × Word × LD
  O_BIGNUM : Bool
  get_int64 : LD → Word → Option Int
  PL_representation_error : LD → Bool × LD
  PL_type_error : LD → term_t → Bool × LD
  boxed : Nat → List Nat
  intern : List Nat → Nat
  put_wchar : Int → List Nat
  lookupBlob : List Nat → Nat

/-- The word is an integer, tagged or big (`isInteger`). -/
def isInteger (w : Word) : Bool :=
  match w with
  | Word.int _ => true
  | Word.bigint _ => true
  | _ => false

/-- `uncachedCodeToAtom(chrcode)`: below 256 the atom whose text is the one byte
`(char)chrcode`, from 256 on the blob of the wide characters that `put_wchar` writes
for the code. -/
def uncachedCodeToAtom (P : Prims) (chrcode : Int) : Nat :=
  if chrcode < 256 then lookupAtom P.intern [(chrcode % 256).toNat] 1
  else P.lookupBlob (P.put_wchar chrcode)

/-- `unify_int64_ex(t, i, ex)`, with `Word.int i` for `consInt(i)` where `i` fits a
tagged integer; `none` when `fuel` does not suffice to dereference the handle. -/
def unify_int64_ex (P : Prims) (fuel : Nat) (s : LD) (t : term_t) (i : Int) (ex : Bool) :
    Option (Bool × LD) :=
  match deRef s.mem fuel (valTermRef s t) with
  | none => none
  | some p =>
    if canBind (s.mem p) = true then
      if P.fitsTagged i = true then some (bindConst s p (Word.int i))
      else
        match P.put_int64 s i with
        | (StackRc.TRUE, w1, s1) =>
          match deRef s1.mem fuel (valTermRef s1 t) with
          | none => none
          | some p1 => some (bindConst s1 p1 w1)
        | (rc, _, s1) =>
          if ¬ P.O_BIGNUM = true ∧ rc = StackRc.LOCAL_OVERFLOW then
            some (P.PL_representation_error s1)
          else some (raiseStackOverflow s1 rc)
    else if s.mem p = Word.int i ∧ P.fitsTagged i = true then some (true, s)
    else
      match P.get_int64 s (s.mem p) with
      | some v => some (decide (v = i), s)
      | none =>
        if ex = true ∧ ¬ isInteger (s.mem p) = true then some (P.PL_type_error s t)
        else some (false, s)

/-- The handle layer of a state: the base and the top of the local stack, the chain of
foreign frames and the size of a frame record. -/
def handlesOf (s : LD) : Nat × Nat × List FliFrame × Nat :=
  (s.lBase, s.lTop, s.fli_context, s.sizeofFliFrame)

/-- Where the slots of the active frame start: the base of the local stack, the size of
a frame record and the position of the record of the active frame. -/
def slotsOf (s : LD) : Nat × Nat × Option Nat :=
  (s.lBase, s.sizeofFliFrame, s.fli_context.head?.map FliFrame.addr)

/-- `PL_unify(t1, t2)`. -/
def PL_unify (P : Prims) (s : LD) (t1 t2 : term_t) : Bool × LD :=
  P.unify s (valTermRef s t1) (valTermRef s t2)

/-- `PL_unify_atom(t, a)`, with `a` the handle of the atom. -/
def PL_unify_atom (P : Prims) (fuel : Nat) (s : LD) (t : term_t) (a : Nat) :
    Option (Bool × LD) :=
  PL_unify_atomic P.boxed fuel s t (Word.atom a)

/-- `PL_unify_nil(l)`, the call `PL_unify_atom(l, ATOM_nil)`. -/
def PL_unify_nil (P : Prims) (fuel : Nat) (s : LD) (l : term_t) : Option (Bool × LD) :=
  PL_unify_atomic P.boxed fuel s l ATOM_nil

/-- `PL_unify_integer(t, i)`. -/
def PL_unify_integer (P : Prims) (fuel : Nat) (s : LD) (t : term_t) (i : Int) :
    Option (Bool × LD) :=
  if P.fitsTagged i = true then PL_unify_atomic P.boxed fuel s t (Word.int i)
  else unify_int64_ex P fuel s t i false

/-- The branch of `PL_unify_list` for an unbound list once the room is there: `a =
gTop; gTop += 3; ...; bindConst(p, c)`. -/
def unifyListBind (s : LD) (p : Nat) (h t : term_t) : Bool × LD :=
  let a := s.gTop
  let c := consPtr a
  let s1 := { s with gTop := s.gTop + 3, mem := Function.update s.mem a FUNCTOR_dot2 }
  let s2 := { s1 with mem := Function.update s1.mem (a + 1) Word.var }
  let s3 := setHandle s2 h (makeRefG (a + 1))
  let s4 := { s3 with mem := Function.update s3.mem (a + 2) Word.var }
  let s5 := setHandle s4 t (makeRefG (a + 2))
  (true, (bindConst s5 p c).2)

/-- `PL_unify_list(l, h, t)`; `none` when `fuel` does not suffice. -/
def PL_unify_list (fuel : Nat) (s : LD) (l h t : term_t) : Option (Bool × LD) :=
  match deRef s.mem fuel (valTermRef s l) with
  | none => none
  | some p =>
    if canBind (s.mem p) = true then
      if ¬ hasGlobalSpace s 3 = true then
        match ensureGlobalSpace s 3 with
        | (StackRc.TRUE, s1) =>
          match deRef s1.mem fuel (valTermRef s1 l) with
          | none => none
          | some p1 => some (unifyListBind s1 p1 h t)
        | (rc, s1) => some (raiseStackOverflow s1 rc)
      else some (unifyListBind s p h t)
    else if isList s.mem (s.mem p) = true then
      let a := argTermP (s.mem p) 0
      match linkValI s.mem fuel a with
      | none => none
      | some wh =>
        let s1 := setHandle s h wh
        match linkValI s1.mem fuel (a + 1) with
        | none => none
        | some wt => some (true, setHandle s1 t wt)
    else some (false, s)

/-- The loop `for( ; len-- != 0; chars++ ) { *p++ = FUNCTOR_dot2; *p++ = <element>; *p
= consPtr(p+1, TAG_COMPOUND|STG_GLOBAL); p++; }` of `PL_put_list_ncodes` and
`PL_put_list_nchars`, with `elem` for the element of a byte; `g` is the state that
`elem` works on.  The result carries the place `p` behind the last cell. -/
def putListLoop {G : Type} (elem : G → Nat → Option (Word × G)) :
    Nat → (Nat → Word) → G → Nat → CString → Option ((Nat → Word) × G × Nat)
  | 0, mem, g, p, _ => some (mem, g, p)
  | n + 1, mem, g, p, chars =>
    match elem g (chars.head?.getD 0 % 256) with
    | none => none
    | some (w, g1) =>
      let m1 := Function.update mem p FUNCTOR_dot2
      let m2 := Function.update m1 (p + 1) w
      let m3 := Function.update m2 (p + 2) (consPtr (p + 3))
      putListLoop elem n m3 g1 (p + 3) chars.tail

/-- The body shared by `PL_put_list_ncodes(t, len, chars)` and `PL_put_list_nchars(t,
len, chars)`. -/
def putList {G : Type} (elem : G → Nat → Option (Word × G)) (s : LD) (g : G) (t : term_t)
    (len : Nat) (chars : CString) : Option (Bool × LD × G) :=
  if len = 0 then some (true, setHandle s t ATOM_nil, g)
  else
    match allocGlobal s (len * 3 % SIZE_MAX1) with
    | (none, s1) => some (false, s1, g)
    | (some p, s1) =>
      let s2 := setHandle s1 t (consPtr p)
      match putListLoop elem len s2.mem g p chars with
      | none => none
      | some (mem1, g1, p1) =>
        some (true, { s2 with mem := Function.update mem1 (p1 - 1) ATOM_nil }, g1)

/-- The element of `PL_put_list_ncodes`: `consInt((intptr_t)*chars & 0xff)`. -/
def codeElem (g : Unit) (c : Nat) : Option (Word × Unit) := some (Word.int (c : Int), g)

/-- The element of `PL_put_list_nchars`: `codeToAtom(*chars & 0xff)`. -/
def charElem (P : Prims) (g : CodeAtoms) (c : Nat) : Option (Word × CodeAtoms) :=
  (codeToAtom (uncachedCodeToAtom P) g (c : Int)).map fun r => (Word.atom r.1, r.2)

/-- `PL_put_list_ncodes(t, len, chars)`. -/
def PL_put_list_ncodes (s : LD) (t : term_t) (len : Nat) (chars : CString) :
    Option (Bool × LD × Unit) :=
  putList codeElem s () t len chars

/-- `PL_put_list_nchars(t, len, chars)`. -/
def PL_put_list_nchars (P : Prims) (s : LD) (g : CodeAtoms) (t : term_t) (len : Nat)
    (chars : CString) : Option (Bool × LD × CodeAtoms) :=
  putList (charElem P) s g t len chars

/-- The loop `for( ; len-- != 0; chars++ ) { if ( !PL_unify_list(t, head, t) ||
!<unify head with the element> ) return false; }` of `PL_unify_list_ncodes` and
`PL_unify_list_nchars`, with `unifyElem` for the unification of `head` with the element
of a byte: false stands for `return false`, true for the end of the loop. -/
def unifyListLoop {G : Type} (unifyElem : G → LD → term_t → Nat → Option (Bool × LD × G))
    (fuel : Nat) : Nat → LD → G → term_t → term_t → CString → Option (Bool × LD × G)
  | 0, s, g, _, _, _ => some (true, s, g)
  | n + 1, s, g, t, head, chars =>
    match PL_unify_list fuel s t head t with
    | none => none
    | some (false, s1) => some (false, s1, g)
    | some (true, s1) =>
      match unifyElem g s1 head (chars.head?.getD 0 % 256) with
      | none => none
      | some (false, s2, g1) => some (false, s2, g1)
      | some (true, s2, g1) => unifyListLoop unifyElem fuel n s2 g1 t head chars.tail

/-- The body shared by `PL_unify_list_ncodes(l, len, chars)` and
`PL_unify_list_nchars(l, len, chars)`, with `put` for the `PL_put_list_...` of the
first branch and `unifyElem` for the element unification of the second. -/
def unifyListChars {G : Type} (P : Prims)
    (put : LD → G → term_t → Nat → CString → Option (Bool × LD × G))
    (unifyElem : G → LD → term_t → Nat → Option (Bool × LD × G))
    (fuel : Nat) (s : LD) (g : G) (l : term_t) (len : Nat) (chars : CString) :
    Option (Bool × LD × G) :=
  match PL_is_variable fuel s l with
  | none => none
  | some true =>
    match PL_new_term_ref s with
    | none => none
    | some (tmp, s1) =>
      match put s1 g tmp len chars with
      | none => none
      | some (false, s2, g1) => some (false, s2, g1)
      | some (true, s2, g1) => some ((PL_unify P s2 l tmp).1, (PL_unify P s2 l tmp).2, g1)
  | some false =>
    match PL_new_term_ref s with
    | none => none
    | some (head, s1) =>
      match PL_copy_term_ref fuel s1 l with
      | none => none
      | some (t, s2) =>
        match unifyListLoop unifyElem fuel len s2 g t head chars with
        | none => none
        | some (false, s3, g1) => some (false, s3, g1)
        | some (true, s3, g1) =>
          match PL_unify_nil P fuel s3 t with
          | none => none
          | some (rval, s4) => (PL_reset_term_refs s4 head).map fun s5 => (rval, s5, g1)

/-- The element unification of `PL_unify_list_ncodes`: `PL_unify_integer(head,
(int)*chars & 0xff)`. -/
def unifyCode (P : Prims) (fuel : Nat) (g : Unit) (s : LD) (head : term_t) (c : Nat) :
    Option (Bool × LD × Unit) :=
  (PL_unify_integer P fuel s head (c : Int)).map fun r => (r.1, r.2, g)

/-- The element unification of `PL_unify_list_nchars`: `PL_unify_atom(head,
codeToAtom(*chars & 0xff))`. -/
def unifyChar (P : Prims) (fuel : Nat) (g : CodeAtoms) (s : LD) (head : term_t) (c : Nat) :
    Option (Bool × LD × CodeAtoms) :=
  (codeToAtom (uncachedCodeToAtom P) g (c : Int)).bind fun a =>
    (PL_unify_atom P fuel s head a.1).map fun r => (r.1, r.2, a.2)

/-- `PL_unify_list_ncodes(l, len, chars)`. -/
def PL_unify_list_ncodes (P : Prims) (fuel : Nat) (s : LD) (l : term_t) (len : Nat)
    (chars : CString) : Option (Bool × LD × Unit) :=
  unifyListChars P (fun s1 _ t n cs => PL_put_list_ncodes s1 t n cs) (unifyCode P fuel) fuel s ()
    l len chars

/-- `PL_unify_list_nchars(l, len, chars)`. -/
def PL_unify_list_nchars (P : Prims) (fuel : Nat) (s : LD) (g : CodeAtoms) (l : term_t)
    (len : Nat) (chars : CString) : Option (Bool × LD × CodeAtoms) :=
  unifyListChars P (PL_put_list_nchars P) (unifyChar P fuel) fuel s g l len chars

/-- Stand-ins for the absent routines: unification binds an unbound first cell to what
the second cell holds, an integer of up to 57 bits fits a tagged integer, there is no
room for a boxed integer, only a tagged integer is read as an integer, raising an
error leaves the state alone, and the atoms and blobs are those of `demoIntern`. -/
def demoPrims : Prims where
  unify := fun s p q => (true, Trail s p (s.mem q))
  fitsTagged := fun i => decide (-(2 ^ 56) ≤ i ∧ i < 2 ^ 56)
  put_int64 := fun s _ => (StackRc.GLOBAL_OVERFLOW, Word.var, s)
  O_BIGNUM := true
  get_int64 := fun _ w =>
    match w with
    | Word.int v => some v
    | _ => none
  PL_representation_error := fun s => (false, s)
  PL_type_error := fun s _ => (false, s)
  boxed := demoBoxed
  intern := demoIntern
  put_wchar := fun c => [c.toNat]
  lookupBlob := demoIntern

/-- The state `s1` has the handles of `s` and one more: the local-stack top and the
size counter of the active frame are one higher. -/
def oneMoreHandle (s s1 : LD) : Prop :=
  s1.lTop = s.lTop + 1 ∧ activeSize s1 = (activeSize s).map fun n => n + 1

/-- The state `s1` has the handles of `s`: the local-stack top and the size counter of
the active frame are the same. -/
def sameHandleCount (s s1 : LD) : Prop :=
  s1.lTop = s.lTop ∧ activeSize s1 = activeSize s

/-! ## Lists from handles, and the order of the stacks -/

/-- The loop `for( ; count-- > 0; p += 3, elems++ )` of `PL_cons_list_v`, with `n`
rounds to go: the memory and the place `p` behind the last cell. -/
def consListVLoop (fuel : Nat) : Nat → (Nat → Word) → Nat → Nat → Option ((Nat → Word) × Nat)
  | 0, mem, p, _ => some (mem, p)
  | n + 1, mem, p, elems =>
    let m1 := Function.update mem p FUNCTOR_dot2
    match bindConsVal m1 fuel (p + 1) elems with
    | none => none
    | some m2 =>
      let m3 := Function.update m2 (p + 2) (if n > 0 then consPtr (p + 3) else ATOM_nil)
      consListVLoop fuel n m3 (p + 3) (elems + 1)

/-- `PL_cons_list_v(list, count, elems)`. -/
def PL_cons_list_v (fuel : Nat) (s : LD) (list : term_t) (count : Nat) (elems : term_t) :
    Option (Bool × LD) :=
  if count > 0 then
    match requireGlobalSpace s (3 * count % SIZE_MAX1) with
    | (false, s1) => some (false, s1)
    | (true, s1) =>
      match consListVLoop fuel count s1.mem s1.gTop (valTermRef s1 elems) with
      | none => none
      | some (mem1, p) =>
        let s2 := setHandle { s1 with mem := mem1 } list (consPtr s1.gTop)
        some (true, { s2 with gTop := p })
  else some (true, setHandle s list ATOM_nil)

/-- The order of the stacks that the argument cells rely on, for a memory `m0` with the
global top at `g` and the base of the local stack at `lB`: a reference held by a cell
in use, below the global top or on the local stack, leads to a cell in use, and no
attributed variable lives on the local stack. -/
structure HeapOrder (m0 : Nat → Word) (g lB : Nat) : Prop where
  refs : ∀ a q, (a < g ∨ lB ≤ a) → m0 a = Word.ref q → (q < g ∨ lB ≤ q)
  attvars : ∀ a, lB ≤ a → isAttVar (m0 a) = false

/-- The memory `m` while the cells from `g` on are written, the cells below `b` being
done, against the memory `m0` from before: a cell in use is as it was, or it is a
local variable that was bound to one of the new cells, which is unbound; and no new
cell holds a reference to the local stack. -/
structure ConsInv (m0 : Nat → Word) (g lB b : Nat) (m : Nat → Word) : Prop where
  outside : ∀ a, (a < g ∨ lB ≤ a) → m a = m0 a ∨
    (lB ≤ a ∧ m0 a = Word.var ∧ ∃ c, g ≤ c ∧ c < b ∧ m a = Word.ref c ∧ m c = Word.var)
  block : ∀ c, g ≤ c → c < b → ∀ q, m c = Word.ref q → q < lB

/-- A state for building terms from unbound handles: `demoLD` with both slots of the
active frame unbound, the global stack in use up to cell 10 with room up to 30. -/
def demoVarsLD : LD :=
  { demoLD with gMax := 30, gLimit := 40, mem := fun _ => Word.var }

/-- The memory `m` while the cells from `g` on are written, the cells below `b` being
done, as far as references to the local stack go: no attributed variable lives on the
local stack, from `lB` on, and no new cell holds a reference to the local stack. -/
structure ConsFree (g lB b : Nat) (m : Nat → Word) : Prop where
  attvars : ∀ a, lB ≤ a → isAttVar (m a) = false
  block : ∀ c, g ≤ c → c < b → ∀ q, m c = Word.ref q → q < lB

/-- None of the cells made between the state `s` and the state `s1`, from the global
top of `s` to that of `s1`, holds a reference to a cell of the local stack. -/
def noLocalRefs (s s1 : LD) : Prop :=
  ∀ c, s.gTop ≤ c → c < s1.gTop → ∀ q, s1.mem c = Word.ref q → q < s.lBase

/-- The cell `p` is bound, in the state `s1`, to a reference to one of the cells made
since the state `s`, and that cell is unbound. -/
def boundToNewCell (s s1 : LD) (p : Nat) : Prop :=
  ∃ c, s.gTop ≤ c ∧ c < s1.gTop ∧ s1.mem p = Word.ref c ∧ s1.mem c = Word.var

/-- The state `demoListLD` with the one-element list `[3]`, the list cell at 26, in the
slot of handle 8. -/
def demoShortListLD : LD :=
  { demoListLD with mem := Function.update demoListLD.mem 108 (Word.compound 26) }

end SwiplFli

namespace SwiplFli

/-! ## Stack space: what the growing routines leave alone -/

theorem ensureLocalSpace_lTop (s : LD) (b : Nat) : (ensureLocalSpace s b).2.lTop = s.lTop := by
  unfold ensureLocalSpace raiseStackOverflow
  split_ifs <;> rfl

theorem ensureLocalSpace_lBase (s : LD) (b : Nat) :
    (ensureLocalSpace s b).2.lBase = s.lBase := by
  unfold ensureLocalSpace raiseStackOverflow
  split_ifs <;> rfl

theorem ensureLocalSpace_mem (s : LD) (b : Nat) : (ensureLocalSpace s b).2.mem = s.mem := by
  unfold ensureLocalSpace raiseStackOverflow
  split_ifs <;> rfl

theorem ensureLocalSpace_fli_context (s : LD) (b : Nat) :
    (ensureLocalSpace s b).2.fli_context = s.fli_context := by
  unfold ensureLocalSpace raiseStackOverflow
  split_ifs <;> rfl

theorem ensureLocalSpace_gTop (s : LD) (b : Nat) : (ensureLocalSpace s b).2.gTop = s.gTop := by
  unfold ensureLocalSpace raiseStackOverflow
  split_ifs <;> rfl

/-! ## The loop that clears fresh slots -/

theorem setVars_outside (n : Nat) :
    ∀ (mem : Nat → Word) (t a : Nat), (a < t ∨ t + n ≤ a) → setVars mem t n a = mem a := by
  induction n with
  | zero => intro mem t a _; rfl
  | succ k ih =>
    intro mem t a h
    have hne : a ≠ t := by omega
    have hk : a < t + 1 ∨ t + 1 + k ≤ a := by omega
    simp only [setVars]
    rw [ih _ _ _ hk, Function.update_noteq hne]

theorem setVars_inside (n : Nat) :
    ∀ (mem : Nat → Word) (t a : Nat), t ≤ a → a < t + n → setVars mem t n a = Word.var := by
  induction n with
  | zero => intro mem t a h1 h2; omega
  | succ k ih =>
    intro mem t a h1 h2
    simp only [setVars]
    by_cases hat : a = t
    · subst hat
      rw [setVars_outside k _ _ _ (Or.inl (Nat.lt_succ_self a)), Function.update_same]
    · exact ih _ _ _ (by omega) (by omega)

/-! ## C1: allocation -/

/-- C1. When `ensureLocalSpace` provides the room, `PL_new_term_refs(n)` returns the
handle of the old local-stack top, the `n` slots from there on are unbound
variables, the top has advanced by `n`, the size counter of the active frame has
grown by `n` while its parents are untouched, and every cell outside the `n` new
slots, so every slot below the old top, keeps its word.  `PL_new_term_ref()` is
`PL_new_term_refs(1)`. -/
theorem PL_new_term_refs_spec (s : LD) (n : Nat) (fr : FliFrame) (parents : List FliFrame)
    (hctx : s.fli_context = fr :: parents)
    (hspace : (ensureLocalSpace s (n * sizeofWord % SIZE_MAX1)).1 = true) :
    (∃ s1 : LD, PL_new_term_refs s n = some (consTermRef s s.lTop, s1) ∧
      (∀ i, i < n → s1.mem (s.lTop + i) = Word.var) ∧
      s1.lTop = s.lTop + n ∧
      s1.fli_context = { fr with size := fr.size + (n : Int) } :: parents ∧
      (∀ a, (a < s.lTop ∨ s.lTop + n ≤ a) → s1.mem a = s.mem a)) ∧
    PL_new_term_refs s 1 = PL_new_term_ref s := by
  constructor
  · have hl := ensureLocalSpace_lTop s (n * sizeofWord % SIZE_MAX1)
    have hb := ensureLocalSpace_lBase s (n * sizeofWord % SIZE_MAX1)
    have hm := ensureLocalSpace_mem s (n * sizeofWord % SIZE_MAX1)
    have hf := ensureLocalSpace_fli_context s (n * sizeofWord % SIZE_MAX1)
    unfold PL_new_term_refs
    rcases hens : ensureLocalSpace s (n * sizeofWord % SIZE_MAX1) with ⟨b, s1⟩
    rw [hens] at hl hb hm hf hspace
    simp only at hl hb hm hf hspace
    subst hspace
    rw [hctx] at hf
    simp only [hf, hl, hm, consTermRef, hb]
    refine ⟨_, rfl, ?_, rfl, rfl, ?_⟩
    · intro i hi
      exact setVars_inside n _ _ _ (by omega) (by omega)
    · intro a ha
      exact setVars_outside n _ _ _ ha
  · unfold PL_new_term_refs PL_new_term_ref new_term_ref
    have h8 : 1 * sizeofWord % SIZE_MAX1 = sizeofWord := by decide
    rw [h8]
    rcases ensureLocalSpace s sizeofWord with ⟨b, s1⟩
    cases b
    · rfl
    · cases hc : s1.fli_context with
      | nil => simp [hc]
      | cons f ps => simp [hc, setVars]

/-- C1 at work: two fresh slots in `demoLD`. -/
theorem PL_new_term_refs_spec_witness :
    (∃ s1 : LD, PL_new_term_refs demoLD 2 = some (consTermRef demoLD demoLD.lTop, s1) ∧
      (∀ i, i < 2 → s1.mem (demoLD.lTop + i) = Word.var) ∧
      s1.lTop = demoLD.lTop + 2 ∧
      s1.fli_context = [FliFrame.mk 104 4 1000, FliFrame.mk 100 0 1000] ∧
      (∀ a, (a < demoLD.lTop ∨ demoLD.lTop + 2 ≤ a) → s1.mem a = demoLD.mem a)) ∧
    PL_new_term_refs demoLD 1 = PL_new_term_ref demoLD :=
  PL_new_term_refs_spec demoLD 2 (FliFrame.mk 104 2 1000) [FliFrame.mk 100 0 1000] rfl
    (by decide)

/-! ## C10: no room on the local stack -/

/-- C10. `PL_new_term_ref()` returns 0 when `ensureLocalSpace` cannot provide a word,
and the local-stack top, the frames and every cell are as before.  On a local stack
that is not empty, `PL_new_term_ref_noshift()` returns 0 exactly when the top plus one
word exceeds the maximum, and then the state is as before. -/
theorem new_term_ref_no_space (s : LD) (hne : s.lBase < s.lTop) :
    ((ensureLocalSpace s sizeofWord).1 = false →
      ∃ s1 : LD, PL_new_term_ref s = some (0, s1) ∧ s1.lTop = s.lTop ∧
        s1.fli_context = s.fli_context ∧ s1.mem = s.mem) ∧
    (s.lMax < s.lTop + 1 → PL_new_term_ref_noshift s = some (0, s)) ∧
    (∀ (r : term_t) (s1 : LD), PL_new_term_ref_noshift s = some (r, s1) →
      (r = 0 ↔ s.lMax < s.lTop + 1)) := by
  refine ⟨?_, ?_, ?_⟩
  · intro hfail
    have hl := ensureLocalSpace_lTop s sizeofWord
    have hm := ensureLocalSpace_mem s sizeofWord
    have hf := ensureLocalSpace_fli_context s sizeofWord
    unfold PL_new_term_ref
    rcases hens : ensureLocalSpace s sizeofWord with ⟨b, s1⟩
    rw [hens] at hl hm hf hfail
    simp only at hl hm hf hfail
    subst hfail
    exact ⟨s1, rfl, hl, hf, hm⟩
  · intro hfull
    unfold PL_new_term_ref_noshift
    rw [if_pos hfull]
  · intro r s1 hret
    unfold PL_new_term_ref_noshift at hret
    by_cases hfull : s.lTop + 1 > s.lMax
    · rw [if_pos hfull] at hret
      simp only [Option.some.injEq, Prod.mk.injEq] at hret
      exact ⟨fun _ => hfull, fun _ => hret.1.symm⟩
    · rw [if_neg hfull] at hret
      unfold new_term_ref at hret
      cases hc : s.fli_context with
      | nil => simp [hc] at hret
      | cons f ps =>
        simp only [hc, Option.some.injEq, Prod.mk.injEq, consTermRef] at hret
        constructor
        · intro h0
          have h1 : s.lTop - s.lBase = 0 := hret.1.trans h0
          omega
        · intro h
          exact absurd h hfull

/-- C10 at work: both allocators return 0 on the full stack of `demoFullLD`. -/
theorem new_term_ref_no_space_witness :
    (∃ s1 : LD, PL_new_term_ref demoFullLD = some (0, s1) ∧ s1.lTop = demoFullLD.lTop ∧
        s1.fli_context = demoFullLD.fli_context ∧ s1.mem = demoFullLD.mem) ∧
    PL_new_term_ref_noshift demoFullLD = some (0, demoFullLD) :=
  ⟨(new_term_ref_no_space demoFullLD (by decide)).1 (by decide),
   (new_term_ref_no_space demoFullLD (by decide)).2.1 (by decide)⟩

/-! ## The frame found by `in_foreign_frame` -/

theorem in_foreign_frame_from_sound (s : LD) (p : Nat) :
    ∀ (l : List FliFrame) (k0 k : Nat), in_foreign_frame_from s p k0 l = some k →
      ∃ fr : FliFrame, k0 ≤ k ∧ l[k - k0]? = some fr ∧ frameSlots s fr ≤ p ∧
        (p : Int) < (frameSlots s fr : Int) + fr.size := by
  intro l
  induction l with
  | nil => intro k0 k h; simp [in_foreign_frame_from] at h
  | cons fr parent ih =>
    intro k0 k h
    simp only [in_foreign_frame_from] at h
    split_ifs at h with h1 h2
    · simp only [Option.some.injEq] at h
      subst h
      exact ⟨fr, le_refl _, by simp, h1.1, h1.2⟩
    · obtain ⟨fr1, hk, hget, hlo, hhi⟩ := ih (k0 + 1) k h
      refine ⟨fr1, by omega, ?_, hlo, hhi⟩
      have hk1 : k - k0 = (k - (k0 + 1)) + 1 := by omega
      rw [hk1, List.getElem?_cons_succ]
      exact hget

theorem in_foreign_frame_sound (s : LD) (p k : Nat) (h : in_foreign_frame s p = some k) :
    ∃ fr : FliFrame, s.fli_context[k]? = some fr ∧ frameSlots s fr ≤ p ∧
      (p : Int) < (frameSlots s fr : Int) + fr.size := by
  obtain ⟨fr, _, hget, hlo, hhi⟩ := in_foreign_frame_from_sound s p s.fli_context 0 k h
  exact ⟨fr, by simpa using hget, hlo, hhi⟩

theorem list_set_getElem?_self {α : Type} :
    ∀ (l : List α) (k : Nat) (a : α), l[k]? = some a → l.set k a = l := by
  intro l
  induction l with
  | nil => intro k a h; simp at h
  | cons x xs ih =>
    intro k a h
    cases k with
    | zero =>
      simp only [List.getElem?_cons_zero, Option.some.injEq] at h
      simp [h]
    | succ j =>
      simp only [List.getElem?_cons_succ] at h
      simp [ih j a h]

theorem lowerNoFreeBefore_size (i : Nat) (fr : FliFrame) :
    (lowerNoFreeBefore i fr).size = fr.size := by
  unfold lowerNoFreeBefore
  split_ifs <;> rfl

theorem lowerNoFreeBefore_eq (i : Nat) (fr : FliFrame) :
    lowerNoFreeBefore i fr = { fr with no_free_before := min fr.no_free_before i } := by
  unfold lowerNoFreeBefore
  split_ifs with h
  · rw [min_eq_right (le_of_lt h)]
  · rw [min_eq_left (not_lt.mp h)]

/-! ## C3: freeing one handle -/

/-- C3. `PL_free_term_ref(h)`: when the slot of `h` is the one just below the
local-stack top, the top is lowered by one word, the size of the active frame is
decremented, and nothing else changes.  Otherwise, with `k` the frame that
`in_foreign_frame` finds for the slot, the top and every frame size are as before,
the slot of `h` holds the freed sentinel, every other cell is as before, and the
`no_free_before` of frame `k` is the minimum of its old value and the index of the
slot in that frame, the other frames being untouched. -/
theorem PL_free_term_ref_spec (s : LD) (h : term_t) :
    (valTermRef s h + 1 = s.lTop → ∀ (fr : FliFrame) (parents : List FliFrame),
      s.fli_context = fr :: parents →
      ∃ s1 : LD, PL_free_term_ref s h = some s1 ∧ s1.lTop + 1 = s.lTop ∧
        s1.fli_context = { fr with size := fr.size - 1 } :: parents ∧ s1.mem = s.mem) ∧
    (valTermRef s h + 1 ≠ s.lTop → ∀ k : Nat, in_foreign_frame s (valTermRef s h) = some k →
      ∃ (fr : FliFrame) (s1 : LD), s.fli_context[k]? = some fr ∧
        PL_free_term_ref s h = some s1 ∧ s1.lTop = s.lTop ∧
        s1.fli_context.map FliFrame.size = s.fli_context.map FliFrame.size ∧
        s1.mem (valTermRef s h) = ATOM_term_t_free ∧
        (∀ q, q ≠ valTermRef s h → s1.mem q = s.mem q) ∧
        s1.fli_context[k]? = some { fr with
          no_free_before := min fr.no_free_before (valTermRef s h - frameSlots s fr) } ∧
        (∀ j, j ≠ k → s1.fli_context[j]? = s.fli_context[j]?)) := by
  constructor
  · intro htop fr parents hctx
    refine ⟨{ s with lTop := valTermRef s h,
                     fli_context := { fr with size := fr.size - 1 } :: parents }, ?_, ?_, rfl, rfl⟩
    · unfold PL_free_term_ref
      simp only [htop, if_true, hctx]
    · exact htop
  · intro hnot k hk
    obtain ⟨fr, hget, _, _⟩ := in_foreign_frame_sound s _ k hk
    have hlen : k < s.fli_context.length := by
      rcases List.getElem?_eq_some.mp hget with ⟨hl, _⟩
      exact hl
    refine ⟨fr, { s with
      fli_context := s.fli_context.set k (lowerNoFreeBefore (valTermRef s h - frameSlots s fr) fr)
      mem := Function.update s.mem (valTermRef s h) ATOM_term_t_free }, hget, ?_, rfl, ?_, ?_, ?_, ?_, ?_⟩
    · unfold PL_free_term_ref
      simp only [hnot, if_false, hk, hget]
    · simp only [List.map_set, lowerNoFreeBefore_size]
      exact list_set_getElem?_self _ _ _ (by simp [hget])
    · simp
    · intro q hq
      simp [Function.update_noteq hq]
    · simp [hlen, lowerNoFreeBefore_eq]
    · intro j hj
      simp only
      exact List.getElem?_set_ne (Ne.symm hj)

/-- C3 at work in `demoLD`: handle 9 is the top slot, handle 8 an inner slot of the
active frame. -/
theorem PL_free_term_ref_spec_witness :
    (∃ s1 : LD, PL_free_term_ref demoLD 9 = some s1 ∧ s1.lTop + 1 = demoLD.lTop ∧
      s1.fli_context = [FliFrame.mk 104 1 1000, FliFrame.mk 100 0 1000] ∧
      s1.mem = demoLD.mem) ∧
    (∃ (fr : FliFrame) (s1 : LD), demoLD.fli_context[0]? = some fr ∧
      PL_free_term_ref demoLD 8 = some s1 ∧ s1.lTop = demoLD.lTop ∧
      s1.fli_context.map FliFrame.size = demoLD.fli_context.map FliFrame.size ∧
      s1.mem (valTermRef demoLD 8) = ATOM_term_t_free ∧
      (∀ q, q ≠ valTermRef demoLD 8 → s1.mem q = demoLD.mem q) ∧
      s1.fli_context[0]? = some { fr with
        no_free_before := min fr.no_free_before (valTermRef demoLD 8 - frameSlots demoLD fr) } ∧
      (∀ j, j ≠ 0 → s1.fli_context[j]? = demoLD.fli_context[j]?)) :=
  ⟨(PL_free_term_ref_spec demoLD 9).1 (by decide) (FliFrame.mk 104 2 1000)
      [FliFrame.mk 100 0 1000] rfl,
   (PL_free_term_ref_spec demoLD 8).2 (by decide) 0 (by decide)⟩

/-! ## C4: resetting to a handle -/

/-- C4. For a handle `h` at or above the first slot of the active frame,
`PL_reset_term_refs(h)` makes the slot of `h` the local-stack top and the offset of
that slot from the first slot of the frame the size of the frame; the parents and all
cells keep their contents; every handle from `h` on is reported out of range by
`valid_term_t` and lies outside the slots of the frame. -/
theorem PL_reset_term_refs_spec (s : LD) (h : term_t) (fr : FliFrame)
    (parents : List FliFrame) (hctx : s.fli_context = fr :: parents)
    (hlow : frameSlots s fr ≤ valTermRef s h) :
    ∃ s1 : LD, PL_reset_term_refs s h = some s1 ∧ s1.lTop = valTermRef s h ∧
      s1.fli_context =
        { fr with size := ((valTermRef s h - frameSlots s fr : Nat) : Int) } :: parents ∧
      s1.mem = s.mem ∧
      (∀ t : term_t, h ≤ t → valid_term_t s1 t = ApiCheck.out_of_range ∧
        ¬ (valTermRef s1 t < frameSlots s1 fr + (valTermRef s h - frameSlots s fr))) := by
  refine ⟨{ s with
    lTop := valTermRef s h
    fli_context :=
      { fr with size := ((valTermRef s h - frameSlots s fr : Nat) : Int) } :: parents },
    ?_, rfl, rfl, rfl, ?_⟩
  · unfold PL_reset_term_refs
    simp only [hctx, Option.some.injEq]
    have hsz : (valTermRef s h : Int) - (frameSlots s fr : Int)
        = ((valTermRef s h - frameSlots s fr : Nat) : Int) := by omega
    rw [hsz]
  · intro t ht
    have ht1 : @LE.le Nat _ h t := ht
    constructor
    · unfold valid_term_t onStackLocal valTermRef
      simp only [valTermRef]
      have : ¬ (s.lBase + t < s.lBase + h) := by omega
      simp [this]
    · unfold valTermRef frameSlots at *
      simp only
      omega

/-- C4 at work: resetting `demoLD` to its handle 8. -/
theorem PL_reset_term_refs_spec_witness :
    ∃ s1 : LD, PL_reset_term_refs demoLD 8 = some s1 ∧ s1.lTop = valTermRef demoLD 8 ∧
      s1.fli_context = [FliFrame.mk 104 0 1000, FliFrame.mk 100 0 1000] ∧
      s1.mem = demoLD.mem ∧
      (∀ t : term_t, 8 ≤ t → valid_term_t s1 t = ApiCheck.out_of_range ∧
        ¬ (valTermRef s1 t < frameSlots s1 (FliFrame.mk 104 2 1000) +
          (valTermRef demoLD 8 - frameSlots demoLD (FliFrame.mk 104 2 1000)))) :=
  PL_reset_term_refs_spec demoLD 8 (FliFrame.mk 104 2 1000) [FliFrame.mk 100 0 1000] rfl
    (by decide)

/-! ## C2: the size counter over a sequence of operations -/

theorem head?_set_lowerNoFreeBefore (i : Nat) (fr frk : FliFrame) :
    ∀ (l : List FliFrame) (k : Nat), l.head? = some fr → l[k]? = some frk →
      ∃ f1 : FliFrame, (l.set k (lowerNoFreeBefore i frk)).head? = some f1 ∧
        f1.size = fr.size ∧ f1.addr = fr.addr := by
  intro l k hhead hget
  cases l with
  | nil => simp at hhead
  | cons x xs =>
    simp only [List.head?_cons, Option.some.injEq] at hhead
    subst hhead
    cases k with
    | zero =>
      simp only [List.getElem?_cons_zero, Option.some.injEq] at hget
      subst hget
      refine ⟨lowerNoFreeBefore i x, by simp, lowerNoFreeBefore_size i x, ?_⟩
      unfold lowerNoFreeBefore
      split_ifs <;> rfl
    | succ j => exact ⟨x, by simp, rfl, rfl⟩

/-- The invariant carried along a sequence: the active frame ends at the local-stack
top and its size is the initial size `n0` corrected by the tally. -/
theorem applyOp_count (s s1 : LD) (c c1 : Tally) (op : HandleOp) (fr : FliFrame) (n0 : Int)
    (hhead : s.fli_context.head? = some fr)
    (hinv : (s.lTop : Int) = (frameSlots s fr : Int) + fr.size)
    (hcnt : fr.size = n0 + c.allocated - c.freedOnTop - c.discarded)
    (hstep : applyOp s c op = some (s1, c1)) :
    ∃ fr1 : FliFrame, s1.fli_context.head? = some fr1 ∧
      (s1.lTop : Int) = (frameSlots s1 fr1 : Int) + fr1.size ∧
      fr1.size = n0 + c1.allocated - c1.freedOnTop - c1.discarded := by
  cases hl : s.fli_context with
  | nil => simp [hl] at hhead
  | cons f parents =>
    have hf : f = fr := by simpa [hl] using hhead
    subst hf
    cases op with
    | new_term_ref =>
      simp only [applyOp, new_term_ref, hl, Option.some.injEq, Prod.mk.injEq] at hstep
      obtain ⟨hs, hc⟩ := hstep
      subst hs hc
      refine ⟨{ f with size := f.size + 1 }, rfl, ?_, ?_⟩
      · simp only [frameSlots] at hinv ⊢
        push_cast at hinv ⊢
        omega
      · simp only
        push_cast
        omega
    | free_term_ref h =>
      simp only [applyOp] at hstep
      cases hfree : PL_free_term_ref s h with
      | none => simp [hfree] at hstep
      | some s2 =>
        simp only [hfree, Option.some.injEq, Prod.mk.injEq] at hstep
        obtain ⟨hs, hc⟩ := hstep
        subst hs hc
        by_cases htop : valTermRef s h + 1 = s.lTop
        · unfold PL_free_term_ref at hfree
          simp only [htop, if_true, hl, Option.some.injEq] at hfree
          subst hfree
          refine ⟨{ f with size := f.size - 1 }, rfl, ?_, ?_⟩
          · simp only [frameSlots] at hinv ⊢
            push_cast at hinv ⊢
            omega
          · simp only [htop, if_true]
            push_cast
            omega
        · unfold PL_free_term_ref at hfree
          simp only [htop, if_false] at hfree
          cases hk : in_foreign_frame s (valTermRef s h) with
          | none => simp [hk] at hfree
          | some k =>
            simp only [hk] at hfree
            cases hg : s.fli_context[k]? with
            | none => simp [hg] at hfree
            | some frk =>
              simp only [hg, Option.some.injEq] at hfree
              obtain ⟨f1, hh1, hsz1, had1⟩ :=
                head?_set_lowerNoFreeBefore (valTermRef s h - frameSlots s frk) f frk
                  s.fli_context k (by rw [hl]; rfl) hg
              subst hfree
              refine ⟨f1, hh1, ?_, ?_⟩
              · simp only [frameSlots, hsz1, had1] at hinv ⊢
                exact hinv
              · simp only [htop, if_false, hsz1]
                exact hcnt
    | reset_term_refs h =>
      simp only [applyOp, PL_reset_term_refs, hl, Option.some.injEq, Prod.mk.injEq] at hstep
      obtain ⟨hs, hc⟩ := hstep
      subst hs hc
      refine ⟨_, rfl, ?_, ?_⟩
      · simp only [frameSlots]
        push_cast
        omega
      · simp only [frameSlots] at hinv ⊢
        push_cast at hinv ⊢
        omega

theorem runOps_count (ops : List HandleOp) :
    ∀ (s s1 : LD) (c c1 : Tally) (fr : FliFrame) (n0 : Int),
      s.fli_context.head? = some fr →
      (s.lTop : Int) = (frameSlots s fr : Int) + fr.size →
      fr.size = n0 + c.allocated - c.freedOnTop - c.discarded →
      runOps ops s c = some (s1, c1) →
      ∃ fr1 : FliFrame, s1.fli_context.head? = some fr1 ∧
        (s1.lTop : Int) = (frameSlots s1 fr1 : Int) + fr1.size ∧
        fr1.size = n0 + c1.allocated - c1.freedOnTop - c1.discarded := by
  induction ops with
  | nil =>
    intro s s1 c c1 fr n0 hhead hinv hcnt hrun
    simp only [runOps, Option.some.injEq, Prod.mk.injEq] at hrun
    obtain ⟨hs, hc⟩ := hrun
    subst hs hc
    exact ⟨fr, hhead, hinv, hcnt⟩
  | cons op rest ih =>
    intro s s1 c c1 fr n0 hhead hinv hcnt hrun
    simp only [runOps] at hrun
    cases hstep : applyOp s c op with
    | none => simp [hstep] at hrun
    | some r =>
      obtain ⟨s2, c2⟩ := r
      simp only [hstep] at hrun
      obtain ⟨fr2, hh2, hi2, hc2⟩ := applyOp_count s s2 c c2 op fr n0 hhead hinv hcnt hstep
      exact ih s2 s1 c2 c1 fr2 n0 hh2 hi2 hc2 hrun

/-- C2, the claim as stated fails: in a fresh frame, after two allocations and the
freeing of the first of the two handles, the size counter is 2 and not 2 - 1. -/
theorem handle_count_counterexample :
    countAfter [HandleOp.new_term_ref, HandleOp.new_term_ref, HandleOp.free_term_ref 8]
        demoEmptyLD = some (some 2, Tally.mk 2 1 0 0) ∧
      (2 : Int) ≠ (0 : Int) + 2 - 1 - 0 := by
  constructor
  · rfl
  · decide

/-- C2, amended.  In a frame whose size counter equals the number of words between
its first slot and the local-stack top, after any sequence of `new_term_ref`,
`PL_free_term_ref` and `PL_reset_term_refs` the size counter equals its initial value
plus the handles allocated, minus the handles freed while they were the top slot,
minus the slots cut off by resets; a handle freed below the top stays counted. -/
theorem handle_count_amended (ops : List HandleOp) (s s1 : LD) (c1 : Tally) (fr : FliFrame)
    (hhead : s.fli_context.head? = some fr)
    (hinv : (s.lTop : Int) = (frameSlots s fr : Int) + fr.size)
    (hrun : runOps ops s Tally.zero = some (s1, c1)) :
    activeSize s1 = some (fr.size + c1.allocated - c1.freedOnTop - c1.discarded) := by
  obtain ⟨fr1, hh1, _, hc1⟩ :=
    runOps_count ops s s1 Tally.zero c1 fr fr.size hhead hinv (by simp [Tally.zero]) hrun
  unfold activeSize
  rw [hh1, Option.map_some', hc1]

/-- C2 amended, at work: two allocations, the first handle freed in place, then the
second one freed on top, in the fresh frame of `demoEmptyLD`. -/
theorem handle_count_amended_witness :
    ∃ (s1 : LD) (c1 : Tally),
      runOps [HandleOp.new_term_ref, HandleOp.new_term_ref, HandleOp.free_term_ref 8,
        HandleOp.free_term_ref 9] demoEmptyLD Tally.zero = some (s1, c1) ∧
      c1 = Tally.mk 2 2 1 0 ∧
      activeSize s1 = some ((FliFrame.mk 104 0 1000).size + c1.allocated - c1.freedOnTop
        - c1.discarded) :=
  ⟨_, _, rfl, rfl,
    handle_count_amended
      [HandleOp.new_term_ref, HandleOp.new_term_ref, HandleOp.free_term_ref 8,
        HandleOp.free_term_ref 9] demoEmptyLD _ _ (FliFrame.mk 104 0 1000) rfl (by decide) rfl⟩

/-! ## C6: globalizing a handle -/

theorem globalizeTermRef_bound (fuel : Nat) (s : LD) (t : term_t)
    (h : isVar (s.mem (valTermRef s t)) = false) :
    globalizeTermRef fuel s t = some (true, s) := by
  cases fuel <;> simp [globalizeTermRef, h]

theorem globalizeTermRef_room (fuel : Nat) (s : LD) (t : term_t)
    (hv : isVar (s.mem (valTermRef s t)) = true) (hroom : s.gTop + 1 ≤ s.gMax) :
    globalizeTermRef fuel s t = some (true, globalizeAt s (valTermRef s t)) := by
  cases fuel <;> simp [globalizeTermRef, hv, hasGlobalSpace, hroom, globalizeAt]

theorem globalizeTermRef_grow (fuel : Nat) (s : LD) (t : term_t)
    (hv : isVar (s.mem (valTermRef s t)) = true) (hfull : ¬ s.gTop + 1 ≤ s.gMax)
    (hlim : s.gTop + 1 ≤ s.gLimit) :
    globalizeTermRef (fuel + 1) s t
      = some (true, globalizeAt { s with gMax := s.gLimit } (valTermRef s t)) := by
  have h1 : globalizeTermRef (fuel + 1) s t
      = globalizeTermRef fuel { s with gMax := s.gLimit } t := by
    simp [globalizeTermRef, hv, hasGlobalSpace, hfull, ensureGlobalSpace, hlim]
  rw [h1]
  exact globalizeTermRef_room fuel { s with gMax := s.gLimit } t hv hlim

theorem globalizeTermRef_overflow (fuel : Nat) (s : LD) (t : term_t)
    (hv : isVar (s.mem (valTermRef s t)) = true) (hfull : ¬ s.gTop + 1 ≤ s.gMax)
    (hlim : ¬ s.gTop + 1 ≤ s.gLimit) :
    globalizeTermRef fuel s t
      = some (false, { s with exception := some StackRc.GLOBAL_OVERFLOW }) := by
  cases fuel <;>
    simp [globalizeTermRef, hv, hasGlobalSpace, hfull, ensureGlobalSpace, hlim,
      raiseStackOverflow]

/-- With one unit of fuel `globalizeTermRef` returns: `goto retry` is taken at most
once. -/
theorem globalizeTermRef_returns (fuel : Nat) (s : LD) (t : term_t) :
    ∃ r : Bool × LD, globalizeTermRef (fuel + 1) s t = some r := by
  cases hv : isVar (s.mem (valTermRef s t)) with
  | false => exact ⟨_, globalizeTermRef_bound _ s t hv⟩
  | true =>
    by_cases hroom : s.gTop + 1 ≤ s.gMax
    · exact ⟨_, globalizeTermRef_room _ s t hv hroom⟩
    · by_cases hlim : s.gTop + 1 ≤ s.gLimit
      · exact ⟨_, globalizeTermRef_grow fuel s t hv hroom hlim⟩
      · exact ⟨_, globalizeTermRef_overflow _ s t hv hroom hlim⟩

/-- A successful `globalizeTermRef` on an unbound slot made exactly one cell. -/
theorem globalizeTermRef_var_true (fuel : Nat) (s s1 : LD) (t : term_t)
    (hv : isVar (s.mem (valTermRef s t)) = true)
    (hret : globalizeTermRef (fuel + 1) s t = some (true, s1)) :
    s1 = globalizeAt s (valTermRef s t) ∨
      s1 = globalizeAt { s with gMax := s.gLimit } (valTermRef s t) := by
  by_cases hroom : s.gTop + 1 ≤ s.gMax
  · rw [globalizeTermRef_room _ s t hv hroom] at hret
    simp only [Option.some.injEq, Prod.mk.injEq, true_and] at hret
    exact Or.inl hret.symm
  · by_cases hlim : s.gTop + 1 ≤ s.gLimit
    · rw [globalizeTermRef_grow fuel s t hv hroom hlim] at hret
      simp only [Option.some.injEq, Prod.mk.injEq, true_and] at hret
      exact Or.inr hret.symm
    · rw [globalizeTermRef_overflow _ s t hv hroom hlim] at hret
      simp at hret

/-- C6. `globalizeTermRef` on a handle whose slot is not an unbound variable returns
true and leaves the whole state as it is: no global cell, no trail entry, the same
slot.  On a handle whose slot is an unbound variable the call returns (one retry
suffices); when it returns true it has made exactly one global cell, the old global
top, bound the slot to a reference to that cell and trailed the slot, and a second
call returns true without changing anything, so the handle refers to the same cell
after both calls. -/
theorem globalizeTermRef_idempotent (fuel : Nat) (s : LD) (t : term_t) :
    (isVar (s.mem (valTermRef s t)) = false → globalizeTermRef fuel s t = some (true, s)) ∧
    (isVar (s.mem (valTermRef s t)) = true →
      (∃ r : Bool × LD, globalizeTermRef (fuel + 1) s t = some r) ∧
      ∀ s1 : LD, globalizeTermRef (fuel + 1) s t = some (true, s1) →
        s1.gTop = s.gTop + 1 ∧
        s1.mem (valTermRef s t) = makeRefG s.gTop ∧
        s1.trail = valTermRef s t :: s.trail ∧
        (∀ a, a ≠ valTermRef s t → a ≠ s.gTop → s1.mem a = s.mem a) ∧
        globalizeTermRef (fuel + 1) s1 t = some (true, s1) ∧
        s1.mem (valTermRef s1 t) = makeRefG s.gTop) := by
  refine ⟨globalizeTermRef_bound fuel s t, ?_⟩
  intro hv
  refine ⟨globalizeTermRef_returns fuel s t, ?_⟩
  intro s1 hret
  have key : ∀ s0 : LD, s0.gTop = s.gTop → s0.mem = s.mem → s0.trail = s.trail →
      s0.lBase = s.lBase → s1 = globalizeAt s0 (valTermRef s t) →
      s1.gTop = s.gTop + 1 ∧
      s1.mem (valTermRef s t) = makeRefG s.gTop ∧
      s1.trail = valTermRef s t :: s.trail ∧
      (∀ a, a ≠ valTermRef s t → a ≠ s.gTop → s1.mem a = s.mem a) ∧
      globalizeTermRef (fuel + 1) s1 t = some (true, s1) ∧
      s1.mem (valTermRef s1 t) = makeRefG s.gTop := by
    intro s0 hg hm ht hb hs1
    have hval : valTermRef s1 t = valTermRef s t := by
      rw [hs1]
      simp [valTermRef, globalizeAt, Trail, hb]
    have hslot : s1.mem (valTermRef s t) = makeRefG s.gTop := by
      rw [hs1]
      simp [globalizeAt, Trail, hg]
    refine ⟨?_, hslot, ?_, ?_, ?_, ?_⟩
    · rw [hs1]
      simp [globalizeAt, Trail, hg]
    · rw [hs1]
      simp [globalizeAt, Trail, hb, ht, valTermRef]
    · intro a ha hag
      rw [hs1]
      simp [globalizeAt, Trail, hg, hm, Function.update_noteq ha, Function.update_noteq hag]
    · apply globalizeTermRef_bound
      rw [hval, hslot]
      rfl
    · rw [hval]
      exact hslot
  rcases globalizeTermRef_var_true fuel s s1 t hv hret with h1 | h1
  · exact key s rfl rfl rfl rfl h1
  · exact key { s with gMax := s.gLimit } rfl rfl rfl rfl h1

/-- C6 at work in `demoLD`: handle 8 holds an integer, handle 9 an unbound
variable. -/
theorem globalizeTermRef_idempotent_witness :
    globalizeTermRef 0 demoLD 8 = some (true, demoLD) ∧
    ((∃ r : Bool × LD, globalizeTermRef 1 demoLD 9 = some r) ∧
      ∀ s1 : LD, globalizeTermRef 1 demoLD 9 = some (true, s1) →
        s1.gTop = demoLD.gTop + 1 ∧
        s1.mem (valTermRef demoLD 9) = makeRefG demoLD.gTop ∧
        s1.trail = valTermRef demoLD 9 :: demoLD.trail ∧
        (∀ a, a ≠ valTermRef demoLD 9 → a ≠ demoLD.gTop → s1.mem a = demoLD.mem a) ∧
        globalizeTermRef 1 s1 9 = some (true, s1) ∧
        s1.mem (valTermRef s1 9) = makeRefG demoLD.gTop) :=
  ⟨(globalizeTermRef_idempotent 0 demoLD 8).1 (by decide),
   (globalizeTermRef_idempotent 0 demoLD 9).2 (by decide)⟩

/-! ## C5: copying a handle -/

theorem deRef_nonref (mem : Nat → Word) (fuel p : Nat) (h : isRef (mem p) = false) :
    deRef mem fuel p = some p := by
  cases fuel <;> (unfold deRef; cases hm : mem p <;> simp_all [isRef])

theorem deRef_ref_succ (mem : Nat → Word) (fuel p q : Nat) (h : mem p = Word.ref q) :
    deRef mem (fuel + 1) p = deRef mem fuel q := by
  rw [deRef]
  simp [h]

theorem deRef_ref_zero (mem : Nat → Word) (p q : Nat) (h : mem p = Word.ref q) :
    deRef mem 0 p = none := by
  rw [deRef]
  simp [h]

/-- The link made by the loop of `linkValI` from the cell `a`, when dereferencing `a`
ends at the cell `q`: the word of `q` itself when that is a value, a reference to `q`
when `q` holds a variable. -/
theorem linkValLoop_of_deRef (mem : Nat → Word) :
    ∀ (fuel a q : Nat), deRef mem fuel a = some q →
      ∃ w : Word, linkValLoop mem fuel (mem a) = some w ∧
        ((w = mem q ∧ isRef w = false) ∨ (w = Word.ref q ∧ needsRef (mem q) = true)) := by
  intro fuel
  induction fuel with
  | zero =>
    intro a q hq
    cases hm : mem a with
    | ref q1 => rw [deRef_ref_zero mem a q1 hm] at hq; simp at hq
    | _ =>
      rw [deRef_nonref mem 0 a (by simp [hm, isRef])] at hq
      simp only [Option.some.injEq] at hq
      subst hq
      exact ⟨mem a, by simp [linkValLoop, hm], Or.inl ⟨rfl, by simp [hm, isRef]⟩⟩
  | succ k ih =>
    intro a q hq
    cases hm : mem a with
    | ref q1 =>
      rw [deRef_ref_succ mem k a q1 hm] at hq
      by_cases hn : needsRef (mem q1) = true
      · have hnr : isRef (mem q1) = false := by
          cases hq1 : mem q1 <;> simp_all [needsRef, isRef, isVar, isAttVar]
        rw [deRef_nonref mem k q1 hnr] at hq
        simp only [Option.some.injEq] at hq
        subst hq
        exact ⟨Word.ref q1, by simp [linkValLoop, hn], Or.inr ⟨rfl, hn⟩⟩
      · obtain ⟨w, hw, hcase⟩ := ih q1 q hq
        exact ⟨w, by simp [linkValLoop, hn, hw], hcase⟩
    | _ =>
      rw [deRef_nonref mem (k + 1) a (by simp [hm, isRef])] at hq
      simp only [Option.some.injEq] at hq
      subst hq
      exact ⟨mem a, by simp [linkValLoop, hm], Or.inl ⟨rfl, by simp [hm, isRef]⟩⟩

/-- Writing the slot at the top does not disturb dereferencing when no reference
leads to that slot. -/
theorem deRef_update_fresh (mem : Nat → Word) (top : Nat) (w : Word)
    (hfresh : ∀ a b, mem a = Word.ref b → b ≠ top) :
    ∀ (fuel a : Nat), a ≠ top →
      deRef (Function.update mem top w) fuel a = deRef mem fuel a := by
  intro fuel
  induction fuel with
  | zero =>
    intro a ha
    rw [deRef, deRef, Function.update_noteq ha]
  | succ k ih =>
    intro a ha
    cases hm : mem a with
    | ref q1 =>
      have hm1 : Function.update mem top w a = Word.ref q1 := by
        rw [Function.update_noteq ha, hm]
      rw [deRef_ref_succ _ k a q1 hm1, deRef_ref_succ _ k a q1 hm]
      exact ih q1 (hfresh a q1 hm)
    | _ =>
      rw [deRef_nonref mem (k + 1) a (by simp [hm, isRef]),
        deRef_nonref _ (k + 1) a (by simp [Function.update_noteq ha, hm, isRef])]

theorem ensureLocalSpace_trail (s : LD) (b : Nat) : (ensureLocalSpace s b).2.trail = s.trail := by
  unfold ensureLocalSpace raiseStackOverflow
  split_ifs <;> rfl

theorem ensureLocalSpace_gMax (s : LD) (b : Nat) : (ensureLocalSpace s b).2.gMax = s.gMax := by
  unfold ensureLocalSpace raiseStackOverflow
  split_ifs <;> rfl

theorem ensureLocalSpace_gLimit (s : LD) (b : Nat) :
    (ensureLocalSpace s b).2.gLimit = s.gLimit := by
  unfold ensureLocalSpace raiseStackOverflow
  split_ifs <;> rfl

/-- The cell where dereferencing ends is the start or the target of a reference. -/
theorem deRef_target (mem : Nat → Word) :
    ∀ (fuel a q : Nat), deRef mem fuel a = some q → q = a ∨ ∃ c, mem c = Word.ref q := by
  intro fuel
  induction fuel with
  | zero =>
    intro a q hq
    cases hm : mem a with
    | ref q1 => rw [deRef_ref_zero mem a q1 hm] at hq; simp at hq
    | _ =>
      rw [deRef_nonref mem 0 a (by simp [hm, isRef])] at hq
      exact Or.inl (Option.some.inj hq).symm
  | succ k ih =>
    intro a q hq
    cases hm : mem a with
    | ref q1 =>
      rw [deRef_ref_succ mem k a q1 hm] at hq
      rcases ih q1 q hq with h1 | h1
      · exact Or.inr ⟨a, by rw [hm, h1]⟩
      · exact Or.inr h1
    | _ =>
      rw [deRef_nonref mem (k + 1) a (by simp [hm, isRef])] at hq
      exact Or.inl (Option.some.inj hq).symm

/-- `PL_copy_term_ref` on a handle whose slot is not an unbound variable. -/
theorem PL_copy_term_ref_bound (fuel : Nat) (s : LD) (h : term_t) (fr : FliFrame)
    (parents : List FliFrame) (q : Nat)
    (hctx : s.fli_context = fr :: parents)
    (hspace : (ensureLocalSpace s sizeofWord).1 = true)
    (hnv : isVar (s.mem (valTermRef s h)) = false)
    (hon : valTermRef s h < s.lTop)
    (hfresh : ∀ a b, s.mem a = Word.ref b → b ≠ s.lTop)
    (hq : deRef s.mem fuel (valTermRef s h) = some q) :
    ∃ s1 : LD, PL_copy_term_ref fuel s h = some (consTermRef s s.lTop, s1) ∧
      s1.lTop = s.lTop + 1 ∧
      s1.fli_context = { fr with size := fr.size + 1 } :: parents ∧
      s1.gTop = s.gTop ∧ s1.trail = s.trail ∧
      (∀ a, a ≠ s.lTop → s1.mem a = s.mem a) ∧
      (deRef s1.mem (fuel + 1) s.lTop).map s1.mem
        = (deRef s1.mem fuel (valTermRef s h)).map s1.mem ∧
      (isRef (s1.mem s.lTop) = true →
        deRef s1.mem (fuel + 1) s.lTop = deRef s1.mem fuel (valTermRef s h)) := by
  have hl := ensureLocalSpace_lTop s sizeofWord
  have hb := ensureLocalSpace_lBase s sizeofWord
  have hm := ensureLocalSpace_mem s sizeofWord
  have hf := ensureLocalSpace_fli_context s sizeofWord
  have hgt := ensureLocalSpace_gTop s sizeofWord
  have htr := ensureLocalSpace_trail s sizeofWord
  rcases hens : ensureLocalSpace s sizeofWord with ⟨b, s0⟩
  rw [hens] at hl hb hm hf hgt htr hspace
  simp only at hl hb hm hf hgt htr hspace
  subst hspace
  have hval : valTermRef s0 h = valTermRef s h := by simp [valTermRef, hb]
  have hg : globalizeTermRef fuel s0 h = some (true, s0) :=
    globalizeTermRef_bound fuel s0 h (by rw [hval, hm]; exact hnv)
  obtain ⟨w, hw, hcase⟩ := linkValLoop_of_deRef s.mem fuel (valTermRef s h) q hq
  have hlink : linkValI s.mem fuel (valTermRef s0 h) = some w := by
    rw [hval]
    exact hw
  have hpt : valTermRef s h ≠ s.lTop := Nat.ne_of_lt hon
  have hqt : q ≠ s.lTop := by
    rcases deRef_target s.mem fuel _ q hq with h1 | ⟨c, hc⟩
    · rw [h1]; exact hpt
    · exact hfresh c q hc
  have hdp : deRef (Function.update s.mem s.lTop w) fuel (valTermRef s h) = some q := by
    rw [deRef_update_fresh s.mem s.lTop w hfresh fuel _ hpt]
    exact hq
  refine ⟨{ s0 with
      mem := Function.update s.mem s.lTop w
      lTop := s.lTop + 1
      fli_context := { fr with size := fr.size + 1 } :: parents }, ?_, rfl, rfl, hgt, htr, ?_, ?_, ?_⟩
  · unfold PL_copy_term_ref
    simp only [hens, hg, hlink, hf, hctx, consTermRef, hl, hb, hm]
  · intro a ha
    simp only [Function.update_noteq ha]
  · simp only [hdp, Option.map_some']
    rcases hcase with ⟨hwq, hnr⟩ | ⟨hwq, hn⟩
    · rw [deRef_nonref _ (fuel + 1) s.lTop (by rw [Function.update_same]; exact hnr)]
      simp only [Option.map_some', Function.update_same, Function.update_noteq hqt, hwq]
    · have hnr : isRef (Function.update s.mem s.lTop w q) = false := by
        rw [Function.update_noteq hqt]
        cases hq1 : s.mem q <;> simp_all [needsRef, isRef, isVar, isAttVar]
      rw [deRef_ref_succ _ fuel s.lTop q (by rw [Function.update_same]; exact hwq),
        deRef_nonref _ fuel q hnr, Option.map_some']
  · intro href
    simp only [hdp] at href ⊢
    rcases hcase with ⟨hwq, hnr⟩ | ⟨hwq, hn⟩
    · rw [Function.update_same, hnr] at href
      simp at href
    · have hnr : isRef (Function.update s.mem s.lTop w q) = false := by
        rw [Function.update_noteq hqt]
        cases hq1 : s.mem q <;> simp_all [needsRef, isRef, isVar, isAttVar]
      rw [deRef_ref_succ _ fuel s.lTop q (by rw [Function.update_same]; exact hwq),
        deRef_nonref _ fuel q hnr]

/-- `PL_copy_term_ref` on a handle whose slot is an unbound variable. -/
theorem PL_copy_term_ref_var (fuel : Nat) (s : LD) (h : term_t) (fr : FliFrame)
    (parents : List FliFrame)
    (hctx : s.fli_context = fr :: parents)
    (hspace : (ensureLocalSpace s sizeofWord).1 = true)
    (hv : isVar (s.mem (valTermRef s h)) = true)
    (hon : valTermRef s h < s.lTop)
    (hlay : s.gTop < s.lBase)
    (hroom : s.gTop + 1 ≤ s.gMax ∨ s.gTop + 1 ≤ s.gLimit) :
    ∃ s1 : LD, PL_copy_term_ref (fuel + 1) s h = some (consTermRef s s.lTop, s1) ∧
      s1.lTop = s.lTop + 1 ∧
      s1.fli_context = { fr with size := fr.size + 1 } :: parents ∧
      s1.gTop = s.gTop + 1 ∧
      s1.mem s.gTop = Word.var ∧
      s1.mem (valTermRef s h) = makeRefG s.gTop ∧
      s1.mem s.lTop = makeRefG s.gTop ∧
      s1.trail = valTermRef s h :: s.trail ∧
      (∀ a, a ≠ valTermRef s h → a ≠ s.gTop → a ≠ s.lTop → s1.mem a = s.mem a) := by
  have hl := ensureLocalSpace_lTop s sizeofWord
  have hb := ensureLocalSpace_lBase s sizeofWord
  have hm := ensureLocalSpace_mem s sizeofWord
  have hf := ensureLocalSpace_fli_context s sizeofWord
  have hgt := ensureLocalSpace_gTop s sizeofWord
  have htr := ensureLocalSpace_trail s sizeofWord
  have hgm := ensureLocalSpace_gMax s sizeofWord
  have hgl := ensureLocalSpace_gLimit s sizeofWord
  rcases hens : ensureLocalSpace s sizeofWord with ⟨b, s0⟩
  rw [hens] at hl hb hm hf hgt htr hgm hgl hspace
  simp only at hl hb hm hf hgt htr hgm hgl hspace
  subst hspace
  have hval : valTermRef s0 h = valTermRef s h := by simp [valTermRef, hb]
  have hv0 : isVar (s0.mem (valTermRef s0 h)) = true := by rw [hval, hm]; exact hv
  have hp : s.lBase ≤ valTermRef s h := by simp [valTermRef]
  have hgp : s.gTop ≠ valTermRef s h := by omega
  have hgtop : s.gTop ≠ s.lTop := by omega
  have hpt : valTermRef s h ≠ s.lTop := Nat.ne_of_lt hon
  have key : ∀ sg : LD,
      globalizeTermRef (fuel + 1) s0 h = some (true, globalizeAt sg (valTermRef s h)) →
      sg.gTop = s.gTop → sg.mem = s.mem → sg.trail = s.trail → sg.lBase = s.lBase →
      sg.lTop = s.lTop → sg.fli_context = s.fli_context →
      ∃ s1 : LD, PL_copy_term_ref (fuel + 1) s h = some (consTermRef s s.lTop, s1) ∧
        s1.lTop = s.lTop + 1 ∧
        s1.fli_context = { fr with size := fr.size + 1 } :: parents ∧
        s1.gTop = s.gTop + 1 ∧
        s1.mem s.gTop = Word.var ∧
        s1.mem (valTermRef s h) = makeRefG s.gTop ∧
        s1.mem s.lTop = makeRefG s.gTop ∧
        s1.trail = valTermRef s h :: s.trail ∧
        (∀ a, a ≠ valTermRef s h → a ≠ s.gTop → a ≠ s.lTop → s1.mem a = s.mem a) := by
    intro sg hglob h1 h2 h3 h4 h5 h6
    have hmem2 : (globalizeAt sg (valTermRef s h)).mem
        = Function.update (Function.update s.mem s.gTop Word.var) (valTermRef s h)
            (makeRefG s.gTop) := by
      simp [globalizeAt, Trail, h1, h2]
    have hval2 : valTermRef (globalizeAt sg (valTermRef s h)) h = valTermRef s h := by
      simp [valTermRef, globalizeAt, Trail, h4]
    have hlink : linkValI (Function.update (Function.update s.mem s.gTop Word.var)
        (valTermRef s h) (makeRefG s.gTop)) (fuel + 1)
        (valTermRef (globalizeAt sg (valTermRef s h)) h) = some (makeRefG s.gTop) := by
      rw [hval2]
      simp [linkValI, linkValLoop, makeRefG, Function.update_noteq hgp, needsRef, isVar]
    have hctx2 : (globalizeAt sg (valTermRef s h)).fli_context = fr :: parents := by
      simp [globalizeAt, Trail, h6, hctx]
    have hlt2 : (globalizeAt sg (valTermRef s h)).lTop = s.lTop := by
      simp [globalizeAt, Trail, h5]
    have hlb2 : (globalizeAt sg (valTermRef s h)).lBase = s.lBase := by
      simp [globalizeAt, Trail, h4]
    refine ⟨{ globalizeAt sg (valTermRef s h) with
        mem := Function.update (Function.update (Function.update s.mem s.gTop Word.var)
          (valTermRef s h) (makeRefG s.gTop)) s.lTop (makeRefG s.gTop)
        lTop := s.lTop + 1
        fli_context := { fr with size := fr.size + 1 } :: parents }, ?_, rfl, rfl, ?_, ?_, ?_, ?_,
        ?_, ?_⟩
    · unfold PL_copy_term_ref
      simp only [hens, hglob, hlink, hctx2, consTermRef, hl, hb, hlt2, hlb2, hmem2]
    · simp [globalizeAt, Trail, h1]
    · simp [Function.update_noteq hgtop, Function.update_noteq hgp]
    · simp [Function.update_noteq hpt]
    · simp
    · simp [globalizeAt, Trail, h3, h4, valTermRef]
    · intro a ha1 ha2 ha3
      simp [Function.update_noteq ha1, Function.update_noteq ha2, Function.update_noteq ha3]
  by_cases hr : s.gTop + 1 ≤ s.gMax
  · refine key s0 ?_ hgt hm htr hb hl hf
    rw [← hval]
    exact globalizeTermRef_room (fuel + 1) s0 h hv0 (by rw [hgt, hgm]; exact hr)
  · have hlim : s.gTop + 1 ≤ s.gLimit := by
      rcases hroom with h1 | h1
      · exact absurd h1 hr
      · exact h1
    refine key { s0 with gMax := s0.gLimit } ?_ hgt hm htr hb hl hf
    rw [← hval]
    exact globalizeTermRef_grow fuel s0 h hv0 (by rw [hgt, hgm]; exact hr)
      (by rw [hgt, hgl]; exact hlim)

/-- C5. `PL_copy_term_ref(h)` for a handle `h` of a slot below the local-stack top.
It returns 0 when `ensureLocalSpace` fails, and when the slot is an unbound variable
and the global stack overflows.  Otherwise it returns the handle of the old top, the
top and the size of the active frame grow by one, and:
when the slot held an unbound variable (the global stack lying below the local
stack), exactly one global cell was made, at the old global top; it is unbound, the
slot of `h` is bound to a reference to it and trailed, and the new slot holds a
reference to the same cell;
when the slot held anything else (no reference leading to the unused slot at the
top, and dereferencing `h` ending at a cell `q`), no global cell was made, nothing is
trailed, every cell but the new slot is unchanged, and the new slot dereferences to
the same word as `h`, and to the same cell when it is a reference. -/
theorem PL_copy_term_ref_spec (fuel : Nat) (s : LD) (h : term_t) (fr : FliFrame)
    (parents : List FliFrame)
    (hctx : s.fli_context = fr :: parents)
    (hon : valTermRef s h < s.lTop) :
    ((ensureLocalSpace s sizeofWord).1 = false →
      ∃ s1 : LD, PL_copy_term_ref fuel s h = some (0, s1)) ∧
    ((ensureLocalSpace s sizeofWord).1 = true → isVar (s.mem (valTermRef s h)) = true →
      ¬ s.gTop + 1 ≤ s.gMax → ¬ s.gTop + 1 ≤ s.gLimit →
      ∃ s1 : LD, PL_copy_term_ref fuel s h = some (0, s1)) ∧
    ((ensureLocalSpace s sizeofWord).1 = true → isVar (s.mem (valTermRef s h)) = true →
      s.gTop < s.lBase → (s.gTop + 1 ≤ s.gMax ∨ s.gTop + 1 ≤ s.gLimit) →
      ∃ s1 : LD, PL_copy_term_ref (fuel + 1) s h = some (consTermRef s s.lTop, s1) ∧
        s1.lTop = s.lTop + 1 ∧
        s1.fli_context = { fr with size := fr.size + 1 } :: parents ∧
        s1.gTop = s.gTop + 1 ∧
        s1.mem s.gTop = Word.var ∧
        s1.mem (valTermRef s h) = makeRefG s.gTop ∧
        s1.mem s.lTop = makeRefG s.gTop ∧
        s1.trail = valTermRef s h :: s.trail ∧
        (∀ a, a ≠ valTermRef s h → a ≠ s.gTop → a ≠ s.lTop → s1.mem a = s.mem a)) ∧
    ((ensureLocalSpace s sizeofWord).1 = true → isVar (s.mem (valTermRef s h)) = false →
      (∀ a b, s.mem a = Word.ref b → b ≠ s.lTop) →
      ∀ q, deRef s.mem fuel (valTermRef s h) = some q →
      ∃ s1 : LD, PL_copy_term_ref fuel s h = some (consTermRef s s.lTop, s1) ∧
        s1.lTop = s.lTop + 1 ∧
        s1.fli_context = { fr with size := fr.size + 1 } :: parents ∧
        s1.gTop = s.gTop ∧ s1.trail = s.trail ∧
        (∀ a, a ≠ s.lTop → s1.mem a = s.mem a) ∧
        (deRef s1.mem (fuel + 1) s.lTop).map s1.mem
          = (deRef s1.mem fuel (valTermRef s h)).map s1.mem ∧
        (isRef (s1.mem s.lTop) = true →
          deRef s1.mem (fuel + 1) s.lTop = deRef s1.mem fuel (valTermRef s h))) := by
  refine ⟨?_, ?_, ?_, ?_⟩
  · intro hfail
    unfold PL_copy_term_ref
    rcases hens : ensureLocalSpace s sizeofWord with ⟨b, s0⟩
    rw [hens] at hfail
    simp only at hfail
    subst hfail
    exact ⟨s0, rfl⟩
  · intro hspace hv hfull hlim
    have hb := ensureLocalSpace_lBase s sizeofWord
    have hm := ensureLocalSpace_mem s sizeofWord
    have hgt := ensureLocalSpace_gTop s sizeofWord
    have hgm := ensureLocalSpace_gMax s sizeofWord
    have hgl := ensureLocalSpace_gLimit s sizeofWord
    rcases hens : ensureLocalSpace s sizeofWord with ⟨b, s0⟩
    rw [hens] at hb hm hgt hgm hgl hspace
    simp only at hb hm hgt hgm hgl hspace
    subst hspace
    have hval : valTermRef s0 h = valTermRef s h := by simp [valTermRef, hb]
    have hg := globalizeTermRef_overflow fuel s0 h (by rw [hval, hm]; exact hv)
      (by rw [hgt, hgm]; exact hfull) (by rw [hgt, hgl]; exact hlim)
    refine ⟨{ s0 with exception := some StackRc.GLOBAL_OVERFLOW }, ?_⟩
    unfold PL_copy_term_ref
    simp only [hens, hg]
  · intro hspace hv hlay hroom
    exact PL_copy_term_ref_var fuel s h fr parents hctx hspace hv hon hlay hroom
  · intro hspace hnv hfresh q hq
    exact PL_copy_term_ref_bound fuel s h fr parents q hctx hspace hnv hon hfresh hq

/-- C5 at work: in `demoLD` handle 9 holds an unbound variable and handle 8 the
integer 42; in `demoFullLD` there is no room for the copy, in `demoNoGlobalLD` none
for the global cell. -/
theorem PL_copy_term_ref_spec_witness :
    (∃ s1 : LD, PL_copy_term_ref 0 demoFullLD 8 = some (0, s1)) ∧
    (∃ s1 : LD, PL_copy_term_ref 0 demoNoGlobalLD 9 = some (0, s1)) ∧
    (∃ s1 : LD, PL_copy_term_ref 1 demoLD 9 = some (consTermRef demoLD demoLD.lTop, s1) ∧
      s1.lTop = demoLD.lTop + 1 ∧
      s1.fli_context = [FliFrame.mk 104 3 1000, FliFrame.mk 100 0 1000] ∧
      s1.gTop = demoLD.gTop + 1 ∧
      s1.mem demoLD.gTop = Word.var ∧
      s1.mem (valTermRef demoLD 9) = makeRefG demoLD.gTop ∧
      s1.mem demoLD.lTop = makeRefG demoLD.gTop ∧
      s1.trail = valTermRef demoLD 9 :: demoLD.trail ∧
      (∀ a, a ≠ valTermRef demoLD 9 → a ≠ demoLD.gTop → a ≠ demoLD.lTop →
        s1.mem a = demoLD.mem a)) ∧
    (∃ s1 : LD, PL_copy_term_ref 0 demoLD 8 = some (consTermRef demoLD demoLD.lTop, s1) ∧
      s1.lTop = demoLD.lTop + 1 ∧
      s1.fli_context = [FliFrame.mk 104 3 1000, FliFrame.mk 100 0 1000] ∧
      s1.gTop = demoLD.gTop ∧ s1.trail = demoLD.trail ∧
      (∀ a, a ≠ demoLD.lTop → s1.mem a = demoLD.mem a) ∧
      (deRef s1.mem (0 + 1) demoLD.lTop).map s1.mem
        = (deRef s1.mem 0 (valTermRef demoLD 8)).map s1.mem ∧
      (isRef (s1.mem demoLD.lTop) = true →
        deRef s1.mem (0 + 1) demoLD.lTop = deRef s1.mem 0 (valTermRef demoLD 8))) :=
  ⟨(PL_copy_term_ref_spec 0 demoFullLD 8 (FliFrame.mk 104 12 1000) [FliFrame.mk 100 0 1000]
      rfl (by decide)).1 (by decide),
   (PL_copy_term_ref_spec 0 demoNoGlobalLD 9 (FliFrame.mk 104 2 1000)
      [FliFrame.mk 100 0 1000] rfl (by decide)).2.1 (by decide) (by decide) (by decide)
      (by decide),
   (PL_copy_term_ref_spec 0 demoLD 9 (FliFrame.mk 104 2 1000) [FliFrame.mk 100 0 1000]
      rfl (by decide)).2.2.1 (by decide) (by decide) (by decide) (by decide),
   (PL_copy_term_ref_spec 0 demoLD 8 (FliFrame.mk 104 2 1000) [FliFrame.mk 100 0 1000]
      rfl (by decide)).2.2.2 (by decide) (by decide)
      (by
        intro a b hab
        simp only [demoLD] at hab
        split_ifs at hab)
      108 (by decide)⟩

/-! ## C7: membership in a foreign frame -/

theorem framesStacked_tail (s : LD) (fr : FliFrame) (rest : List FliFrame)
    (h : framesStacked s (fr :: rest) = true) : framesStacked s rest = true := by
  cases rest with
  | nil => rfl
  | cons parent rest1 =>
    simp only [framesStacked, Bool.and_eq_true] at h
    exact h.2

/-- In a stacked chain every ancestor of a frame ends at or below its record. -/
theorem framesStacked_below (s : LD) :
    ∀ (rest : List FliFrame) (fr : FliFrame), framesStacked s (fr :: rest) = true →
      ∀ a ∈ rest, a.addr < fr.addr ∧ (frameSlots s a : Int) + a.size ≤ (fr.addr : Int) := by
  intro rest
  induction rest with
  | nil => intro fr _ a ha; simp at ha
  | cons parent rest1 ih =>
    intro fr h a ha
    have htail := framesStacked_tail s fr (parent :: rest1) h
    simp only [framesStacked, Bool.and_eq_true, decide_eq_true_eq] at h
    obtain ⟨⟨h1, h2⟩, _⟩ := h
    rcases List.mem_cons.mp ha with hap | hap
    · subst hap
      exact ⟨h1, h2⟩
    · obtain ⟨h3, h4⟩ := ih parent htail a hap
      exact ⟨by omega, by omega⟩

theorem in_foreign_frame_from_complete (s : LD) (p : Nat) :
    ∀ (l : List FliFrame) (k0 : Nat), framesStacked s l = true →
      (∃ fr ∈ l, frameSlots s fr ≤ p ∧ (p : Int) < (frameSlots s fr : Int) + fr.size) →
      (in_foreign_frame_from s p k0 l).isSome = true := by
  intro l
  induction l with
  | nil => intro k0 _ h; simp at h
  | cons fr rest ih =>
    intro k0 hst hex
    simp only [in_foreign_frame_from]
    split_ifs with h1 h2
    · rfl
    · exfalso
      obtain ⟨a, ha, hlo, hhi⟩ := hex
      rcases List.mem_cons.mp ha with hfr | hrest
      · subst hfr
        exact h1 ⟨hlo, hhi⟩
      · obtain ⟨_, hend⟩ := framesStacked_below s rest fr hst a hrest
        omega
    · apply ih (k0 + 1) (framesStacked_tail s fr rest hst)
      obtain ⟨a, ha, hlo, hhi⟩ := hex
      rcases List.mem_cons.mp ha with hfr | hrest
      · subst hfr
        exact absurd ⟨hlo, hhi⟩ h1
      · exact ⟨a, hrest, hlo, hhi⟩

theorem valid_user_term_t_valid_iff (s : LD) (t : term_t) :
    valid_user_term_t s t = ApiCheck.valid ↔
      onStackLocal s (valTermRef s t) = true ∧ s.mem (valTermRef s t) ≠ ATOM_term_t_free ∧
        (in_foreign_frame s (valTermRef s t)).isSome = true := by
  unfold valid_user_term_t
  by_cases h1 : onStackLocal s (valTermRef s t) = true
  · by_cases h2 : s.mem (valTermRef s t) = ATOM_term_t_free
    · simp [h1, h2]
    · by_cases h3 : (in_foreign_frame s (valTermRef s t)).isSome = true
      · simp [h1, h2, h3]
      · simp [h1, h2, h3]
  · simp [h1]

/-- C7. On a chain in which every parent frame, record and slots, lies below the
record of its child, `in_foreign_frame(p)` finds a frame if and only if `p` lies in
the slot range `[base, base+size)` of some frame on the chain, and the frame it
returns is one whose range contains `p`; hence `valid_user_term_t` accepts a handle
exactly when its slot is on the local stack, is not marked freed and lies in the slot
range of a frame on the chain. -/
theorem in_foreign_frame_iff (s : LD) (p : Nat)
    (hst : framesStacked s s.fli_context = true) :
    (∀ k, in_foreign_frame s p = some k →
      ∃ fr : FliFrame, s.fli_context[k]? = some fr ∧ frameSlots s fr ≤ p ∧
        (p : Int) < (frameSlots s fr : Int) + fr.size) ∧
    ((in_foreign_frame s p).isSome = true ↔
      ∃ fr ∈ s.fli_context, frameSlots s fr ≤ p ∧
        (p : Int) < (frameSlots s fr : Int) + fr.size) ∧
    (∀ t : term_t, valTermRef s t = p →
      (valid_user_term_t s t = ApiCheck.valid ↔
        onStackLocal s p = true ∧ s.mem p ≠ ATOM_term_t_free ∧
          ∃ fr ∈ s.fli_context, frameSlots s fr ≤ p ∧
            (p : Int) < (frameSlots s fr : Int) + fr.size)) := by
  have hiff : (in_foreign_frame s p).isSome = true ↔
      ∃ fr ∈ s.fli_context, frameSlots s fr ≤ p ∧
        (p : Int) < (frameSlots s fr : Int) + fr.size := by
    constructor
    · intro hsome
      obtain ⟨k, hk⟩ := Option.isSome_iff_exists.mp hsome
      obtain ⟨fr, hget, hlo, hhi⟩ := in_foreign_frame_sound s p k hk
      exact ⟨fr, List.mem_iff_getElem?.mpr ⟨k, hget⟩, hlo, hhi⟩
    · intro hex
      exact in_foreign_frame_from_complete s p s.fli_context 0 hst hex
  refine ⟨fun k hk => in_foreign_frame_sound s p k hk, hiff, ?_⟩
  intro t ht
  rw [valid_user_term_t_valid_iff, ht, hiff]

/-- C7 at work on the chain of `demoLD`, whose active frame owns slot 109. -/
theorem in_foreign_frame_iff_witness :
    (in_foreign_frame demoLD 109).isSome = true ↔
      ∃ fr ∈ demoLD.fli_context, frameSlots demoLD fr ≤ 109 ∧
        (109 : Int) < (frameSlots demoLD fr : Int) + fr.size :=
  (in_foreign_frame_iff demoLD 109 (by decide)).2.1

/-- The order of the frame records alone would not do for this equivalence: in
`demoOverlapLD` the
record of the parent is below the record of its child, slot 110 lies in the slot range
of the parent, and the early exit at the child makes `in_foreign_frame` return
`NULL`. -/
theorem in_foreign_frame_record_order_alone :
    in_foreign_frame demoOverlapLD 110 = none ∧
      demoOverlapLD.fli_context = [FliFrame.mk 104 0 1000, FliFrame.mk 100 10 1000] ∧
      frameSlots demoOverlapLD (FliFrame.mk 100 10 1000) ≤ 110 ∧
      (110 : Int) < (frameSlots demoOverlapLD (FliFrame.mk 100 10 1000) : Int) + 10 := by
  decide

/-! ## C8: a freed handle is no longer valid -/

theorem in_foreign_frame_isSome_cons (s : LD) (p : Nat)
    (h : (in_foreign_frame s p).isSome = true) :
    ∃ (fr : FliFrame) (parents : List FliFrame), s.fli_context = fr :: parents := by
  cases hc : s.fli_context with
  | nil => simp [in_foreign_frame, hc, in_foreign_frame_from] at h
  | cons fr parents => exact ⟨fr, parents, rfl⟩

/-- C8. For a handle `h` that `valid_user_term_t` accepts, `PL_free_term_ref(h)`
returns, and afterwards neither `valid_term_t` nor `valid_user_term_t` accepts `h`:
when `h` was the top slot both report it out of range, the slot being at the new
local-stack top, and, the size of the active frame having matched the top, the slot
is outside the slots of that frame; otherwise the slot holds the freed sentinel and
both checks report it as freed. -/
theorem PL_free_term_ref_invalidates (s : LD) (h : term_t)
    (hvalid : valid_user_term_t s h = ApiCheck.valid) :
    ∃ s1 : LD, PL_free_term_ref s h = some s1 ∧
      valid_term_t s1 h ≠ ApiCheck.valid ∧ valid_user_term_t s1 h ≠ ApiCheck.valid ∧
      (valTermRef s h + 1 = s.lTop →
        onStackLocal s1 (valTermRef s1 h) = false ∧
        valid_term_t s1 h = ApiCheck.out_of_range ∧
        valid_user_term_t s1 h = ApiCheck.out_of_range ∧
        ∀ (fr : FliFrame) (parents : List FliFrame), s.fli_context = fr :: parents →
          (s.lTop : Int) = (frameSlots s fr : Int) + fr.size →
          ∃ fr1 : FliFrame, s1.fli_context = fr1 :: parents ∧ fr1.size = fr.size - 1 ∧
            ¬ ((valTermRef s1 h : Int) < (frameSlots s1 fr1 : Int) + fr1.size)) ∧
      (valTermRef s h + 1 ≠ s.lTop →
        s1.mem (valTermRef s1 h) = ATOM_term_t_free ∧
        valid_term_t s1 h = ApiCheck.freed ∧
        valid_user_term_t s1 h = ApiCheck.freed) := by
  obtain ⟨hon, _, hsome⟩ := (valid_user_term_t_valid_iff s h).mp hvalid
  obtain ⟨fr0, parents0, hctx⟩ := in_foreign_frame_isSome_cons s _ hsome
  by_cases htop : valTermRef s h + 1 = s.lTop
  · have hfree : PL_free_term_ref s h = some { s with
        lTop := valTermRef s h
        fli_context := { fr0 with size := fr0.size - 1 } :: parents0 } := by
      unfold PL_free_term_ref
      simp only [htop, if_true, hctx]
    have hoff : onStackLocal { s with
        lTop := valTermRef s h
        fli_context := { fr0 with size := fr0.size - 1 } :: parents0 }
        (valTermRef s h) = false := by
      simp [onStackLocal]
    have hv1 : valid_term_t { s with
        lTop := valTermRef s h
        fli_context := { fr0 with size := fr0.size - 1 } :: parents0 } h
        = ApiCheck.out_of_range := by
      unfold valid_term_t
      simp [valTermRef, onStackLocal]
    have hv2 : valid_user_term_t { s with
        lTop := valTermRef s h
        fli_context := { fr0 with size := fr0.size - 1 } :: parents0 } h
        = ApiCheck.out_of_range := by
      unfold valid_user_term_t
      simp [valTermRef, onStackLocal]
    refine ⟨_, hfree, by rw [hv1]; decide, by rw [hv2]; decide, ?_, ?_⟩
    · intro _
      refine ⟨hoff, hv1, hv2, ?_⟩
      intro fr parents hc hinv
      rw [hctx] at hc
      simp only [List.cons.injEq] at hc
      obtain ⟨hfr, hps⟩ := hc
      subst hfr hps
      refine ⟨{ fr0 with size := fr0.size - 1 }, rfl, rfl, ?_⟩
      simp only [valTermRef, frameSlots] at htop hinv ⊢
      push_cast at hinv ⊢
      omega
    · intro hne
      exact absurd htop hne
  · obtain ⟨k, hk⟩ := Option.isSome_iff_exists.mp hsome
    obtain ⟨fr, hget, _, _⟩ := in_foreign_frame_sound s _ k hk
    have hfree : PL_free_term_ref s h = some { s with
        fli_context :=
          s.fli_context.set k (lowerNoFreeBefore (valTermRef s h - frameSlots s fr) fr)
        mem := Function.update s.mem (valTermRef s h) ATOM_term_t_free } := by
      unfold PL_free_term_ref
      simp only [htop, if_false, hk, hget]
    have hon1 : s.lBase + h < s.lTop := by
      simpa [onStackLocal, valTermRef] using hon
    have hv1 : valid_term_t { s with
        fli_context :=
          s.fli_context.set k (lowerNoFreeBefore (valTermRef s h - frameSlots s fr) fr)
        mem := Function.update s.mem (valTermRef s h) ATOM_term_t_free } h
        = ApiCheck.freed := by
      unfold valid_term_t
      simp [valTermRef, onStackLocal, hon1]
    have hv2 : valid_user_term_t { s with
        fli_context :=
          s.fli_context.set k (lowerNoFreeBefore (valTermRef s h - frameSlots s fr) fr)
        mem := Function.update s.mem (valTermRef s h) ATOM_term_t_free } h
        = ApiCheck.freed := by
      unfold valid_user_term_t
      simp [valTermRef, onStackLocal, hon1]
    refine ⟨_, hfree, by rw [hv1]; decide, by rw [hv2]; decide, ?_, ?_⟩
    · intro he
      exact absurd he htop
    · intro _
      refine ⟨?_, hv1, hv2⟩
      simp [valTermRef]

/-- C8 at work in `demoLD`: handle 9 is the top slot, handle 8 lies below it. -/
theorem PL_free_term_ref_invalidates_witness :
    (∃ s1 : LD, PL_free_term_ref demoLD 9 = some s1 ∧
      valid_term_t s1 9 = ApiCheck.out_of_range ∧
      valid_user_term_t s1 9 = ApiCheck.out_of_range) ∧
    (∃ s1 : LD, PL_free_term_ref demoLD 8 = some s1 ∧
      valid_term_t s1 8 = ApiCheck.freed ∧ valid_user_term_t s1 8 = ApiCheck.freed) :=
  ⟨(PL_free_term_ref_invalidates demoLD 9 (by decide)).elim fun s1 hs =>
      ⟨s1, hs.1, (hs.2.2.2.1 (by decide)).2.1, (hs.2.2.2.1 (by decide)).2.2.1⟩,
   (PL_free_term_ref_invalidates demoLD 8 (by decide)).elim fun s1 hs =>
      ⟨s1, hs.1, (hs.2.2.2.2 (by decide)).2.1, (hs.2.2.2.2 (by decide)).2.2⟩⟩

/-! ## C9: argument slots of query frames -/

/-- C9, the code at the failing input.  In `demoQueryLD` the live query frame has its
two arguments at the slots of the handles 6 and 7, neither is marked freed, and
`valid_term_t` accepts handle 7 but stops with "not in any foreign frame" on handle
6, the first argument; the same two slots as arguments of an executing foreign
predicate, in `demoForeignLD`, are both accepted. -/
theorem valid_term_t_query_first_argument :
    argFrameP demoQueryLD (LocalFrame.mk 100 false 2) 0 = valTermRef demoQueryLD 6 ∧
    valid_term_t demoQueryLD 6 = ApiCheck.not_in_any_foreign_frame ∧
    valid_term_t demoQueryLD 7 = ApiCheck.valid ∧
    valid_term_t demoForeignLD 6 = ApiCheck.valid ∧
    valid_term_t demoForeignLD 7 = ApiCheck.valid := by
  decide

/-! ## C16: a new compound with unbound arguments -/

theorem requireGlobalSpace_room (s : LD) (n : Nat)
    (hroom : s.gTop + n ≤ s.gMax ∨ s.gTop + n ≤ s.gLimit) :
    ∃ g : Nat, requireGlobalSpace s n = (true, { s with gMax := g }) := by
  by_cases h1 : s.gTop + n ≤ s.gMax
  · exact ⟨s.gMax, by simp [requireGlobalSpace, hasGlobalSpace, h1]⟩
  · have h2 : s.gTop + n ≤ s.gLimit := by
      rcases hroom with h | h
      · exact absurd h h1
      · exact h
    exact ⟨s.gLimit, by simp [requireGlobalSpace, hasGlobalSpace, h1, ensureGlobalSpace, h2]⟩

theorem requireGlobalSpace_full (s : LD) (n : Nat)
    (h1 : ¬ s.gTop + n ≤ s.gMax) (h2 : ¬ s.gTop + n ≤ s.gLimit) :
    requireGlobalSpace s n = (false, { s with exception := some StackRc.GLOBAL_OVERFLOW }) := by
  simp [requireGlobalSpace, hasGlobalSpace, h1, ensureGlobalSpace, h2, raiseStackOverflow]

theorem linkValLoop_nonref (mem : Nat → Word) (fuel : Nat) (w : Word)
    (h : isRef w = false) : linkValLoop mem fuel w = some w := by
  cases fuel <;> cases w <;> simp_all [linkValLoop, isRef]

/-- The loop of `PL_cons_functor_v` over sources that hold bound words: every
argument cell receives the word of its source and nothing else is written. -/
theorem consArgsV_bound (fuel : Nat) :
    ∀ (n : Nat) (mem : Nat → Word) (a ai : Nat),
      (∀ i, i < n → isRef (mem (ai + i)) = false ∧ needsRef (mem (ai + i)) = false) →
      a + n < ai →
      ∃ mem1 : Nat → Word, consArgsV fuel n mem a ai = some mem1 ∧
        (∀ i, i < n → mem1 (a + 1 + i) = mem (ai + i)) ∧
        (∀ x, (x ≤ a ∨ a + n < x) → mem1 x = mem x) := by
  intro n
  induction n with
  | zero =>
    intro mem a ai _ _
    exact ⟨mem, rfl, fun i hi => absurd hi (Nat.not_lt_zero i), fun _ _ => rfl⟩
  | succ k ih =>
    intro mem a ai hsrc hsep
    have h0 := hsrc 0 (Nat.succ_pos k)
    simp only [Nat.add_zero] at h0
    have hbind : bindConsVal mem fuel (a + 1) ai
        = some (Function.update mem (a + 1) (mem ai)) := by
      simp [bindConsVal, deRef_nonref mem fuel ai h0.1, canBind, h0.2]
    have hsrc1 : ∀ i, i < k →
        isRef (Function.update mem (a + 1) (mem ai) (ai + 1 + i)) = false ∧
        needsRef (Function.update mem (a + 1) (mem ai) (ai + 1 + i)) = false := by
      intro i hi
      rw [Function.update_noteq (by omega)]
      have := hsrc (i + 1) (by omega)
      rw [show ai + (i + 1) = ai + 1 + i from by omega] at this
      exact this
    obtain ⟨mem1, hrun, hargs, hrest⟩ :=
      ih (Function.update mem (a + 1) (mem ai)) (a + 1) (ai + 1) hsrc1 (by omega)
    refine ⟨mem1, by simp [consArgsV, hbind, hrun], ?_, ?_⟩
    · intro i hi
      cases i with
      | zero =>
        rw [hrest (a + 1 + 0) (Or.inl (by omega))]
        simp
      | succ j =>
        rw [show a + 1 + (j + 1) = a + 1 + 1 + j from by omega, hargs j (by omega),
          Function.update_noteq (by omega)]
        rw [show ai + 1 + j = ai + (j + 1) from by omega]
    · intro x hx
      rw [hrest x (by omega), Function.update_noteq (by omega)]

/-- C17. For a functor `f` of arity `n >= 1`, handles `a0 .. a0+n-1` whose slots hold
bound words, and room for `1+n` cells on a global stack below the local stack:
`PL_cons_functor_v(h, f, a0)` returns true, after which
`PL_get_compound_name_arity_sz(h)` gives the name and the arity of `f`,
`PL_get_arg_sz(i, h, a)` returns true for `1 <= i <= n` and stores in the slot of `a`
the word that the slot of handle `a0+i-1` held, and returns false leaving everything
as it is for `i = 0` and for `i > n`. -/
theorem cons_functor_v_round_trip (fuel : Nat) (s : LD) (h a0 : term_t) (name n : Nat)
    (hn : 1 ≤ n)
    (hroom : s.gTop + (1 + n) ≤ s.gMax ∨ s.gTop + (1 + n) ≤ s.gLimit)
    (hsep : s.gTop + (1 + n) ≤ s.lBase)
    (hsrc : ∀ i, i < n → isRef (s.mem (valTermRef s (a0 + i))) = false ∧
      needsRef (s.mem (valTermRef s (a0 + i))) = false) :
    ∃ s1 : LD, PL_cons_functor_v fuel s h (Word.functor name n) a0 = some (true, s1) ∧
      PL_get_compound_name_arity_sz fuel s1 h = some (some (Word.atom name, n)) ∧
      (∀ (i : Nat) (a : term_t), 1 ≤ i → i ≤ n →
        PL_get_arg_sz fuel i s1 h a
          = some (true, setHandle s1 a (s.mem (valTermRef s (a0 + (i - 1)))))) ∧
      (∀ (i : Nat) (a : term_t), (i = 0 ∨ n < i) →
        PL_get_arg_sz fuel i s1 h a = some (false, s1)) := by
  obtain ⟨g, hreq⟩ := requireGlobalSpace_room s (1 + n) hroom
  have hn0 : ¬ n = 0 := by omega
  have hsrc0 : ∀ i, i < n →
      isRef (Function.update s.mem s.gTop (Word.functor name n) (s.lBase + a0 + i)) = false ∧
      needsRef (Function.update s.mem s.gTop (Word.functor name n) (s.lBase + a0 + i))
        = false := by
    intro i hi
    rw [Function.update_noteq (by omega)]
    have := hsrc i hi
    simp only [valTermRef] at this
    rw [show s.lBase + a0 + i = s.lBase + (a0 + i) from by omega]
    exact this
  obtain ⟨mem1, hrun, hargs, hrest⟩ :=
    consArgsV_bound fuel n (Function.update s.mem s.gTop (Word.functor name n)) s.gTop
      (s.lBase + a0) hsrc0 (by omega)
  have hslot : s.lBase + h ≠ s.gTop := by omega
  obtain ⟨M, hM⟩ : ∃ M : Nat → Word,
      M = Function.update mem1 (s.lBase + h) (Word.compound s.gTop) := ⟨_, rfl⟩
  have hmt : M s.gTop = Word.functor name n := by
    rw [hM, Function.update_noteq (Ne.symm hslot), hrest s.gTop (Or.inl (le_refl _)),
      Function.update_same]
  have hms : M (s.lBase + h) = Word.compound s.gTop := by
    rw [hM, Function.update_same]
  have hvh : valHandle fuel { s with gMax := g, gTop := s.gTop + (1 + n), mem := M } h
      = some (Word.compound s.gTop) := by
    simp only [valHandle, valTermRef]
    rw [deRef_nonref M fuel _ (by rw [hms]; rfl), Option.map_some', hms]
  refine ⟨{ s with gMax := g, gTop := s.gTop + (1 + n), mem := M }, ?_, ?_, ?_, ?_⟩
  · simp only [PL_cons_functor_v, arityFunctor, hn0, if_false, hreq, valTermRef, hrun,
      setHandle, consPtr, hM]
  · simp only [PL_get_compound_name_arity_sz, hvh, isTerm, if_true, functorTerm, valPtr, hmt,
      nameFunctor, arityFunctor]
  · intro i a hi1 hin
    have hcell : M (s.gTop + 1 + (i - 1)) = s.mem (valTermRef s (a0 + (i - 1))) := by
      rw [hM, Function.update_noteq (by omega), hargs (i - 1) (by omega),
        Function.update_noteq (by omega)]
      simp only [valTermRef]
      rw [show s.lBase + a0 + (i - 1) = s.lBase + (a0 + (i - 1)) from by omega]
    have hnr := (hsrc (i - 1) (by omega)).1
    have hlink : linkValI M fuel (s.gTop + 1 + (i - 1))
        = some (s.mem (valTermRef s (a0 + (i - 1)))) := by
      simp only [linkValI]
      rw [hcell]
      exact linkValLoop_nonref _ fuel _ hnr
    have hi0 : i > 0 := by omega
    have hlt : i - 1 < n := by omega
    simp only [PL_get_arg_sz, hvh, isTerm, valPtr, hi0, and_self, if_true, hmt, arityFunctor,
      hlt, hlink]
  · intro i a hi
    rcases hi with hi | hi
    · subst hi
      simp [PL_get_arg_sz, hvh]
    · have hlt : ¬ i - 1 < n := by omega
      simp [PL_get_arg_sz, hvh, isTerm, valPtr, hmt, arityFunctor, hlt]

/-- C17 at work: `error(stack, 7)` built in `demoArgsLD` from the handles 8 and 9 and
put in handle 9. -/
theorem cons_functor_v_round_trip_witness :
    ∃ s1 : LD, PL_cons_functor_v 0 demoArgsLD 9 (Word.functor 7 2) 8 = some (true, s1) ∧
      PL_get_compound_name_arity_sz 0 s1 9 = some (some (Word.atom 7, 2)) ∧
      (∀ (i : Nat) (a : term_t), 1 ≤ i → i ≤ 2 →
        PL_get_arg_sz 0 i s1 9 a
          = some (true, setHandle s1 a (demoArgsLD.mem (valTermRef demoArgsLD (8 + (i - 1)))))) ∧
      (∀ (i : Nat) (a : term_t), (i = 0 ∨ 2 < i) →
        PL_get_arg_sz 0 i s1 9 a = some (false, s1)) :=
  cons_functor_v_round_trip 0 demoArgsLD 9 8 7 2 (by decide) (by decide) (by decide)
    (by
      intro i hi
      simp only [demoArgsLD, ATOM_stack]
      split_ifs <;> exact ⟨rfl, rfl⟩)

/-! ## C20: unifying with an atomic value -/

/-- C20. With `p` the cell that the handle `t` dereferences to: when `p` holds a
plain or an attributed variable, `PL_unify_atomic(t, w)` binds it to `w`, writing no
other cell, and returns true; otherwise it changes nothing, and it returns true
exactly when the word of `p` is `w` or both words are boxed values with the same
boxed data. -/
theorem PL_unify_atomic_spec (boxed : Nat → List Nat) (fuel : Nat) (s : LD) (t : term_t)
    (w : Word) (p : Nat) (hp : deRef s.mem fuel (valTermRef s t) = some p) :
    (canBind (s.mem p) = true →
      ∃ s1 : LD, PL_unify_atomic boxed fuel s t w = some (true, s1) ∧ s1.mem p = w ∧
        (∀ a, a ≠ p → s1.mem a = s.mem a)) ∧
    (canBind (s.mem p) = false →
      ∃ b : Bool, PL_unify_atomic boxed fuel s t w = some (b, s) ∧
        (b = true ↔ (s.mem p = w ∨
          (isIndirect w = true ∧ isIndirect (s.mem p) = true ∧
            boxed (valPtr w) = boxed (valPtr (s.mem p)))))) := by
  constructor
  · intro hc
    refine ⟨(bindConst s p w).2, ?_, ?_, ?_⟩
    · simp [PL_unify_atomic, hp, hc, bindConst]
    · simp [bindConst, Trail]
    · intro a ha
      simp [bindConst, Trail, Function.update_noteq ha]
  · intro hc
    by_cases heq : s.mem p = w
    · subst heq
      exact ⟨true, by simp [PL_unify_atomic, hp, hc], by simp⟩
    · by_cases hind : isIndirect w = true ∧ isIndirect (s.mem p) = true
      · refine ⟨equalIndirect boxed w (s.mem p), ?_, ?_⟩
        · simp [PL_unify_atomic, hp, hc, heq, hind]
        · simp [equalIndirect, heq, hind]
      · refine ⟨false, ?_, ?_⟩
        · simp only [PL_unify_atomic, hp, hc, heq, hind, if_false]
          simp
        · constructor
          · intro h
            cases h
          · intro h
            rcases h with h | ⟨h1, h2, _⟩
            · exact absurd h heq
            · exact absurd ⟨h1, h2⟩ hind

/-- C20 at work: binding the unbound slot 109 of `demoLD` to an atom, and unifying
the string in slot 108 of `demoStringLD` with a string that has the same boxed
data. -/
theorem PL_unify_atomic_spec_witness :
    (∃ s1 : LD, PL_unify_atomic demoBoxed 0 demoLD 9 ATOM_stack = some (true, s1) ∧
      s1.mem 109 = ATOM_stack ∧ (∀ a, a ≠ 109 → s1.mem a = demoLD.mem a)) ∧
    (∃ b : Bool, PL_unify_atomic demoBoxed 0 demoStringLD 8 (Word.string 5)
        = some (b, demoStringLD) ∧
      (b = true ↔ (demoStringLD.mem 108 = Word.string 5 ∨
        (isIndirect (Word.string 5) = true ∧ isIndirect (demoStringLD.mem 108) = true ∧
          demoBoxed (valPtr (Word.string 5)) = demoBoxed (valPtr (demoStringLD.mem 108)))))) :=
  ⟨(PL_unify_atomic_spec demoBoxed 0 demoLD 9 ATOM_stack 109 (by decide)).1 (by decide),
   (PL_unify_atomic_spec demoBoxed 0 demoStringLD 8 (Word.string 5) 108 (by decide)).2
     (by decide)⟩

/-! ## C19: releasing a blob once -/

/-- C19. For an atom whose type is no-copy and has a release callback, and whose
content pointer is set: when the callback returns success, `PL_free_blob(a)` returns
true and leaves the content pointer `NULL` and the length 0, all other atoms being as
before; a later `PL_free_blob(a)` then returns false without running the callback and
without changing anything.  `PL_free_blob(a)` returns false and leaves every atom as
it is when the type is not no-copy, when there is no callback, and when the callback
returns failure. -/
theorem PL_free_blob_spec (gd : AtomTable) (a : Nat) :
    (∀ release : Nat → Bool, (gd.array a).type.nocopy = true →
      (gd.array a).type.release = some release → (gd.array a).name.isSome = true →
      release a = true →
      (PL_free_blob gd a).1 = true ∧
      ((PL_free_blob gd a).2.array a).name = none ∧
      ((PL_free_blob gd a).2.array a).length = 0 ∧
      (∀ b, b ≠ a → (PL_free_blob gd a).2.array b = gd.array b) ∧
      (PL_free_blob gd a).2.released = a :: gd.released ∧
      PL_free_blob (PL_free_blob gd a).2 a = (false, (PL_free_blob gd a).2)) ∧
    ((gd.array a).type.nocopy = false → PL_free_blob gd a = (false, gd)) ∧
    ((gd.array a).type.release = none → PL_free_blob gd a = (false, gd)) ∧
    (∀ release : Nat → Bool, (gd.array a).type.release = some release → release a = false →
      (PL_free_blob gd a).1 = false ∧ (PL_free_blob gd a).2.array = gd.array) := by
  refine ⟨?_, ?_, ?_, ?_⟩
  · intro release hnc hrel hname hok
    have hfirst : PL_free_blob gd a = (true, { gd with
        released := a :: gd.released
        array := Function.update gd.array a { gd.array a with length := 0, name := none } }) := by
      simp [PL_free_blob, hrel, hnc, hname, hok]
    rw [hfirst]
    refine ⟨rfl, by simp, by simp, ?_, rfl, ?_⟩
    · intro b hb
      simp [Function.update_noteq hb]
    · simp [PL_free_blob, hrel]
  · intro hnc
    cases hrel : (gd.array a).type.release <;> simp [PL_free_blob, hrel, hnc]
  · intro hrel
    simp [PL_free_blob, hrel]
  · intro release hrel hfail
    by_cases hc : (gd.array a).type.nocopy = true ∧ (gd.array a).name.isSome = true
    · simp [PL_free_blob, hrel, hc, hfail]
    · simp [PL_free_blob, hrel, hc]

/-- C19 at work on `demoAtoms`: atom 20 is released once, the callback of atom 21
fails, atom 22 is not a no-copy blob. -/
theorem PL_free_blob_spec_witness :
    ((PL_free_blob demoAtoms 20).1 = true ∧
      ((PL_free_blob demoAtoms 20).2.array 20).name = none ∧
      ((PL_free_blob demoAtoms 20).2.array 20).length = 0 ∧
      (∀ b, b ≠ 20 → (PL_free_blob demoAtoms 20).2.array b = demoAtoms.array b) ∧
      (PL_free_blob demoAtoms 20).2.released = 20 :: demoAtoms.released ∧
      PL_free_blob (PL_free_blob demoAtoms 20).2 20 = (false, (PL_free_blob demoAtoms 20).2)) ∧
    ((PL_free_blob demoAtoms 21).1 = false ∧
      (PL_free_blob demoAtoms 21).2.array = demoAtoms.array) ∧
    PL_free_blob demoAtoms 22 = (false, demoAtoms) :=
  ⟨(PL_free_blob_spec demoAtoms 20).1 (fun _ => true) rfl rfl rfl rfl,
   (PL_free_blob_spec demoAtoms 21).2.2.2 (fun _ => false) rfl rfl,
   (PL_free_blob_spec demoAtoms 22).2.1 rfl⟩

/-! ## C18: rejecting an invalid dict -/

/-- Two memories that agree outside a block give the same link when no reference
leads into the block. -/
theorem linkValLoop_agree (m m0 : Nat → Word) (lo hi : Nat)
    (hag : ∀ x, (x < lo ∨ hi ≤ x) → m x = m0 x)
    (hfresh : ∀ a b, m0 a = Word.ref b → (b < lo ∨ hi ≤ b)) :
    ∀ (fuel : Nat) (w : Word), (∀ b, w = Word.ref b → (b < lo ∨ hi ≤ b)) →
      linkValLoop m fuel w = linkValLoop m0 fuel w := by
  intro fuel
  induction fuel with
  | zero => intro w _; cases w <;> simp [linkValLoop]
  | succ k ih =>
    intro w hw
    cases w with
    | ref q =>
      have hq := hag q (hw q rfl)
      simp only [linkValLoop, hq]
      split_ifs
      · rfl
      · exact ih (m0 q) (fun b hb => hfresh q b hb)
    | _ => simp [linkValLoop]

/-- The loop over the keys returns when every value dereferences, reports exactly
whether all keys are well formed, and writes inside the block only. -/
theorem putDictPairs_spec (fuel lBase : Nat) (m0 : Nat → Word) (lo hi : Nat)
    (hfresh : ∀ a b, m0 a = Word.ref b → (b < lo ∨ hi ≤ b)) (hloc : hi ≤ lBase) :
    ∀ (keys : List Word) (m : Nat → Word) (p : Nat) (v : term_t),
      (∀ x, (x < lo ∨ hi ≤ x) → m x = m0 x) → lo ≤ p → p + 2 * keys.length ≤ hi →
      (∀ i, i < keys.length → ∃ q, deRef m0 fuel (lBase + v + i) = some q) →
      ∃ (ok : Bool) (m5 : Nat → Word), putDictPairs fuel lBase keys m p v = some (ok, m5) ∧
        (ok = true ↔ ∀ k ∈ keys, is_dict_key k = true) ∧
        (∀ x, (x < lo ∨ hi ≤ x) → m5 x = m0 x) := by
  intro keys
  induction keys with
  | nil =>
    intro m p v hag _ _ _
    exact ⟨true, m, rfl, by simp, hag⟩
  | cons k ks ih =>
    intro m p v hag hlo hhi hder
    simp only [List.length_cons] at hhi hder
    obtain ⟨q, hq⟩ := hder 0 (Nat.succ_pos _)
    simp only [Nat.add_zero] at hq
    obtain ⟨w, hw, _⟩ := linkValLoop_of_deRef m0 fuel (lBase + v) q hq
    have hslot : m (lBase + v) = m0 (lBase + v) := hag _ (Or.inr (by omega))
    have hlink : linkValI m fuel (lBase + v) = some w := by
      simp only [linkValI, hslot]
      rw [linkValLoop_agree m m0 lo hi hag hfresh fuel _ (fun b hb => hfresh _ b hb)]
      exact hw
    have hag1 : ∀ x, (x < lo ∨ hi ≤ x) → Function.update m p w x = m0 x := by
      intro x hx
      rw [Function.update_noteq (by omega)]
      exact hag x hx
    by_cases hk : is_dict_key k = true
    · have hag2 : ∀ x, (x < lo ∨ hi ≤ x) →
          Function.update (Function.update m p w) (p + 1) k x = m0 x := by
        intro x hx
        rw [Function.update_noteq (by omega)]
        exact hag1 x hx
      obtain ⟨ok, m5, hrun, hok, hag5⟩ := ih _ (p + 2) (v + 1) hag2 (by omega) (by omega)
        (by
          intro i hi
          obtain ⟨q1, hq1⟩ := hder (i + 1) (by omega)
          exact ⟨q1, by rw [show lBase + (v + 1) + i = lBase + v + (i + 1) from by omega]; exact hq1⟩)
      refine ⟨ok, m5, by simp [putDictPairs, hlink, hk, hrun], ?_, hag5⟩
      rw [hok]
      simp [hk]
    · refine ⟨false, Function.update m p w, by simp [putDictPairs, hlink, hk], ?_, hag1⟩
      simp only [Bool.false_eq_true, false_iff]
      intro hall
      exact hk (hall k (List.mem_cons_self k ks))

/-- The cells that the loop over the keys writes when it runs to its end: outside the
`2*len` cells from `p` the memory stays, and pair `i` is the link to the value of
handle `v+i`, taken in the memory `m0` before the block was written, followed by key
`i`. -/
theorem putDictPairs_cells (fuel lBase : Nat) (m0 : Nat → Word) (lo hi : Nat)
    (hfresh : ∀ a b, m0 a = Word.ref b → (b < lo ∨ hi ≤ b)) (hloc : hi ≤ lBase) :
    ∀ (keys : List Word) (m : Nat → Word) (p : Nat) (v : term_t) (m5 : Nat → Word),
      (∀ x, (x < lo ∨ hi ≤ x) → m x = m0 x) → lo ≤ p → p + 2 * keys.length ≤ hi →
      putDictPairs fuel lBase keys m p v = some (true, m5) →
      (∀ x, (x < p ∨ p + 2 * keys.length ≤ x) → m5 x = m x) ∧
      (∀ i, i < keys.length →
        linkValI m0 fuel (lBase + v + i) = some (m5 (p + 2 * i)) ∧
        keys.get? i = some (m5 (p + 2 * i + 1))) := by
  intro keys
  induction keys with
  | nil =>
    intro m p v m5 _ _ _ hrun
    simp only [putDictPairs, Option.some.injEq, Prod.mk.injEq, true_and] at hrun
    subst hrun
    exact ⟨fun _ _ => rfl, fun i hi => absurd hi (by simp)⟩
  | cons k ks ih =>
    intro m p v m5 hag hlo hhi hrun
    simp only [List.length_cons] at hhi
    have hslot : m (lBase + v) = m0 (lBase + v) := hag _ (Or.inr (by omega))
    have hlink : linkValI m fuel (lBase + v) = linkValI m0 fuel (lBase + v) := by
      simp only [linkValI, hslot]
      exact linkValLoop_agree m m0 lo hi hag hfresh fuel _ (fun b hb => hfresh _ b hb)
    rw [putDictPairs, hlink] at hrun
    cases hw : linkValI m0 fuel (lBase + v) with
    | none => rw [hw] at hrun; cases hrun
    | some w =>
      rw [hw] at hrun
      dsimp only at hrun
      by_cases hk : is_dict_key k = true
      · rw [if_pos hk] at hrun
        have hag2 : ∀ x, (x < lo ∨ hi ≤ x) →
            Function.update (Function.update m p w) (p + 1) k x = m0 x := by
          intro x hx
          rw [Function.update_noteq (by omega), Function.update_noteq (by omega)]
          exact hag x hx
        obtain ⟨hout, hcells⟩ := ih _ (p + 2) (v + 1) m5 hag2 (by omega) (by omega) hrun
        refine ⟨?_, ?_⟩
        · intro x hx
          simp only [List.length_cons] at hx
          rw [hout x (by omega), Function.update_noteq (by omega),
            Function.update_noteq (by omega)]
        · intro i hi
          simp only [List.length_cons] at hi
          cases i with
          | zero =>
            refine ⟨?_, ?_⟩
            · rw [Nat.add_zero, Nat.mul_zero, Nat.add_zero, hw,
                hout p (Or.inl (by omega)), Function.update_noteq (by omega),
                Function.update_same]
            · rw [Nat.mul_zero, Nat.add_zero, hout (p + 1) (Or.inl (by omega)),
                Function.update_same]
              rfl
          | succ j =>
            obtain ⟨h1, h2⟩ := hcells j (by omega)
            refine ⟨?_, ?_⟩
            · rw [show lBase + v + (j + 1) = lBase + (v + 1) + j from by omega,
                show p + 2 * (j + 1) = p + 2 + 2 * j from by omega]
              exact h1
            · rw [show p + 2 * (j + 1) + 1 = p + 2 + 2 * j + 1 from by omega]
              simpa using h2
      · rw [if_neg hk] at hrun
        cases hrun

/-- The return paths of `PL_put_dict` once the value handles are globalized, by the
tag, the keys and the answer of `dict_order`, with `m5` the memory in which the dict is
written. -/
theorem PL_put_dict_cases (dict_order : (Nat → Word) → Nat → Bool) (fuel : Nat) (s s1 : LD)
    (t : term_t) (tag : Option Word) (keys : List Word) (values : term_t)
    (hglob : globalizeValues fuel keys.length s values = some (true, s1))
    (hroom : s1.gTop + (keys.length * 2 + 2) ≤ s1.gMax ∨
      s1.gTop + (keys.length * 2 + 2) ≤ s1.gLimit)
    (hloc : s1.gTop + (keys.length * 2 + 2) ≤ s1.lBase)
    (hfresh : ∀ a b, s1.mem a = Word.ref b →
      (b < s1.gTop ∨ s1.gTop + (keys.length * 2 + 2) ≤ b))
    (hder : ∀ i, i < keys.length →
      ∃ q, deRef s1.mem fuel (valTermRef s1 (values + i)) = some q) :
    ∃ (r : Int) (s2 : LD) (m5 : Nat → Word),
      PL_put_dict dict_order fuel s t tag keys values = some (r, s2) ∧
      (∀ x, (x < s1.gTop ∨ s1.gTop + (keys.length * 2 + 2) ≤ x) → m5 x = s1.mem x) ∧
      (((∃ tg, tag = some tg ∧ isAtom tg = false) ∨ (∃ k ∈ keys, is_dict_key k = false)) →
        r = -1 ∧ s2.gTop = s1.gTop ∧
        s2.mem (valTermRef s1 t) = s1.mem (valTermRef s1 t)) ∧
      ((∀ tg, tag = some tg → isAtom tg = true) → (∀ k ∈ keys, is_dict_key k = true) →
        dict_order m5 s1.gTop = false →
        r = -2 ∧ s2.gTop = s1.gTop ∧ s2.mem = m5 ∧
        s2.mem (valTermRef s1 t) = s1.mem (valTermRef s1 t)) ∧
      ((∀ tg, tag = some tg → isAtom tg = true) → (∀ k ∈ keys, is_dict_key k = true) →
        dict_order m5 s1.gTop = true →
        r = 1 ∧ s2.gTop = s1.gTop + (keys.length * 2 + 2) ∧
        m5 s1.gTop = dict_functor keys.length ∧
        s2.mem (valTermRef s1 t) = consPtr s1.gTop ∧
        (∀ x, x ≠ valTermRef s1 t → s2.mem x = m5 x) ∧
        s2.mem s1.gTop = dict_functor keys.length ∧
        s2.mem (s1.gTop + 1) = tag.getD Word.var ∧
        (∀ i, i < keys.length →
          linkValI s1.mem fuel (valTermRef s1 (values + i))
            = some (s2.mem (s1.gTop + 2 + 2 * i)) ∧
          keys.get? i = some (s2.mem (s1.gTop + 2 + 2 * i + 1)))) := by
  obtain ⟨g, hreq⟩ := requireGlobalSpace_room s1 (keys.length * 2 + 2) hroom
  have halloc : allocGlobal s1 (keys.length * 2 + 2)
      = (some s1.gTop, { s1 with gMax := g, gTop := s1.gTop + (keys.length * 2 + 2) }) := by
    simp [allocGlobal, hreq]
  have hslot : s1.gTop + (keys.length * 2 + 2) ≤ valTermRef s1 t := by
    simp only [valTermRef]; omega
  -- the memory after the functor and a tag word `tw` that is no reference
  have build : ∀ tw : Word, isRef tw = false →
      ∃ (ok : Bool) (m5 : Nat → Word),
        putDictPairs fuel s1.lBase keys
          (Function.update (Function.update s1.mem s1.gTop (dict_functor keys.length))
            (s1.gTop + 1) tw) (s1.gTop + 2) values = some (ok, m5) ∧
        (ok = true ↔ ∀ k ∈ keys, is_dict_key k = true) ∧
        m5 s1.gTop = dict_functor keys.length ∧
        (∀ x, (x < s1.gTop ∨ s1.gTop + (keys.length * 2 + 2) ≤ x) → m5 x = s1.mem x) ∧
        (ok = true → m5 (s1.gTop + 1) = tw ∧
          (∀ i, i < keys.length →
            linkValI s1.mem fuel (valTermRef s1 (values + i))
              = some (m5 (s1.gTop + 2 + 2 * i)) ∧
            keys.get? i = some (m5 (s1.gTop + 2 + 2 * i + 1)))) := by
    intro tw htw
    have hf1 : ∀ a b, Function.update s1.mem s1.gTop (dict_functor keys.length) a
        = Word.ref b → (b < s1.gTop ∨ s1.gTop + (keys.length * 2 + 2) ≤ b) := by
      intro a b hab
      by_cases ha : a = s1.gTop
      · rw [ha, Function.update_same] at hab
        simp [dict_functor] at hab
      · rw [Function.update_noteq ha] at hab
        exact hfresh a b hab
    have hf2 : ∀ a b, Function.update (Function.update s1.mem s1.gTop
        (dict_functor keys.length)) (s1.gTop + 1) tw a = Word.ref b →
        (b < s1.gTop ∨ s1.gTop + (keys.length * 2 + 2) ≤ b) := by
      intro a b hab
      by_cases ha : a = s1.gTop + 1
      · rw [ha, Function.update_same] at hab
        rw [hab] at htw
        simp [isRef] at htw
      · rw [Function.update_noteq ha] at hab
        exact hf1 a b hab
    have hder4 : ∀ i, i < keys.length → ∃ q, deRef (Function.update (Function.update s1.mem
        s1.gTop (dict_functor keys.length)) (s1.gTop + 1) tw) fuel
        (s1.lBase + values + i) = some q := by
      intro i hi
      obtain ⟨q, hq⟩ := hder i hi
      refine ⟨q, ?_⟩
      rw [deRef_update_fresh _ (s1.gTop + 1) tw
          (fun a b hab => by have := hf1 a b hab; omega) fuel _ (by omega),
        deRef_update_fresh _ s1.gTop _
          (fun a b hab => by have := hfresh a b hab; omega) fuel _ (by omega)]
      simp only [valTermRef] at hq
      rw [show s1.lBase + values + i = s1.lBase + (values + i) from by omega]
      exact hq
    obtain ⟨ok, m5, hrun, hok, hag⟩ :=
      putDictPairs_spec fuel s1.lBase _ (s1.gTop + 2) (s1.gTop + (keys.length * 2 + 2))
        (fun a b hab => by have := hf2 a b hab; omega) hloc keys _ (s1.gTop + 2) values
        (fun _ _ => rfl) (le_refl _) (by omega) hder4
    refine ⟨ok, m5, hrun, hok, ?_, ?_, ?_⟩
    · rw [hag s1.gTop (Or.inl (by omega)), Function.update_noteq (by omega),
        Function.update_same]
    · intro x hx
      rw [hag x (by omega), Function.update_noteq (by omega), Function.update_noteq (by omega)]
    · intro hokt
      rw [hokt] at hrun
      obtain ⟨hout, hcells⟩ :=
        putDictPairs_cells fuel s1.lBase _ (s1.gTop + 2) (s1.gTop + (keys.length * 2 + 2))
          (fun a b hab => by have := hf2 a b hab; omega) hloc keys _ (s1.gTop + 2) values m5
          (fun _ _ => rfl) (le_refl _) (by omega) hrun
      refine ⟨by rw [hout _ (Or.inl (by omega)), Function.update_same], ?_⟩
      intro i hi
      obtain ⟨h1, h2⟩ := hcells i hi
      refine ⟨?_, h2⟩
      rw [← h1]
      have hag4 : ∀ x, (x < s1.gTop ∨ s1.gTop + (keys.length * 2 + 2) ≤ x) →
          Function.update (Function.update s1.mem s1.gTop (dict_functor keys.length))
            (s1.gTop + 1) tw x = s1.mem x := by
        intro x hx
        rw [Function.update_noteq (by omega), Function.update_noteq (by omega)]
      simp only [linkValI, valTermRef]
      rw [show s1.lBase + values + i = s1.lBase + (values + i) from by omega,
        hag4 _ (Or.inr (by omega))]
      exact (linkValLoop_agree _ s1.mem s1.gTop (s1.gTop + (keys.length * 2 + 2)) hag4
        hfresh fuel _ (fun b hb => hfresh _ b hb)).symm
  have hsub : s1.gTop + (keys.length * 2 + 2) - (keys.length * 2 + 2) = s1.gTop := by omega
  cases htag : tag with
  | some tg =>
    by_cases hat : isAtom tg = true
    · have htr : isRef tg = false := by cases tg <;> simp_all [isAtom, isRef]
      obtain ⟨ok, m5, hrun, hok, hhead, hag, hcell⟩ := build tg htr
      cases ok with
      | false =>
        refine ⟨-1, { s1 with gMax := g, mem := m5, gTop := s1.gTop }, m5, ?_, hag, ?_, ?_, ?_⟩
        · simp [PL_put_dict, hglob, halloc, hat, hrun, hsub]
        · intro _
          exact ⟨rfl, rfl, hag _ (Or.inr hslot)⟩
        · intro _ hk _
          exact absurd (hok.mpr hk) (by simp)
        · intro _ hk _
          exact absurd (hok.mpr hk) (by simp)
      | true =>
        have hkeys := hok.mp rfl
        have hbad : ¬ ((∃ tg1, some tg = some tg1 ∧ isAtom tg1 = false) ∨
            (∃ k ∈ keys, is_dict_key k = false)) := by
          rintro (⟨tg1, h1, h2⟩ | ⟨k, hk, h2⟩)
          · simp only [Option.some.injEq] at h1
            rw [← h1, hat] at h2
            cases h2
          · rw [hkeys k hk] at h2
            cases h2
        cases hord : dict_order m5 s1.gTop with
        | false =>
          refine ⟨-2, { s1 with gMax := g, mem := m5, gTop := s1.gTop }, m5, ?_, hag,
            fun h => absurd h hbad, ?_, ?_⟩
          · simp [PL_put_dict, hglob, halloc, hat, hrun, hord, hsub]
          · intro _ _ _
            exact ⟨rfl, rfl, rfl, hag _ (Or.inr hslot)⟩
          · intro _ _ h
            simp [hord] at h
        | true =>
          refine ⟨1, setHandle { s1 with
              gMax := g, mem := m5, gTop := s1.gTop + (keys.length * 2 + 2) } t
              (consPtr s1.gTop), m5, ?_, hag, fun h => absurd h hbad, ?_, ?_⟩
          · simp [PL_put_dict, hglob, halloc, hat, hrun, hord]
          · intro _ _ h
            simp [hord] at h
          · intro _ _ _
            have hmem : ∀ x, x ≠ valTermRef s1 t → (setHandle { s1 with
                gMax := g, mem := m5, gTop := s1.gTop + (keys.length * 2 + 2) } t
                (consPtr s1.gTop)).mem x = m5 x := by
              intro x hx
              simp only [setHandle, valTermRef] at hx ⊢
              rw [Function.update_noteq hx]
            obtain ⟨hc1, hc2⟩ := hcell rfl
            refine ⟨rfl, rfl, hhead, by simp [setHandle, valTermRef], hmem, ?_, ?_, ?_⟩
            · rw [hmem _ (by omega)]
              exact hhead
            · rw [hmem _ (by omega)]
              exact hc1
            · intro i hi
              rw [hmem _ (by omega), hmem _ (by omega)]
              exact hc2 i hi
    · have hat1 : isAtom tg = false := by simpa using hat
      refine ⟨-1, { s1 with
          gMax := g
          mem := Function.update s1.mem s1.gTop (dict_functor keys.length)
          gTop := s1.gTop }, s1.mem, ?_, fun _ _ => rfl, ?_, ?_, ?_⟩
      · simp [PL_put_dict, hglob, halloc, hat1, hsub]
      · intro _
        refine ⟨rfl, rfl, ?_⟩
        simp only
        rw [Function.update_noteq (by omega)]
      · intro h _ _
        have := h tg rfl
        rw [hat1] at this
        cases this
      · intro h _ _
        have := h tg rfl
        rw [hat1] at this
        cases this
  | none =>
    obtain ⟨ok, m5, hrun, hok, hhead, hag, hcell⟩ := build Word.var rfl
    cases ok with
    | false =>
      refine ⟨-1, { s1 with gMax := g, mem := m5, gTop := s1.gTop }, m5, ?_, hag, ?_, ?_, ?_⟩
      · simp [PL_put_dict, hglob, halloc, hrun, hsub]
      · intro _
        exact ⟨rfl, rfl, hag _ (Or.inr hslot)⟩
      · intro _ hk _
        exact absurd (hok.mpr hk) (by simp)
      · intro _ hk _
        exact absurd (hok.mpr hk) (by simp)
    | true =>
      have hkeys := hok.mp rfl
      have hbad : ¬ ((∃ tg1, (none : Option Word) = some tg1 ∧ isAtom tg1 = false) ∨
          (∃ k ∈ keys, is_dict_key k = false)) := by
        rintro (⟨tg1, h1, _⟩ | ⟨k, hk, h2⟩)
        · cases h1
        · rw [hkeys k hk] at h2
          cases h2
      cases hord : dict_order m5 s1.gTop with
      | false =>
        refine ⟨-2, { s1 with gMax := g, mem := m5, gTop := s1.gTop }, m5, ?_, hag,
          fun h => absurd h hbad, ?_, ?_⟩
        · simp [PL_put_dict, hglob, halloc, hrun, hord, hsub]
        · intro _ _ _
          exact ⟨rfl, rfl, rfl, hag _ (Or.inr hslot)⟩
        · intro _ _ h
          simp [hord] at h
      | true =>
        refine ⟨1, setHandle { s1 with
            gMax := g, mem := m5, gTop := s1.gTop + (keys.length * 2 + 2) } t
            (consPtr s1.gTop), m5, ?_, hag, fun h => absurd h hbad, ?_, ?_⟩
        · simp [PL_put_dict, hglob, halloc, hrun, hord]
        · intro _ _ h
          simp [hord] at h
        · intro _ _ _
          have hmem : ∀ x, x ≠ valTermRef s1 t → (setHandle { s1 with
              gMax := g, mem := m5, gTop := s1.gTop + (keys.length * 2 + 2) } t
              (consPtr s1.gTop)).mem x = m5 x := by
            intro x hx
            simp only [setHandle, valTermRef] at hx ⊢
            rw [Function.update_noteq hx]
          obtain ⟨hc1, hc2⟩ := hcell rfl
          refine ⟨rfl, rfl, hhead, by simp [setHandle, valTermRef], hmem, ?_, ?_, ?_⟩
          · rw [hmem _ (by omega)]
            exact hhead
          · rw [hmem _ (by omega)]
            exact hc1
          · intro i hi
            rw [hmem _ (by omega), hmem _ (by omega)]
            exact hc2 i hi

/-- C18. After the value handles were globalized, giving the state `s1`, with room
for the `2*len+2` words of the dict on a global stack below the local stack, no
reference leading into the new block and every value dereferencing within `fuel`,
`PL_put_dict` returns as follows.  When the tag is given and is not an atom, or some
key is not a well-formed dict key: -1.  Otherwise, with `m5` the memory in which the
dict is written at the old global top: -2 when `dict_order` does not report success,
the memory staying as written.  In both cases the global top is back at its value
before the allocation and the slot of `t` holds what it held.  Otherwise it returns
true, the slot of `t` holds a compound pointer to the old global top, the global top
is `2*len+2` words higher, and the dict is written there: the functor
`dict_functor(len)`, then the tag (an unbound variable when no tag is given), then
for each `i < len` the link to the value of the handle `values+i` followed by key
`i`; every other cell holds what `m5` holds.  It returns true on no other path:
whenever the result is true, the slot of `t` and the cells of the dict are as
described. -/
theorem PL_put_dict_spec (dict_order : (Nat → Word) → Nat → Bool) (fuel : Nat) (s s1 : LD)
    (t : term_t) (tag : Option Word) (keys : List Word) (values : term_t)
    (hglob : globalizeValues fuel keys.length s values = some (true, s1))
    (hroom : s1.gTop + (keys.length * 2 + 2) ≤ s1.gMax ∨
      s1.gTop + (keys.length * 2 + 2) ≤ s1.gLimit)
    (hloc : s1.gTop + (keys.length * 2 + 2) ≤ s1.lBase)
    (hfresh : ∀ a b, s1.mem a = Word.ref b →
      (b < s1.gTop ∨ s1.gTop + (keys.length * 2 + 2) ≤ b))
    (hder : ∀ i, i < keys.length →
      ∃ q, deRef s1.mem fuel (valTermRef s1 (values + i)) = some q) :
    ∃ (r : Int) (s2 : LD) (m5 : Nat → Word),
      PL_put_dict dict_order fuel s t tag keys values = some (r, s2) ∧
      (∀ x, (x < s1.gTop ∨ s1.gTop + (keys.length * 2 + 2) ≤ x) → m5 x = s1.mem x) ∧
      (((∃ tg, tag = some tg ∧ isAtom tg = false) ∨ (∃ k ∈ keys, is_dict_key k = false)) →
        r = -1 ∧ s2.gTop = s1.gTop ∧
        s2.mem (valTermRef s1 t) = s1.mem (valTermRef s1 t)) ∧
      ((∀ tg, tag = some tg → isAtom tg = true) → (∀ k ∈ keys, is_dict_key k = true) →
        dict_order m5 s1.gTop = false →
        r = -2 ∧ s2.gTop = s1.gTop ∧ s2.mem = m5 ∧
        s2.mem (valTermRef s1 t) = s1.mem (valTermRef s1 t)) ∧
      ((∀ tg, tag = some tg → isAtom tg = true) → (∀ k ∈ keys, is_dict_key k = true) →
        dict_order m5 s1.gTop = true →
        r = 1 ∧ s2.gTop = s1.gTop + (keys.length * 2 + 2) ∧
        m5 s1.gTop = dict_functor keys.length ∧
        s2.mem (valTermRef s1 t) = consPtr s1.gTop ∧
        (∀ x, x ≠ valTermRef s1 t → s2.mem x = m5 x) ∧
        s2.mem s1.gTop = dict_functor keys.length ∧
        s2.mem (s1.gTop + 1) = tag.getD Word.var ∧
        (∀ i, i < keys.length →
          linkValI s1.mem fuel (valTermRef s1 (values + i))
            = some (s2.mem (s1.gTop + 2 + 2 * i)) ∧
          keys.get? i = some (s2.mem (s1.gTop + 2 + 2 * i + 1)))) ∧
      (r = 1 →
        s2.mem (valTermRef s1 t) = consPtr s1.gTop ∧
        s2.mem s1.gTop = dict_functor keys.length ∧
        s2.mem (s1.gTop + 1) = tag.getD Word.var ∧
        (∀ i, i < keys.length →
          linkValI s1.mem fuel (valTermRef s1 (values + i))
            = some (s2.mem (s1.gTop + 2 + 2 * i)) ∧
          keys.get? i = some (s2.mem (s1.gTop + 2 + 2 * i + 1)))) := by
  obtain ⟨r, s2, m5, hrun, hout, hbad, hord, hok⟩ :=
    PL_put_dict_cases dict_order fuel s s1 t tag keys values hglob hroom hloc hfresh hder
  refine ⟨r, s2, m5, hrun, hout, hbad, hord, hok, ?_⟩
  intro hr
  by_cases hb : (∃ tg, tag = some tg ∧ isAtom tg = false) ∨ (∃ k ∈ keys, is_dict_key k = false)
  · have h1 := (hbad hb).1
    rw [hr] at h1
    cases h1
  · have htag : ∀ tg, tag = some tg → isAtom tg = true := by
      intro tg htg
      cases hat : isAtom tg with
      | true => rfl
      | false => exact absurd (Or.inl ⟨tg, htg, hat⟩) hb
    have hkeys : ∀ k ∈ keys, is_dict_key k = true := by
      intro k hk
      cases hdk : is_dict_key k with
      | true => rfl
      | false => exact absurd (Or.inr ⟨k, hk, hdk⟩) hb
    cases hdo : dict_order m5 s1.gTop with
    | false =>
      have h1 := (hord htag hkeys hdo).1
      rw [hr] at h1
      cases h1
    | true =>
      obtain ⟨-, -, -, hslot, -, hfun, htagc, hpairs⟩ := hok htag hkeys hdo
      exact ⟨hslot, hfun, htagc, hpairs⟩

theorem demoArgsLD_nonref (x : Nat) : isRef (demoArgsLD.mem x) = false := by
  simp only [demoArgsLD, ATOM_stack]
  split_ifs <;> rfl

/-- C18 at work in `demoArgsLD`: a dict without tag for the values in the handles 8
and 9 with the keys 30 and 31, which `demoDictOrder` finds in order. -/
theorem PL_put_dict_spec_witness :
    ∃ (r : Int) (s2 : LD) (m5 : Nat → Word),
      PL_put_dict demoDictOrder 0 demoArgsLD 9 none [Word.atom 30, Word.atom 31] 8
        = some (r, s2) ∧
      (∀ x, (x < demoArgsLD.gTop ∨ demoArgsLD.gTop + (2 * 2 + 2) ≤ x) →
        m5 x = demoArgsLD.mem x) ∧
      (((∃ tg, (none : Option Word) = some tg ∧ isAtom tg = false) ∨
          (∃ k ∈ [Word.atom 30, Word.atom 31], is_dict_key k = false)) →
        r = -1 ∧ s2.gTop = demoArgsLD.gTop ∧
        s2.mem (valTermRef demoArgsLD 9) = demoArgsLD.mem (valTermRef demoArgsLD 9)) ∧
      ((∀ tg, (none : Option Word) = some tg → isAtom tg = true) →
        (∀ k ∈ [Word.atom 30, Word.atom 31], is_dict_key k = true) →
        demoDictOrder m5 demoArgsLD.gTop = false →
        r = -2 ∧ s2.gTop = demoArgsLD.gTop ∧ s2.mem = m5 ∧
        s2.mem (valTermRef demoArgsLD 9) = demoArgsLD.mem (valTermRef demoArgsLD 9)) ∧
      ((∀ tg, (none : Option Word) = some tg → isAtom tg = true) →
        (∀ k ∈ [Word.atom 30, Word.atom 31], is_dict_key k = true) →
        demoDictOrder m5 demoArgsLD.gTop = true →
        r = 1 ∧ s2.gTop = demoArgsLD.gTop + (2 * 2 + 2) ∧
        m5 demoArgsLD.gTop = dict_functor 2 ∧
        s2.mem (valTermRef demoArgsLD 9) = consPtr demoArgsLD.gTop ∧
        (∀ x, x ≠ valTermRef demoArgsLD 9 → s2.mem x = m5 x) ∧
        s2.mem demoArgsLD.gTop = dict_functor 2 ∧
        s2.mem (demoArgsLD.gTop + 1) = (none : Option Word).getD Word.var ∧
        (∀ i, i < 2 →
          linkValI demoArgsLD.mem 0 (valTermRef demoArgsLD (8 + i))
            = some (s2.mem (demoArgsLD.gTop + 2 + 2 * i)) ∧
          [Word.atom 30, Word.atom 31].get? i
            = some (s2.mem (demoArgsLD.gTop + 2 + 2 * i + 1)))) ∧
      (r = 1 →
        s2.mem (valTermRef demoArgsLD 9) = consPtr demoArgsLD.gTop ∧
        s2.mem demoArgsLD.gTop = dict_functor 2 ∧
        s2.mem (demoArgsLD.gTop + 1) = (none : Option Word).getD Word.var ∧
        (∀ i, i < 2 →
          linkValI demoArgsLD.mem 0 (valTermRef demoArgsLD (8 + i))
            = some (s2.mem (demoArgsLD.gTop + 2 + 2 * i)) ∧
          [Word.atom 30, Word.atom 31].get? i
            = some (s2.mem (demoArgsLD.gTop + 2 + 2 * i + 1)))) :=
  PL_put_dict_spec demoDictOrder 0 demoArgsLD demoArgsLD 9 none
    [Word.atom 30, Word.atom 31] 8 rfl (by decide) (by decide)
    (fun a b hab => by
      have h := demoArgsLD_nonref a
      rw [hab] at h
      cases h)
    (fun i _ => ⟨_, deRef_nonref _ 0 _ (demoArgsLD_nonref _)⟩)

/-- The return codes of `PL_put_dict` on `demoArgsLD`: true for the keys 30 and 31,
-2 for the keys 31 and 30, -1 for a key that is a compound and for a tag that is an
integer, and the global top is where it was after each rejection. -/
theorem PL_put_dict_return_codes :
    (PL_put_dict demoDictOrder 0 demoArgsLD 9 none [Word.atom 30, Word.atom 31] 8).map
        (fun r => (r.1, r.2.gTop)) = some (1, 16) ∧
    (PL_put_dict demoDictOrder 0 demoArgsLD 9 none [Word.atom 31, Word.atom 30] 8).map
        (fun r => (r.1, r.2.gTop)) = some (-2, 10) ∧
    (PL_put_dict demoDictOrder 0 demoArgsLD 9 none [Word.atom 30, Word.compound 4] 8).map
        (fun r => (r.1, r.2.gTop)) = some (-1, 10) ∧
    (PL_put_dict demoDictOrder 0 demoArgsLD 9 (some (Word.int 5)) [Word.atom 30, Word.atom 31]
        8).map (fun r => (r.1, r.2.gTop)) = some (-1, 10) := by
  decide

/-- The dict that `PL_put_dict` writes on `demoArgsLD` for the keys 30 and 31 and the
values in the handles 8 and 9: the functor, the unbound tag, the atom `stack` with the
key 30 and the integer 7 with the key 31 in the cells 10 to 15, and the compound
pointer to cell 10 in the slot of handle 9. -/
theorem PL_put_dict_written :
    (PL_put_dict demoDictOrder 0 demoArgsLD 9 none [Word.atom 30, Word.atom 31] 8).map
        (fun r => (r.1, (List.range 6).map (fun i => r.2.mem (10 + i)), r.2.mem 109))
      = some (1, [dict_functor 2, Word.var, ATOM_stack, Word.atom 30, Word.int 7,
          Word.atom 31], Word.compound 10) := by
  decide

/-! ## C11: classifying a list by its tail -/

/-- The state after the tail handle was unified with the reached cell: only the slot
of the tail handle is written. -/
theorem unify_ptrs_tail (s : LD) (t2 t : Nat) (hne : t2 ≠ t)
    (hv : s.mem t = Word.var → t < t2) :
    (unify_ptrs { s with mem := Function.update s.mem t2 Word.var } t2 t).mem
      = Function.update s.mem t2
          (if needsRef (s.mem t) = true then makeRefG t else s.mem t) := by
  have hmt : Function.update s.mem t2 Word.var t = s.mem t :=
    Function.update_noteq (Ne.symm hne) _ _
  unfold unify_ptrs
  simp only [hne, if_false, hmt]
  cases hw : s.mem t with
  | var =>
    have hlt := hv hw
    simp [isVar, needsRef, Trail, hlt]
  | _ => simp [isVar, isAttVar, needsRef, Trail]

/-- C11, the claim as stated fails when the tail handle is in the way of the reached
cell.  In `demoNilLD` the handle 12 holds `[]`, so `skip_list` reaches its slot 112
after no list cell; with the same handle given as the tail handle, `setVar(*t2)`
clears that slot before it is classified and the result is `PL_PARTIAL_LIST`, not
`PL_LIST`.  In `demoListLD` the handle 12 holds an unbound variable; with the handle 8,
whose slot lies below, as the tail handle, the reached cell is bound to the slot of
the tail handle and the result is `PL_NOT_A_LIST`, not `PL_PARTIAL_LIST`. -/
theorem PL_skip_list_tail_counterexample :
    (skip_list demoNilLD.mem 4 (valTermRef demoNilLD 12) = some (0, 112) ∧
      demoNilLD.mem 112 = ATOM_nil ∧
      (PL_skip_list 4 demoNilLD 12 (some 12)).map (fun r => (r.1, r.2.1))
        = some (ListType.PL_PARTIAL_LIST, 0)) ∧
    (skip_list demoListLD.mem 4 (valTermRef demoListLD 12) = some (0, 112) ∧
      demoListLD.mem 112 = Word.var ∧
      (PL_skip_list 4 demoListLD 12 (some 8)).map (fun r => (r.1, r.2.1, r.2.2.mem 112))
        = some (ListType.PL_NOT_A_LIST, 0, Word.ref 108)) := by
  decide

/-- C11, amended.  With `t` the cell that `skip_list` reaches from the handle `list`
and `len` the number of list cells it skipped, and with the tail handle either absent
or in a slot that is not `t`, that lies above `t` when `t` holds an unbound variable,
and that is not the first cell of the term in `t`: `PL_skip_list` stores `len` and
returns `PL_LIST` exactly when `t` holds `[]`, `PL_PARTIAL_LIST` exactly when
it holds an unbound variable, `PL_CYCLIC_TERM` exactly when it holds a list cell, and
`PL_NOT_A_LIST` exactly in the remaining case; the slot of the tail handle is made a
reference to `t` when `t` holds a variable and a copy of its word otherwise, and no
other cell is written.  On the four lists of `demoListLD`, with the tail handle 12
above them: `[1,2,3]` is a list of length 3, `[1,2|X]` a partial list whose tail handle
becomes a reference to `X`, the list cell that is its own tail a cyclic term,
`[1,2|foo]` not a list. -/
theorem PL_skip_list_spec (fuel : Nat) (s : LD) (list : term_t) (tail : Option term_t)
    (len t : Nat)
    (hskip : skip_list s.mem fuel (valTermRef s list) = some (len, t))
    (htail : ∀ tl, tail = some tl →
      valTermRef s tl ≠ t ∧ (s.mem t = Word.var → t < valTermRef s tl) ∧
      valPtr (s.mem t) ≠ valTermRef s tl) :
    (∃ (r : ListType) (s1 : LD), PL_skip_list fuel s list tail = some (r, len, s1) ∧
      (r = ListType.PL_LIST ↔ s.mem t = ATOM_nil) ∧
      (r = ListType.PL_PARTIAL_LIST ↔ s.mem t = Word.var) ∧
      (r = ListType.PL_CYCLIC_TERM ↔ isList s.mem (s.mem t) = true) ∧
      (r = ListType.PL_NOT_A_LIST ↔
        (s.mem t ≠ ATOM_nil ∧ s.mem t ≠ Word.var ∧ isList s.mem (s.mem t) = false)) ∧
      (tail = none → s1 = s) ∧
      (∀ tl, tail = some tl →
        s1.mem (valTermRef s tl)
          = (if needsRef (s.mem t) = true then makeRefG t else s.mem t) ∧
        (∀ x, x ≠ valTermRef s tl → s1.mem x = s.mem x))) ∧
    (PL_skip_list 4 demoListLD 8 (some 12)).map (fun r => (r.1, r.2.1))
        = some (ListType.PL_LIST, 3) ∧
    (PL_skip_list 4 demoListLD 9 (some 12)).map (fun r => (r.1, r.2.1, r.2.2.mem 112))
        = some (ListType.PL_PARTIAL_LIST, 2, Word.ref 35) ∧
    (PL_skip_list 4 demoListLD 10 (some 12)).map (fun r => (r.1, r.2.1))
        = some (ListType.PL_CYCLIC_TERM, 1) ∧
    (PL_skip_list 4 demoListLD 11 (some 12)).map (fun r => (r.1, r.2.1, r.2.2.mem 112))
        = some (ListType.PL_NOT_A_LIST, 2, Word.atom 9) := by
  refine ⟨?_, by decide⟩
  have core : ∀ s1 : LD, s1.mem t = s.mem t →
      isList s1.mem (s.mem t) = isList s.mem (s.mem t) →
      PL_skip_list fuel s list tail
        = (if isNil (s1.mem t) = true then some (ListType.PL_LIST, len, s1)
          else if isVar (s1.mem t) = true then some (ListType.PL_PARTIAL_LIST, len, s1)
          else if isList s1.mem (s1.mem t) = true then
            some (ListType.PL_CYCLIC_TERM, len, s1)
          else some (ListType.PL_NOT_A_LIST, len, s1)) →
      (tail = none → s1 = s) →
      (∀ tl, tail = some tl →
        s1.mem (valTermRef s tl)
          = (if needsRef (s.mem t) = true then makeRefG t else s.mem t) ∧
        (∀ x, x ≠ valTermRef s tl → s1.mem x = s.mem x)) →
      ∃ (r : ListType) (s1 : LD), PL_skip_list fuel s list tail = some (r, len, s1) ∧
        (r = ListType.PL_LIST ↔ s.mem t = ATOM_nil) ∧
        (r = ListType.PL_PARTIAL_LIST ↔ s.mem t = Word.var) ∧
        (r = ListType.PL_CYCLIC_TERM ↔ isList s.mem (s.mem t) = true) ∧
        (r = ListType.PL_NOT_A_LIST ↔
          (s.mem t ≠ ATOM_nil ∧ s.mem t ≠ Word.var ∧ isList s.mem (s.mem t) = false)) ∧
        (tail = none → s1 = s) ∧
        (∀ tl, tail = some tl →
          s1.mem (valTermRef s tl)
            = (if needsRef (s.mem t) = true then makeRefG t else s.mem t) ∧
          (∀ x, x ≠ valTermRef s tl → s1.mem x = s.mem x)) := by
    intro s1 hmt hlist hres hnone hsome
    rw [hmt, hlist] at hres
    by_cases hnil : s.mem t = ATOM_nil
    · refine ⟨ListType.PL_LIST, s1, ?_, ?_, ?_, ?_, ?_, hnone, hsome⟩
      · rw [hres]; simp [isNil, hnil]
      · simp [hnil]
      · simp [hnil, ATOM_nil]
      · simp [hnil, ATOM_nil, isList, hasFunctor, isTerm]
      · simp [hnil]
    · by_cases hvar : s.mem t = Word.var
      · refine ⟨ListType.PL_PARTIAL_LIST, s1, ?_, ?_, ?_, ?_, ?_, hnone, hsome⟩
        · rw [hres]; simp [isNil, hnil, hvar, isVar, ATOM_nil]
        · simp [hvar, ATOM_nil]
        · simp [hvar]
        · simp [hvar, isList, hasFunctor, isTerm]
        · simp [hvar]
      · have hnv : isVar (s.mem t) = false := by
          cases hw : s.mem t <;> simp_all [isVar]
        cases hl : isList s.mem (s.mem t) with
        | true =>
          refine ⟨ListType.PL_CYCLIC_TERM, s1, ?_, ?_, ?_, ?_, ?_, hnone, hsome⟩
          · rw [hres]; simp [isNil, hnil, hnv, hl]
          · simp [hnil]
          · simp [hvar]
          · simp
          · simp
        | false =>
          refine ⟨ListType.PL_NOT_A_LIST, s1, ?_, ?_, ?_, ?_, ?_, hnone, hsome⟩
          · rw [hres]; simp [isNil, hnil, hnv, hl]
          · simp [hnil]
          · simp [hvar]
          · simp
          · simp [hnil, hvar]
  cases tail with
  | none =>
    exact core s rfl rfl (by simp only [PL_skip_list, hskip]) (fun _ => rfl)
      (fun tl h => by cases h)
  | some tl =>
    obtain ⟨hne, hv, hptr⟩ := htail tl rfl
    have hmem := unify_ptrs_tail s (valTermRef s tl) t hne hv
    refine core (unify_ptrs { s with
        mem := Function.update s.mem (valTermRef s tl) Word.var } (valTermRef s tl) t)
      ?_ ?_ (by simp only [PL_skip_list, hskip]) (fun h => by cases h) ?_
    · rw [hmem, Function.update_noteq (Ne.symm hne)]
    · have hcell : (unify_ptrs { s with
          mem := Function.update s.mem (valTermRef s tl) Word.var } (valTermRef s tl) t).mem
          (valPtr (s.mem t)) = s.mem (valPtr (s.mem t)) := by
        rw [hmem, Function.update_noteq hptr]
      simp only [isList, hasFunctor, functorTerm, hcell]
    · intro tl1 h1
      simp only [Option.some.injEq] at h1
      subst h1
      rw [hmem]
      exact ⟨Function.update_same _ _ _, fun x hx => Function.update_noteq hx _ _⟩

/-- C11, amended, at work: the general statement for the list `[1,2|X]` of
`demoListLD`. -/
theorem PL_skip_list_spec_witness :
    ∃ (r : ListType) (s1 : LD), PL_skip_list 4 demoListLD 9 (some 12) = some (r, 2, s1) ∧
      (r = ListType.PL_LIST ↔ demoListLD.mem 35 = ATOM_nil) ∧
      (r = ListType.PL_PARTIAL_LIST ↔ demoListLD.mem 35 = Word.var) ∧
      (r = ListType.PL_CYCLIC_TERM ↔ isList demoListLD.mem (demoListLD.mem 35) = true) ∧
      (r = ListType.PL_NOT_A_LIST ↔
        (demoListLD.mem 35 ≠ ATOM_nil ∧ demoListLD.mem 35 ≠ Word.var ∧
          isList demoListLD.mem (demoListLD.mem 35) = false)) ∧
      ((some 12 : Option term_t) = none → s1 = demoListLD) ∧
      (∀ tl, (some 12 : Option term_t) = some tl →
        s1.mem (valTermRef demoListLD tl)
          = (if needsRef (demoListLD.mem 35) = true then makeRefG 35 else demoListLD.mem 35) ∧
        (∀ x, x ≠ valTermRef demoListLD tl → s1.mem x = demoListLD.mem x)) :=
  (PL_skip_list_spec 4 demoListLD 9 (some 12) 2 35 (by decide)
    (fun tl h => by
      simp only [Option.some.injEq] at h
      subst h
      decide)).1

/-! ## C12: a resource error and a type error -/

/-- C12, the code at the failing input.  In `demoExceptionLD` with the resource error
`error(resource_error(stack), global)` pending, `classify_exception` puts the pending
term in the class of ordinary errors, the same as the type error in handle 9, and
`PL_raise_exception` on the type error replaces the pending exception by it.  With the
type error pending, raising the resource error in handle 10 replaces it as well. -/
theorem PL_raise_exception_resource_error :
    classify_exception 4 (demoExceptionLD (Word.compound 20)) 8
        = some except_class.EXCEPT_ERROR ∧
    classify_exception 4 (demoExceptionLD (Word.compound 20)) 9
        = some except_class.EXCEPT_ERROR ∧
    (PL_raise_exception specRank shareTerm 4 (demoExceptionLD (Word.compound 20)) 9).map
        (fun r => (r.1, r.2.mem 108, r.2.exception_term))
        = some (false, Word.compound 30, 8) ∧
    (PL_raise_exception specRank shareTerm 4 (demoExceptionLD (Word.compound 30)) 10).map
        (fun r => (r.1, r.2.mem 108, r.2.exception_term))
        = some (false, Word.compound 20, 8) := by
  decide

/-! ## C13: when the pending exception is replaced -/

/-- C13, the claim as stated fails: with the type error of cell 30 pending, raising the
other type error, in handle 11, which is of the same class and not of a higher one,
replaces the pending exception. -/
theorem PL_raise_exception_equal_class_counterexample :
    classify_exception 4 (demoExceptionLD (Word.compound 30)) 8
        = some except_class.EXCEPT_ERROR ∧
    classify_exception 4 (demoExceptionLD (Word.compound 30)) 11
        = some except_class.EXCEPT_ERROR ∧
    (demoExceptionLD (Word.compound 30)).mem 108 = Word.compound 30 ∧
    (PL_raise_exception specRank shareTerm 4 (demoExceptionLD (Word.compound 30)) 11).map
        (fun r => (r.1, r.2.mem 108, r.2.exception_term))
        = some (false, Word.compound 40, 8) := by
  decide

/-- C13, amended.  For an exception `e` that is not an unbound variable:
`PL_raise_exception(e)` leaves the handle `exception_bin` and all cells as they are
when `e` is the pending term itself, and when the class of `e` ranks below the class
of the pending exception; when `e` is another term whose class ranks at least as high
as the class of the pending exception, `exception_bin` is reset and filled by
`copy_exception` from `e`.  Whenever it returns, it returns false and the current
exception is `exception_bin`. -/
theorem PL_raise_exception_amended (rank : except_class → Nat)
    (dup : LD → term_t → term_t → Bool × LD) (fuel : Nat) (s : LD) (e : term_t)
    (hvar : PL_is_variable fuel s e = some false) :
    (PL_same_term fuel s e s.exception_bin = some true →
      PL_raise_exception rank dup fuel s e
        = some (false, { s with
            exception_processing := true, exception_term := s.exception_bin })) ∧
    (∀ co cn, PL_same_term fuel s e s.exception_bin = some false →
      classify_exception fuel s s.exception_bin = some co →
      classify_exception fuel s e = some cn →
      (rank cn < rank co →
        PL_raise_exception rank dup fuel s e
          = some (false, { s with
              exception_processing := true, exception_term := s.exception_bin })) ∧
      (rank co ≤ rank cn →
        PL_raise_exception rank dup fuel s e
          = (copy_exception dup fuel
              (setHandle { s with exception_processing := true } s.exception_bin Word.var)
              e s.exception_bin).map
            fun r => (false, { r.2 with exception_term := r.2.exception_bin }))) ∧
    (∀ r, PL_raise_exception rank dup fuel s e = some r →
      r.1 = false ∧ r.2.exception_term = r.2.exception_bin) := by
  have hvar1 : PL_is_variable fuel s e = some false := hvar
  refine ⟨?_, ?_, ?_⟩
  · intro hsame
    have hsame1 : PL_same_term fuel { s with exception_processing := true } e s.exception_bin
        = some true := hsame
    simp only [PL_raise_exception, hvar1, hsame1]
  · intro co cn hsame hco hcn
    have hsame1 : PL_same_term fuel { s with exception_processing := true } e s.exception_bin
        = some false := hsame
    have hco1 : classify_exception fuel { s with exception_processing := true }
        s.exception_bin = some co := hco
    have hcn1 : classify_exception fuel { s with exception_processing := true } e
        = some cn := hcn
    constructor
    · intro hlt
      have hge : ¬ rank cn ≥ rank co := by omega
      simp only [PL_raise_exception, hvar1, hsame1, hco1, hcn1, hge, if_false]
    · intro hle
      have hge : rank cn ≥ rank co := hle
      have key : ∀ c : Option (Bool × LD),
          (match c with
            | none => none
            | some (_, s3) => some (false, { s3 with exception_term := s3.exception_bin }))
          = c.map fun r => (false, { r.2 with exception_term := r.2.exception_bin }) := by
        intro c
        cases c <;> rfl
      simp only [PL_raise_exception, hvar1, hsame1, hco1, hcn1, hge, if_true]
      exact key _
  · intro r hr
    simp only [PL_raise_exception, hvar1] at hr
    split at hr
    · cases hr
    · simp only [Option.some.injEq] at hr
      rw [← hr]
      exact ⟨rfl, rfl⟩
    · split at hr
      · split_ifs at hr
        · split at hr
          · cases hr
          · simp only [Option.some.injEq] at hr
            rw [← hr]
            exact ⟨rfl, rfl⟩
        · simp only [Option.some.injEq] at hr
          rw [← hr]
          exact ⟨rfl, rfl⟩
      · cases hr

/-- C13 amended, at work: with the atom `time_limit_exceeded` pending, which is of the
class timeout, raising the type error of handle 9, of the class error, leaves
`exception_bin` as it is. -/
theorem PL_raise_exception_amended_witness :
    PL_raise_exception specRank shareTerm 4 (demoExceptionLD ATOM_time_limit_exceeded) 9
      = some (false, { demoExceptionLD ATOM_time_limit_exceeded with
          exception_processing := true
          exception_term := (demoExceptionLD ATOM_time_limit_exceeded).exception_bin }) :=
  ((PL_raise_exception_amended specRank shareTerm 4
      (demoExceptionLD ATOM_time_limit_exceeded) 9 (by decide)).2.1
    except_class.EXCEPT_TIMEOUT except_class.EXCEPT_ERROR (by decide) (by decide)
    (by decide)).1 (by decide)

/-! ## C14: the fallbacks of `copy_exception` -/

/-- C14, the claim as stated fails: for the `error/2` term in handle 9, with a
`duplicate_term` that fails throughout and 5 words of emergency space at hand, the
retry without context fails and `copy_exception` substitutes `abort` at once: the
global top stays at 60 and nothing is synthesized.  For the term `foo(bar)` in handle
12, which is not an `error/2` term, the resource error is synthesized at cell 60. -/
theorem copy_exception_skips_emergency_counterexample :
    PL_is_functor 4 (demoExceptionLD Word.var) 9 FUNCTOR_error2 = some true ∧
    (has_emergency_space (globalStack (demoExceptionLD Word.var)) (5 * sizeofWord)).1 = true ∧
    (copy_exception noCopy 4 (demoExceptionLD Word.var) 9 8).map
        (fun r => (r.1, r.2.mem 108, r.2.gTop)) = some (true, ATOM_abort, 60) ∧
    (copy_exception noCopy 4 (demoExceptionLD Word.var) 12 8).map
        (fun r => (r.1, r.2.mem 108, r.2.gTop)) = some (true, Word.compound 60, 65) := by
  decide

theorem PL_cons_functor_v_error2_slot (fuel : Nat) (s s1 : LD) (h a0 : term_t)
    (hret : PL_cons_functor_v fuel s h FUNCTOR_error2 a0 = some (true, s1)) :
    isVar (s1.mem (valTermRef s1 h)) = false := by
  simp only [PL_cons_functor_v, FUNCTOR_error2, arityFunctor] at hret
  simp only [show (2 : Nat) = 0 ↔ False from by decide, if_false] at hret
  split at hret
  · simp at hret
  · split at hret
    · cases hret
    · simp only [Option.some.injEq, Prod.mk.injEq, true_and] at hret
      rw [← hret]
      simp [setHandle, valTermRef, consPtr, isVar]

theorem stripContext_slot (dup : LD → term_t → term_t → Bool × LD) (fuel : Nat) (s s5 : LD)
    (ex bin : term_t) (hret : stripContext dup fuel s ex bin = some (true, s5)) :
    isVar (s5.mem (valTermRef s5 bin)) = false := by
  unfold stripContext at hret
  split at hret
  · cases hret
  · split_ifs at hret
    · simp at hret
    · split at hret
      · cases hret
      · split_ifs at hret
        · simp at hret
        · split at hret
          · cases hret
          · simp at hret
          · split at hret
            · simp at hret
            · exact PL_cons_functor_v_error2_slot fuel _ s5 bin _ hret

/-- C14, amended.  `copy_exception(ex, bin)` substitutes the atom `abort` when the
frame cannot be opened, and returns the copy when `duplicate_term` succeeds.  When
`duplicate_term` fails: for an `error/2` term it retries without the context and, when
the retry fails, substitutes `abort` without trying the emergency space; for any other
term it synthesizes `error(resource_error(stack), global)` at the global top when
`has_emergency_space` grants 5 words, and substitutes `abort` otherwise.  Whenever it
returns it returns true, and the slot of `bin` is not an unbound variable, provided a
successful `duplicate_term` leaves it so. -/
theorem copy_exception_amended (dup : LD → term_t → term_t → Bool × LD) (fuel : Nat)
    (s : LD) (ex bin : term_t) :
    (∀ s1, PL_open_foreign_frame s = (none, s1) →
      copy_exception dup fuel s ex bin = some (true, PL_put_atom s1 bin ATOM_abort)) ∧
    (∀ fid s1 s2, PL_open_foreign_frame s = (some fid, s1) → dup s1 ex bin = (true, s2) →
      copy_exception dup fuel s ex bin = some (true, PL_close_foreign_frame s2 fid)) ∧
    (∀ fid s1 s2, PL_open_foreign_frame s = (some fid, s1) → dup s1 ex bin = (false, s2) →
      (PL_is_functor fuel (afterFailedCopy s2 fid) ex FUNCTOR_error2 = some true →
        (∀ s5, stripContext dup fuel (afterFailedCopy s2 fid) ex bin = some (true, s5) →
          copy_exception dup fuel s ex bin = some (true, PL_close_foreign_frame s5 fid)) ∧
        (∀ s5, stripContext dup fuel (afterFailedCopy s2 fid) ex bin = some (false, s5) →
          copy_exception dup fuel s ex bin
            = some (true, PL_put_atom (PL_close_foreign_frame s5 fid) bin ATOM_abort))) ∧
      (PL_is_functor fuel (afterFailedCopy s2 fid) ex FUNCTOR_error2 = some false →
        ((has_emergency_space_global (afterFailedCopy s2 fid) (5 * sizeofWord)).1 = true →
          copy_exception dup fuel s ex bin
            = some (true, PL_close_foreign_frame (synthesizeOverflow
                (has_emergency_space_global (afterFailedCopy s2 fid) (5 * sizeofWord)).2 bin)
                fid)) ∧
        ((has_emergency_space_global (afterFailedCopy s2 fid) (5 * sizeofWord)).1 = false →
          copy_exception dup fuel s ex bin
            = some (true, PL_put_atom (PL_close_foreign_frame
                (has_emergency_space_global (afterFailedCopy s2 fid) (5 * sizeofWord)).2 fid)
                bin ATOM_abort)))) ∧
    (∀ r, copy_exception dup fuel s ex bin = some r →
      r.1 = true ∧
      ((∀ fid s1 s2, PL_open_foreign_frame s = (some fid, s1) → dup s1 ex bin = (true, s2) →
          isVar (s2.mem (valTermRef s2 bin)) = false) →
        isVar (r.2.mem (valTermRef r.2 bin)) = false)) := by
  refine ⟨?_, ?_, ?_, ?_⟩
  · intro s1 hopen
    simp only [copy_exception, hopen]
  · intro fid s1 s2 hopen hdup
    simp only [copy_exception, hopen, hdup]
  · intro fid s1 s2 hopen hdup
    refine ⟨fun hf => ⟨?_, ?_⟩, fun hf => ⟨?_, ?_⟩⟩
    · intro s5 hs
      simp only [copy_exception, hopen, hdup, hf, hs]
    · intro s5 hs
      simp only [copy_exception, hopen, hdup, hf, hs]
    · intro he
      rcases hes : has_emergency_space_global (afterFailedCopy s2 fid) (5 * sizeofWord)
        with ⟨b, s5⟩
      rw [hes] at he
      simp only at he
      subst he
      simp only [copy_exception, hopen, hdup, hf, hes]
    · intro he
      rcases hes : has_emergency_space_global (afterFailedCopy s2 fid) (5 * sizeofWord)
        with ⟨b, s5⟩
      rw [hes] at he
      simp only at he
      subst he
      simp only [copy_exception, hopen, hdup, hf, hes]
  · intro r hr
    have habort : ∀ st : LD,
        isVar ((PL_put_atom st bin ATOM_abort).mem
          (valTermRef (PL_put_atom st bin ATOM_abort) bin)) = false := by
      intro st
      simp [PL_put_atom, setHandle, valTermRef, ATOM_abort, isVar]
    unfold copy_exception at hr
    split at hr
    · simp only [Option.some.injEq] at hr
      rw [← hr]
      exact ⟨rfl, fun _ => habort _⟩
    · rename_i fid s1 hopen
      split at hr
      · rename_i s2 hdup
        simp only [Option.some.injEq] at hr
        rw [← hr]
        exact ⟨rfl, fun hd => hd fid s1 s2 hopen hdup⟩
      · dsimp only at hr
        split at hr
        · cases hr
        · split at hr
          · cases hr
          · rename_i s5 hs
            simp only [Option.some.injEq] at hr
            rw [← hr]
            exact ⟨rfl, fun _ => stripContext_slot dup fuel _ s5 ex bin hs⟩
          · simp only [Option.some.injEq] at hr
            rw [← hr]
            exact ⟨rfl, fun _ => habort _⟩
        · split at hr
          · simp only [Option.some.injEq] at hr
            rw [← hr]
            refine ⟨rfl, fun _ => ?_⟩
            simp [PL_close_foreign_frame, synthesizeOverflow, valTermRef, consPtr, isVar]
          · simp only [Option.some.injEq] at hr
            rw [← hr]
            exact ⟨rfl, fun _ => habort _⟩

/-- C14 amended, at work in `demoExceptionLD` with a `duplicate_term` that fails: for
the type error in handle 9 the retry without context fails as well, and the result is
the atom `abort` put in `exception_bin` after the frame was closed. -/
theorem copy_exception_amended_witness :
    ∃ (fid : fid_t) (s5 : LD),
      copy_exception noCopy 4 (demoExceptionLD Word.var) 9 8
        = some (true, PL_put_atom (PL_close_foreign_frame s5 fid) 8 ATOM_abort) :=
  ⟨_, _, (((copy_exception_amended noCopy 4 (demoExceptionLD Word.var) 9 8).2.2.1 _ _ _
    rfl rfl).1 (by decide)).2 _ rfl⟩

/-! ## The emergency margin of a stack -/

/-- C30.  For a stack whose addresses lie in the range of `ssize_t` and a request that
keeps `top + needed` in that range: `has_emergency_space(s, needed)` returns true
exactly when `top + needed ≤ max + spare - 1` or `top + needed ≤ max`; after a true
result `top + needed ≤ max`; the sum `max + spare` is the same after every call; and
when the result is false, or the room was there from the start, the stack is left as it
was. -/
theorem has_emergency_space_spec (st : Stack) (needed : Nat)
    (htop : st.top + needed < 2 ^ 63) (hmax : st.max < 2 ^ 63) :
    ((has_emergency_space st needed).1 = true ↔
      (((st.top + needed : Nat) : Int) ≤ (st.max : Int) + (st.spare : Int) - 1 ∨
        st.top + needed ≤ st.max)) ∧
    ((has_emergency_space st needed).1 = true →
      (has_emergency_space st needed).2.top + needed ≤ (has_emergency_space st needed).2.max) ∧
    (has_emergency_space st needed).2.max + (has_emergency_space st needed).2.spare
      = st.max + st.spare ∧
    (((has_emergency_space st needed).1 = false ∨ st.top + needed ≤ st.max) →
      (has_emergency_space st needed).2 = st) := by
  have hlack : toSsize ((st.top + needed) % SIZE_MAX1 + SIZE_MAX1 - st.max % SIZE_MAX1)
      = ((st.top + needed : Nat) : Int) - (st.max : Int) := by
    unfold toSsize SIZE_MAX1
    norm_num
    split_ifs <;> omega
  unfold has_emergency_space
  simp only [hlack]
  by_cases h1 : ((st.top + needed : Nat) : Int) - (st.max : Int) ≤ 0
  · rw [if_pos h1]
    dsimp only
    refine ⟨⟨fun _ => Or.inr (by omega), fun _ => rfl⟩, fun _ => by omega, rfl, fun _ => rfl⟩
  · rw [if_neg h1]
    by_cases h2 : (((st.top + needed : Nat) : Int) - (st.max : Int)).toNat < st.spare
    · rw [if_pos h2]
      have hmod : (st.max + (((st.top + needed : Nat) : Int) - (st.max : Int)).toNat)
          % SIZE_MAX1 = st.top + needed := by
        unfold SIZE_MAX1
        omega
      rw [hmod]
      dsimp only
      refine ⟨⟨fun _ => Or.inl (by omega), fun _ => rfl⟩, fun _ => le_refl _, by omega, ?_⟩
      rintro (h | h)
      · cases h
      · omega
    · rw [if_neg h2]
      dsimp only
      refine ⟨⟨fun h => (by cases h), fun h => ?_⟩, fun h => (by cases h), rfl, fun _ => rfl⟩
      omega

/-- C30 at a stack with top 480, maximum 500 and a margin of 64 bytes: 40 bytes are
granted by moving the maximum to 520. -/
theorem has_emergency_space_spec_witness :
    (has_emergency_space (Stack.mk 480 500 64) 40).1 = true ∧
    (has_emergency_space (Stack.mk 480 500 64) 40).2 = Stack.mk 480 520 44 :=
  ⟨(has_emergency_space_spec (Stack.mk 480 500 64) 40 (by decide) (by decide)).1.2
      (Or.inl (by decide)), by decide⟩

/-! ## Atoms from character codes and from text -/

/-- C28, the code after `codeToAtom(65)` and `codeToAtom(300)` have made the pages 0
and 1: `cleanupCodeToAtom` releases page 0 and leaves the entry of page 1 as it was,
the loop looking at the first entry in each of its 256 rounds. -/
theorem cleanupCodeToAtom_leaves_page :
    ((codeToAtom demoUncached demoCodeAtoms 65).bind fun r1 =>
      (codeToAtom demoUncached r1.2 300).map fun r2 =>
        (r1.1, r2.1, ((cleanupCodeToAtom r2.2).for_code 0).isSome,
          ((cleanupCodeToAtom r2.2).for_code 1).isSome, (cleanupCodeToAtom r2.2).freed))
      = some (1065, 1300, false, true, [0]) := by
  decide

/-- The loop of `cleanupCodeToAtom` changes no entry of the page table other than the
one `pv` points to. -/
theorem cleanupCodeToAtomLoop_other (n pv : Nat) (g : CodeAtoms) (page : Nat)
    (h : page ≠ pv) : (cleanupCodeToAtomLoop n pv g).for_code page = g.for_code page := by
  induction n generalizing g with
  | zero => rfl
  | succ k ih =>
    unfold cleanupCodeToAtomLoop
    cases hp : g.for_code pv with
    | none => exact ih g
    | some v =>
      simp only
      rw [ih]
      exact Function.update_noteq h _ _

/-- C26, the code at the length `(size_t)-1`: for the string `"abc"`,
`PL_new_atom_nchars` and `PL_put_atom_chars` give the atom of the three bytes, and
`PL_put_atom_nchars` puts the atom of all the bytes that `lookupAtom` is handed, the
terminating 0 among them. -/
theorem PL_put_atom_nchars_length_minus_one :
    (PL_put_atom_nchars demoIntern demoLD 8 (SIZE_MAX1 - 1) demoAbc).2.mem 108
        = Word.atom (demoIntern [97, 98, 99, 0]) ∧
      PL_new_atom_nchars demoIntern (SIZE_MAX1 - 1) demoAbc = demoIntern [97, 98, 99] ∧
      (PL_put_atom_chars demoIntern demoLD 8 demoAbc).2.mem 108
        = Word.atom (demoIntern [97, 98, 99]) ∧
      demoIntern [97, 98, 99, 0] ≠ demoIntern [97, 98, 99] := by
  refine ⟨?_, ?_, ?_, by decide⟩
  · simp [PL_put_atom_nchars, lookupAtom, setHandle, valTermRef, demoLD, demoAbc, SIZE_MAX1]
  · simp [PL_new_atom_nchars, lookupAtom, strlen, demoAbc, SIZE_MAX1]
  · simp [PL_put_atom_chars, lookupAtom, strlen, setHandle, valTermRef, demoLD, demoAbc]

/-- For every length other than `(size_t)-1`, `PL_put_atom_nchars` puts the atom that
`PL_new_atom_nchars` returns. -/
theorem PL_put_atom_nchars_other_lengths (intern : List Nat → Nat) (st : LD) (t : term_t)
    (len : Nat) (s : CString) (h : len ≠ SIZE_MAX1 - 1) :
    (PL_put_atom_nchars intern st t len s).2.mem (valTermRef st t)
      = Word.atom (PL_new_atom_nchars intern len s) := by
  simp [PL_put_atom_nchars, PL_new_atom_nchars, setHandle, valTermRef, h]

/-! ## References to XPCE objects -/

/-- C27, the code at `@(f(a))` and at `@(X)` with `X` unbound: the result is true and
nothing is stored through `ref`, the value -1 of `return -1` being returned from a
function of type `bool`; at `@(42)` and `@(foo)` the result is true with the reference
stored. -/
theorem PL_get_xpce_reference_error_is_true :
    _PL_get_xpce_reference (fun _ => true) 4 demoXpceLD 8 = some (true, none) ∧
      _PL_get_xpce_reference (fun _ => true) 4 demoXpceLD 9 = some (true, none) ∧
      _PL_get_xpce_reference (fun _ => true) 4 demoXpceLD 10
        = some (true, some (xpceref_t.PL_INTEGER 42)) ∧
      _PL_get_xpce_reference (fun _ => true) 4 demoXpceLD 11
        = some (true, some (xpceref_t.PL_ATOM 15)) := by
  decide

/-! ## Reading a float -/

/-- C21, the code at an integer that has no double, read while an exception is
pending: `PL_get_float` returns false and, through `PL_clear_exception()`, leaves no
current exception and an unbound `exception_bin`, where before the call the type error
of cell 30 was pending. -/
theorem PL_get_float_clears_pending :
    demoPendingLD.exception_term = 8 ∧ demoPendingLD.mem 108 = Word.compound 30 ∧
      (PL_get_float demoValFloat demoPromote demoTypeError 4 demoPendingLD 12).map
        (fun r => (r.1, r.2.1, r.2.2.exception_term, r.2.2.mem 108))
        = some (false, none, 0, Word.var) := by
  decide

/-- The two accessors `PL_get_float` and `PL_get_float_ex` return the same boolean and
store the same double, whatever the three absent routines do. -/
theorem PL_get_float_ex_same_result {D : Type} (valFloat : Word → D)
    (promote : LD → Word → Option D × LD) (typeError : LD → term_t → LD)
    (fuel : Nat) (s : LD) (t : term_t) :
    (PL_get_float_ex valFloat promote typeError fuel s t).map (fun r => (r.1, r.2.1))
      = (PL_get_float valFloat promote typeError fuel s t).map (fun r => (r.1, r.2.1)) := by
  unfold PL_get_float_ex PL_get_float get_float
  cases valHandle fuel s t with
  | none => rfl
  | some w =>
    simp only
    by_cases hf : isFloat w = true
    · simp [hf]
    · by_cases hr : isRational w = true
      · rcases hp : promote s w with ⟨_ | f, s1⟩ <;> simp [hf, hr, hp]
      · simp [hf, hr]

/-- C22, the code at the term that `copy_exception` synthesizes: for the term
`foo(bar)`, whose copy fails, `exception_bin` gets `error(resource_error(stack),
global)` at the global top, cell 60; `classify_exception` puts that term in the class
of the ordinary errors; and the type error raised next replaces it. -/
theorem classify_synthesized_resource_error :
    ((copy_exception noCopy 4 (demoExceptionLD Word.var) 12 8).bind fun r =>
      (classify_exception 4 r.2 8).bind fun c =>
        (PL_raise_exception specRank shareTerm 4 r.2 9).map fun q =>
          (r.2.mem 108, r.2.mem 60, r.2.mem 61, r.2.mem 62, r.2.mem 63, r.2.mem 64, c,
            q.2.mem 108))
      = some (Word.compound 60, FUNCTOR_error2, Word.compound 63, ATOM_global,
          FUNCTOR_resource_error1, ATOM_stack, except_class.EXCEPT_ERROR,
          Word.compound 30) := by
  rfl

/-! ## Canonical file names -/

/-- The embedding of `canonicaliseFileName` at work: `/a/./b/../c` becomes `/a/c`,
`a//b/` becomes `a/b/`, `./x/.` becomes `x` and `/../a` becomes `/a`. -/
theorem canonicaliseFileName_examples :
    (canonicaliseFileName noIri 16 [47, 97, 47, 46, 47, 98, 47, 46, 46, 47, 99, 0]).map cstr
        = some [47, 97, 47, 99] ∧
      (canonicaliseFileName noIri 16 [97, 47, 47, 98, 47, 0]).map cstr = some [97, 47, 98, 47] ∧
      (canonicaliseFileName noIri 16 [46, 47, 120, 47, 46, 0]).map cstr = some [120] ∧
      (canonicaliseFileName noIri 16 [47, 46, 46, 47, 97, 0]).map cstr = some [47, 97] := by
  decide

/-- C29, the code at the path `../..`: in a buffer of seven bytes the result is
`../../`, one byte longer than the path, the `/` having been stored over the
terminating 0; what follows that `/` is what the buffer held behind the string, so
that with an `x` there the result is `../../x`; and in a buffer that ends with the
terminating 0 the byte behind the buffer is read. -/
theorem canonicaliseFileName_parent_of_parent :
    cstr [46, 46, 47, 46, 46, 0, 0] = [46, 46, 47, 46, 46] ∧
      (canonicaliseFileName noIri 16 [46, 46, 47, 46, 46, 0, 0]).map cstr
        = some [46, 46, 47, 46, 46, 47] ∧
      (canonicaliseFileName noIri 16 [46, 46, 47, 46, 46, 0, 120, 0]).map cstr
        = some [46, 46, 47, 46, 46, 47, 120] ∧
      canonicaliseFileName noIri 16 [46, 46, 47, 46, 46, 0] = none := by
  decide

/-! ## The check of the frame size -/

theorem check_term_refs_iff (s : LD) :
    check_term_refs s = true ↔
      ∃ fr parents, s.fli_context = fr :: parents ∧
        (s.lTop : Int) - ((fr.addr + s.sizeofFliFrame : Nat) : Int) = fr.size := by
  unfold check_term_refs frameSlots
  cases s.fli_context with
  | nil => simp
  | cons fr parents => simp

theorem ensureLocalSpace_check (s : LD) (b : Nat) :
    check_term_refs (ensureLocalSpace s b).2 = check_term_refs s := by
  unfold ensureLocalSpace raiseStackOverflow
  split_ifs <;> rfl

/-- What `globalizeTermRef` leaves alone: the local-stack top and the frames. -/
theorem globalizeTermRef_check (fuel : Nat) (s : LD) (t : term_t) (r : Bool × LD)
    (hr : globalizeTermRef fuel s t = some r) :
    check_term_refs r.2 = check_term_refs s := by
  cases hv : isVar (s.mem (valTermRef s t)) with
  | false =>
    rw [globalizeTermRef_bound fuel s t hv] at hr
    cases hr
    rfl
  | true =>
    by_cases hroom : s.gTop + 1 ≤ s.gMax
    · rw [globalizeTermRef_room fuel s t hv hroom] at hr
      cases hr
      rfl
    · by_cases hlim : s.gTop + 1 ≤ s.gLimit
      · cases fuel with
        | zero =>
          simp [globalizeTermRef, hv, hasGlobalSpace, hroom, ensureGlobalSpace, hlim] at hr
        | succ k =>
          rw [globalizeTermRef_grow k s t hv hroom hlim] at hr
          cases hr
          rfl
      · rw [globalizeTermRef_overflow fuel s t hv hroom hlim] at hr
        cases hr
        rfl

theorem new_term_ref_check (s : LD) (h : check_term_refs s = true) :
    ∃ r, new_term_ref s = some r ∧ check_term_refs r.2 = true := by
  obtain ⟨fr, parents, hctx, hsz⟩ := (check_term_refs_iff s).mp h
  unfold new_term_ref
  simp only [hctx]
  refine ⟨_, rfl, ?_⟩
  rw [check_term_refs_iff]
  refine ⟨_, _, rfl, ?_⟩
  simp only
  push_cast at hsz ⊢
  omega

theorem PL_copy_term_ref_check (fuel : Nat) (s : LD) (h : term_t) (r : term_t × LD)
    (hinv : check_term_refs s = true) (hr : PL_copy_term_ref fuel s h = some r) :
    check_term_refs r.2 = true := by
  unfold PL_copy_term_ref at hr
  rcases hsp : ensureLocalSpace s sizeofWord with ⟨b, s1⟩
  have h1 : check_term_refs s1 = true := by
    have := ensureLocalSpace_check s sizeofWord
    rw [hsp] at this
    exact this.trans hinv
  rw [hsp] at hr
  cases b with
  | false =>
    simp only [Option.some.injEq] at hr
    subst hr
    exact h1
  | true =>
    simp only at hr
    cases hg : globalizeTermRef fuel s1 h with
    | none => simp [hg] at hr
    | some g =>
      obtain ⟨gb, s2⟩ := g
      have h2 : check_term_refs s2 = true := (globalizeTermRef_check fuel s1 h _ hg).trans h1
      rw [hg] at hr
      cases gb with
      | false =>
        simp only [Option.some.injEq] at hr
        subst hr
        exact h2
      | true =>
        simp only at hr
        cases hl : linkValI s2.mem fuel (valTermRef s2 h) with
        | none => simp [hl] at hr
        | some w =>
          rw [hl] at hr
          obtain ⟨fr, parents, hctx, hsz⟩ := (check_term_refs_iff s2).mp h2
          simp only [hctx, Option.some.injEq] at hr
          subst hr
          rw [check_term_refs_iff]
          refine ⟨_, _, rfl, ?_⟩
          simp only
          push_cast at hsz ⊢
          omega

theorem PL_copy_term_ref_returns (fuel : Nat) (s : LD) (h : term_t) (q : Nat)
    (hinv : check_term_refs s = true) (hlay : s.gTop < s.lBase)
    (hq : deRef s.mem (fuel + 1) (valTermRef s h) = some q) :
    ∃ r, PL_copy_term_ref (fuel + 1) s h = some r := by
  unfold PL_copy_term_ref
  rcases hsp : ensureLocalSpace s sizeofWord with ⟨b, s1⟩
  have hm : s1.mem = s.mem := by have := ensureLocalSpace_mem s sizeofWord; rwa [hsp] at this
  have hb : s1.lBase = s.lBase := by have := ensureLocalSpace_lBase s sizeofWord; rwa [hsp] at this
  have hgt : s1.gTop = s.gTop := by have := ensureLocalSpace_gTop s sizeofWord; rwa [hsp] at this
  have h1 : check_term_refs s1 = true := by
    have := ensureLocalSpace_check s sizeofWord
    rw [hsp] at this
    exact this.trans hinv
  cases b with
  | false => exact ⟨_, rfl⟩
  | true =>
    simp only
    obtain ⟨⟨gb, s2⟩, hg⟩ := globalizeTermRef_returns fuel s1 h
    rw [hg]
    have h2 : check_term_refs s2 = true := (globalizeTermRef_check _ s1 h _ hg).trans h1
    obtain ⟨fr, parents, hctx, -⟩ := (check_term_refs_iff s2).mp h2
    cases gb with
    | false => exact ⟨_, rfl⟩
    | true =>
      simp only
      have hlink : ∃ w, linkValI s2.mem (fuel + 1) (valTermRef s2 h) = some w := by
        cases hv : isVar (s1.mem (valTermRef s1 h)) with
        | false =>
          rw [globalizeTermRef_bound _ s1 h hv] at hg
          simp only [Option.some.injEq, Prod.mk.injEq, true_and] at hg
          subst hg
          unfold linkValI
          have hq1 : deRef s1.mem (fuel + 1) (valTermRef s1 h) = some q := by
            rw [hm]; unfold valTermRef; rw [hb]; exact hq
          obtain ⟨w, hw, -⟩ := linkValLoop_of_deRef s1.mem (fuel + 1) _ q hq1
          exact ⟨w, hw⟩
        | true =>
          have hne : s1.gTop ≠ valTermRef s1 h := by
            unfold valTermRef
            omega
          rcases globalizeTermRef_var_true fuel s1 s2 h hv hg with h3 | h3 <;>
          · subst h3
            refine ⟨Word.ref s1.gTop, ?_⟩
            simp [linkValI, linkValLoop, globalizeAt, Trail, valTermRef, makeRefG, needsRef,
              isVar, Function.update_noteq (Ne.symm hne) , Function.update_same]
            unfold valTermRef at hne
            simp [Function.update_noteq hne]
      obtain ⟨w, hw⟩ := hlink
      rw [hw]
      simp only [hctx]
      exact ⟨_, rfl⟩

/-- C24.  When the assertion of `O_CHECK_TERM_REFS` holds before the call, the size
counter of the active frame being the number of words from its first slot to the
local-stack top, then each of `PL_new_term_refs(n)`, `PL_new_term_ref()`,
`PL_new_term_ref_noshift()`, `PL_reset_term_refs(h)`, `PL_copy_term_ref(h)` and
`PL_free_term_ref(h)` returns with the assertion holding again, on the paths that
return 0 as on the others: the first four for every argument, `PL_copy_term_ref` once
the fuel covers the references behind `h` (the global stack lying below the local
stack), `PL_free_term_ref` for a handle of the active frame; and whatever the handle,
a result of the last two satisfies the assertion. -/
theorem term_refs_invariant (fuel : Nat) (s : LD) (n : Nat) (h : term_t)
    (hinv : check_term_refs s = true) :
    (∃ r, PL_new_term_refs s n = some r ∧ check_term_refs r.2 = true) ∧
    (∃ r, PL_new_term_ref s = some r ∧ check_term_refs r.2 = true) ∧
    (∃ r, PL_new_term_ref_noshift s = some r ∧ check_term_refs r.2 = true) ∧
    (∃ s1, PL_reset_term_refs s h = some s1 ∧ check_term_refs s1 = true) ∧
    ((s.gTop < s.lBase → (∃ q, deRef s.mem (fuel + 1) (valTermRef s h) = some q) →
        ∃ r, PL_copy_term_ref (fuel + 1) s h = some r) ∧
      ∀ r, PL_copy_term_ref fuel s h = some r → check_term_refs r.2 = true) ∧
    ((∀ fr parents, s.fli_context = fr :: parents → frameSlots s fr ≤ valTermRef s h →
        valTermRef s h < s.lTop → ∃ s1, PL_free_term_ref s h = some s1) ∧
      ∀ s1, PL_free_term_ref s h = some s1 → check_term_refs s1 = true) := by
  obtain ⟨fr, parents, hctx, hsz⟩ := (check_term_refs_iff s).mp hinv
  refine ⟨?_, ?_, ?_, ?_, ⟨?_, ?_⟩, ⟨?_, ?_⟩⟩
  · unfold PL_new_term_refs
    rcases hsp : ensureLocalSpace s (n * sizeofWord % SIZE_MAX1) with ⟨b, s1⟩
    have h1 : check_term_refs s1 = true := by
      have := ensureLocalSpace_check s (n * sizeofWord % SIZE_MAX1)
      rw [hsp] at this
      exact this.trans hinv
    cases b with
    | false => exact ⟨_, rfl, h1⟩
    | true =>
      obtain ⟨fr1, parents1, hctx1, hsz1⟩ := (check_term_refs_iff s1).mp h1
      simp only [hctx1]
      refine ⟨_, rfl, ?_⟩
      rw [check_term_refs_iff]
      refine ⟨_, _, rfl, ?_⟩
      simp only
      push_cast at hsz1 ⊢
      omega
  · unfold PL_new_term_ref
    rcases hsp : ensureLocalSpace s sizeofWord with ⟨b, s1⟩
    have h1 : check_term_refs s1 = true := by
      have := ensureLocalSpace_check s sizeofWord
      rw [hsp] at this
      exact this.trans hinv
    cases b with
    | false => exact ⟨_, rfl, h1⟩
    | true => exact new_term_ref_check s1 h1
  · unfold PL_new_term_ref_noshift
    split_ifs
    · exact ⟨_, rfl, hinv⟩
    · exact new_term_ref_check s hinv
  · unfold PL_reset_term_refs
    simp only [hctx]
    refine ⟨_, rfl, ?_⟩
    rw [check_term_refs_iff]
    refine ⟨_, _, rfl, ?_⟩
    simp only [frameSlots]
  · intro hlay hq
    obtain ⟨q, hq⟩ := hq
    exact PL_copy_term_ref_returns fuel s h q hinv hlay hq
  · intro r hr
    exact PL_copy_term_ref_check fuel s h r hinv hr
  · intro fr1 parents1 hctx1 hlo hhi
    rw [hctx] at hctx1
    obtain ⟨rfl, rfl⟩ := List.cons.inj hctx1
    unfold PL_free_term_ref
    by_cases htop : valTermRef s h + 1 = s.lTop
    · simp only [htop, if_true, hctx]
      exact ⟨_, rfl⟩
    · have hfind : in_foreign_frame s (valTermRef s h) = some 0 := by
        unfold in_foreign_frame
        rw [hctx]
        unfold in_foreign_frame_from
        have hlt : ((valTermRef s h : Nat) : Int) < (frameSlots s fr : Int) + fr.size := by
          unfold frameSlots at hlo ⊢
          push_cast at hsz ⊢
          omega
        simp only [hlo, hlt, and_self, if_true]
      simp only [htop, if_false, hfind, hctx, List.getElem?_cons_zero]
      exact ⟨_, rfl⟩
  · intro s1 hs1
    unfold PL_free_term_ref at hs1
    by_cases htop : valTermRef s h + 1 = s.lTop
    · simp only [htop, if_true, hctx, Option.some.injEq] at hs1
      subst hs1
      rw [check_term_refs_iff]
      refine ⟨_, _, rfl, ?_⟩
      simp only
      push_cast at hsz ⊢
      omega
    · simp only [htop, if_false] at hs1
      cases hf : in_foreign_frame s (valTermRef s h) with
      | none => simp [hf] at hs1
      | some k =>
        rw [hf] at hs1
        simp only at hs1
        cases hk : s.fli_context[k]? with
        | none => simp [hk] at hs1
        | some frk =>
          rw [hk] at hs1
          simp only [Option.some.injEq] at hs1
          subst hs1
          obtain ⟨f1, hf1, hsize, haddr⟩ :=
            head?_set_lowerNoFreeBefore (valTermRef s h - frameSlots s frk) fr frk
              s.fli_context k (by rw [hctx]; rfl) hk
          rw [check_term_refs_iff]
          simp only
          cases hl : s.fli_context.set k (lowerNoFreeBefore (valTermRef s h - frameSlots s frk) frk) with
          | nil => rw [hl] at hf1; simp at hf1
          | cons x xs =>
            rw [hl] at hf1
            simp only [List.head?_cons, Option.some.injEq] at hf1
            subst hf1
            refine ⟨_, _, rfl, ?_⟩
            rw [hsize, haddr]
            exact hsz

/-- C24 at the state `demoLD`, whose active frame owns the two slots below the top:
three new handles leave the assertion true. -/
theorem term_refs_invariant_witness :
    check_term_refs demoLD = true ∧
      ∃ r, PL_new_term_refs demoLD 3 = some r ∧ check_term_refs r.2 = true :=
  ⟨by decide, (term_refs_invariant 4 demoLD 3 9 (by decide)).1⟩

/-! ## Lists of character codes and of characters -/

theorem slotsOf_of_handlesOf (s s1 : LD) (h : handlesOf s1 = handlesOf s) :
    slotsOf s1 = slotsOf s := by
  unfold handlesOf at h
  simp only [Prod.mk.injEq] at h
  unfold slotsOf
  rw [h.1, h.2.2.1, h.2.2.2]

theorem PL_unify_atomic_handles (boxed : Nat → List Nat) (fuel : Nat) (s : LD) (t : term_t)
    (w : Word) (r : Bool × LD) (hr : PL_unify_atomic boxed fuel s t w = some r) :
    handlesOf r.2 = handlesOf s := by
  unfold PL_unify_atomic at hr
  cases hd : deRef s.mem fuel (valTermRef s t) with
  | none => simp [hd] at hr
  | some p =>
    rw [hd] at hr
    simp only at hr
    split_ifs at hr <;> cases hr <;> rfl

theorem PL_unify_integer_handles (P : Prims) (fuel : Nat) (s : LD) (t : term_t) (i : Int)
    (r : Bool × LD) (hfit : P.fitsTagged i = true)
    (hr : PL_unify_integer P fuel s t i = some r) : handlesOf r.2 = handlesOf s := by
  unfold PL_unify_integer at hr
  rw [if_pos hfit] at hr
  exact PL_unify_atomic_handles _ fuel s t _ r hr

theorem ensureGlobalSpace_handles (s : LD) (n : Nat) :
    handlesOf (ensureGlobalSpace s n).2 = handlesOf s := by
  unfold ensureGlobalSpace
  split_ifs <;> rfl

theorem requireGlobalSpace_handles (s : LD) (n : Nat) :
    handlesOf (requireGlobalSpace s n).2 = handlesOf s := by
  unfold requireGlobalSpace
  by_cases hg : hasGlobalSpace s n = true
  · simp only [hg, not_true_eq_false, if_false]
  · simp only [hg, not_false_eq_true, if_true]
    rcases he : ensureGlobalSpace s n with ⟨rc, s1⟩
    have e1 : handlesOf s1 = handlesOf s := by
      have := ensureGlobalSpace_handles s n
      rwa [he] at this
    cases rc <;> exact e1

theorem allocGlobal_handles (s : LD) (n : Nat) :
    handlesOf (allocGlobal s n).2 = handlesOf s := by
  unfold allocGlobal
  rcases he : requireGlobalSpace s n with ⟨b, s1⟩
  have e1 : handlesOf s1 = handlesOf s := by
    have := requireGlobalSpace_handles s n
    rwa [he] at this
  cases b <;> exact e1

theorem PL_unify_list_handles (fuel : Nat) (s : LD) (l h t : term_t) (r : Bool × LD)
    (hr : PL_unify_list fuel s l h t = some r) : handlesOf r.2 = handlesOf s := by
  unfold PL_unify_list at hr
  cases hd : deRef s.mem fuel (valTermRef s l) with
  | none => simp [hd] at hr
  | some p =>
    rw [hd] at hr
    simp only at hr
    by_cases hc : canBind (s.mem p) = true
    · rw [if_pos hc] at hr
      by_cases hg : ¬ hasGlobalSpace s 3 = true
      · rw [if_pos hg] at hr
        rcases he : ensureGlobalSpace s 3 with ⟨rc, s1⟩
        have e1 : handlesOf s1 = handlesOf s := by
          have := ensureGlobalSpace_handles s 3
          rwa [he] at this
        rw [he] at hr
        cases rc with
        | TRUE =>
          cases hd1 : deRef s1.mem fuel (valTermRef s1 l) with
          | none => simp [hd1] at hr
          | some p1 =>
            simp only [hd1] at hr
            cases hr
            exact e1
        | LOCAL_OVERFLOW => cases hr; exact e1
        | GLOBAL_OVERFLOW => cases hr; exact e1
        | TRAIL_OVERFLOW => cases hr; exact e1
      · rw [if_neg hg] at hr
        cases hr
        rfl
    · rw [if_neg hc] at hr
      by_cases hl : isList s.mem (s.mem p) = true
      · rw [if_pos hl] at hr
        cases h1 : linkValI s.mem fuel (argTermP (s.mem p) 0) with
        | none => simp [h1] at hr
        | some wh =>
          simp only [h1] at hr
          cases h2 : linkValI (setHandle s h wh).mem fuel (argTermP (s.mem p) 0 + 1) with
          | none => simp [h2] at hr
          | some wt =>
            simp only [h2] at hr
            cases hr
            rfl
      · rw [if_neg hl] at hr
        cases hr
        rfl

theorem putList_handles {G : Type} (elem : G → Nat → Option (Word × G)) (s : LD) (g : G)
    (t : term_t) (len : Nat) (chars : CString) (r : Bool × LD × G)
    (hr : putList elem s g t len chars = some r) : handlesOf r.2.1 = handlesOf s := by
  unfold putList at hr
  by_cases h0 : len = 0
  · rw [if_pos h0] at hr
    cases hr
    rfl
  · rw [if_neg h0] at hr
    rcases he : allocGlobal s (len * 3 % SIZE_MAX1) with ⟨a, s1⟩
    have e1 : handlesOf s1 = handlesOf s := by
      have := allocGlobal_handles s (len * 3 % SIZE_MAX1)
      rwa [he] at this
    rw [he] at hr
    cases a with
    | none => cases hr; exact e1
    | some p =>
      simp only at hr
      cases hl : putListLoop elem len (setHandle s1 t (consPtr p)).mem g p chars with
      | none => simp [hl] at hr
      | some q =>
        rw [hl] at hr
        cases hr
        exact e1

theorem unifyListLoop_handles {G : Type}
    (unifyElem : G → LD → term_t → Nat → Option (Bool × LD × G)) (fuel : Nat)
    (hE : ∀ g s head c r, c < 256 → unifyElem g s head c = some r →
      handlesOf r.2.1 = handlesOf s) :
    ∀ (n : Nat) (s : LD) (g : G) (t head : term_t) (chars : CString) (r : Bool × LD × G),
      unifyListLoop unifyElem fuel n s g t head chars = some r →
        handlesOf r.2.1 = handlesOf s := by
  intro n
  induction n with
  | zero =>
    intro s g t head chars r hr
    unfold unifyListLoop at hr
    cases hr
    rfl
  | succ k ih =>
    intro s g t head chars r hr
    unfold unifyListLoop at hr
    cases h1 : PL_unify_list fuel s t head t with
    | none => simp [h1] at hr
    | some r1 =>
      obtain ⟨b1, s1⟩ := r1
      have e1 := PL_unify_list_handles fuel s t head t _ h1
      rw [h1] at hr
      cases b1 with
      | false =>
        cases hr
        exact e1
      | true =>
        simp only at hr
        cases h2 : unifyElem g s1 head ((List.head? chars).getD 0 % 256) with
        | none => simp [h2] at hr
        | some r2 =>
          obtain ⟨b2, s2, g1⟩ := r2
          have e2 := hE g s1 head _ _ (Nat.mod_lt _ (by norm_num)) h2
          rw [h2] at hr
          cases b2 with
          | false =>
            cases hr
            exact e2.trans e1
          | true =>
            simp only at hr
            exact (ih s2 g1 t head chars.tail r hr).trans (e2.trans e1)

theorem handlesOf_lTop (s s1 : LD) (h : handlesOf s1 = handlesOf s) : s1.lTop = s.lTop := by
  unfold handlesOf at h
  simp only [Prod.mk.injEq] at h
  exact h.2.1

theorem handlesOf_activeSize (s s1 : LD) (h : handlesOf s1 = handlesOf s) :
    activeSize s1 = activeSize s := by
  unfold handlesOf at h
  simp only [Prod.mk.injEq] at h
  unfold activeSize
  rw [h.2.2.1]

theorem ensureLocalSpace_handles (s : LD) (b : Nat) :
    handlesOf (ensureLocalSpace s b).2 = handlesOf s := by
  unfold ensureLocalSpace raiseStackOverflow
  split_ifs <;> rfl

/-- `PL_new_term_ref` under the check of the frame size: with room the handle of the old
top is made, without room the result is 0 and the handles are as before. -/
theorem PL_new_term_ref_handles (s : LD) (hinv : check_term_refs s = true) :
    ((ensureLocalSpace s sizeofWord).1 = true →
      ∃ s1, PL_new_term_ref s = some (consTermRef s s.lTop, s1) ∧ oneMoreHandle s s1 ∧
        slotsOf s1 = slotsOf s) ∧
    ((ensureLocalSpace s sizeofWord).1 = false →
      ∃ s1, PL_new_term_ref s = some (0, s1) ∧ handlesOf s1 = handlesOf s) := by
  obtain ⟨fr, parents, hctx, -⟩ := (check_term_refs_iff s).mp hinv
  unfold PL_new_term_ref
  rcases hsp : ensureLocalSpace s sizeofWord with ⟨b, s0⟩
  have e0 : handlesOf s0 = handlesOf s := by
    have := ensureLocalSpace_handles s sizeofWord
    rwa [hsp] at this
  unfold handlesOf at e0
  simp only [Prod.mk.injEq] at e0
  obtain ⟨eb, et, ec, ez⟩ := e0
  constructor
  · intro hb
    simp only at hb
    subst hb
    simp only [new_term_ref, ec, hctx, consTermRef, et, eb]
    refine ⟨_, rfl, ⟨rfl, ?_⟩, ?_⟩
    · simp [activeSize, hctx]
    · simp [slotsOf, hctx, eb, ez]
  · intro hb
    simp only at hb
    subst hb
    refine ⟨_, rfl, ?_⟩
    simp [handlesOf, eb, et, ec, ez]

theorem globalizeTermRef_slots (fuel : Nat) (s : LD) (t : term_t) (r : Bool × LD)
    (hr : globalizeTermRef fuel s t = some r) : slotsOf r.2 = slotsOf s := by
  cases hv : isVar (s.mem (valTermRef s t)) with
  | false =>
    rw [globalizeTermRef_bound fuel s t hv] at hr
    cases hr
    rfl
  | true =>
    by_cases hroom : s.gTop + 1 ≤ s.gMax
    · rw [globalizeTermRef_room fuel s t hv hroom] at hr
      cases hr
      rfl
    · by_cases hlim : s.gTop + 1 ≤ s.gLimit
      · cases fuel with
        | zero =>
          simp [globalizeTermRef, hv, hasGlobalSpace, hroom, ensureGlobalSpace, hlim] at hr
        | succ k =>
          rw [globalizeTermRef_grow k s t hv hroom hlim] at hr
          cases hr
          rfl
      · rw [globalizeTermRef_overflow fuel s t hv hroom hlim] at hr
        cases hr
        rfl

theorem PL_copy_term_ref_slots (fuel : Nat) (s : LD) (h : term_t) (r : term_t × LD)
    (hr : PL_copy_term_ref fuel s h = some r) : slotsOf r.2 = slotsOf s := by
  unfold PL_copy_term_ref at hr
  rcases hsp : ensureLocalSpace s sizeofWord with ⟨b, s1⟩
  have h1 : slotsOf s1 = slotsOf s := by
    have := slotsOf_of_handlesOf _ _ (ensureLocalSpace_handles s sizeofWord)
    rwa [hsp] at this
  rw [hsp] at hr
  cases b with
  | false =>
    cases hr
    exact h1
  | true =>
    simp only at hr
    cases hg : globalizeTermRef fuel s1 h with
    | none => simp [hg] at hr
    | some g =>
      obtain ⟨gb, s2⟩ := g
      have h2 : slotsOf s2 = slotsOf s := (globalizeTermRef_slots fuel s1 h _ hg).trans h1
      rw [hg] at hr
      cases gb with
      | false =>
        cases hr
        exact h2
      | true =>
        simp only at hr
        cases hl : linkValI s2.mem fuel (valTermRef s2 h) with
        | none => simp [hl] at hr
        | some w =>
          simp only [hl] at hr
          cases hc : s2.fli_context with
          | nil => simp [hc] at hr
          | cons fr parents =>
            simp only [hc, Option.some.injEq] at hr
            subst hr
            rw [← h2]
            simp [slotsOf, hc]

/-- `PL_reset_term_refs` to the handle of the old top of a state that satisfied the
check of the frame size, from a state whose active frame has its slots where they
were: the top and the size counter are those of the old state. -/
theorem PL_reset_term_refs_restores (s s4 : LD) (hinv : check_term_refs s = true)
    (hbase : s.lBase ≤ s.lTop) (hs : slotsOf s4 = slotsOf s) :
    ∃ s5, PL_reset_term_refs s4 (consTermRef s s.lTop) = some s5 ∧ sameHandleCount s s5 := by
  obtain ⟨fr, parents, hctx, hsz⟩ := (check_term_refs_iff s).mp hinv
  unfold slotsOf at hs
  simp only [Prod.mk.injEq, hctx, List.head?_cons, Option.map_some'] at hs
  obtain ⟨eb, ez, ea⟩ := hs
  cases hc4 : s4.fli_context with
  | nil => simp [hc4] at ea
  | cons fr4 parents4 =>
    simp only [hc4, List.head?_cons, Option.map_some', Option.some.injEq] at ea
    unfold PL_reset_term_refs
    simp only [hc4]
    refine ⟨_, rfl, ?_, ?_⟩
    · simp only [valTermRef, consTermRef, eb]
      omega
    · simp only [activeSize, hctx, List.head?_cons, Option.map_some', valTermRef, consTermRef,
        frameSlots, eb, ez, ea, Option.some.injEq]
      push_cast at hsz ⊢
      omega

theorem putListLoop_returns {G : Type} (elem : G → Nat → Option (Word × G))
    (hE : ∀ g c, c < 256 → ∃ r, elem g c = some r) :
    ∀ (n : Nat) (mem : Nat → Word) (g : G) (p : Nat) (chars : CString),
      ∃ r, putListLoop elem n mem g p chars = some r := by
  intro n
  induction n with
  | zero => intro mem g p chars; exact ⟨_, rfl⟩
  | succ k ih =>
    intro mem g p chars
    unfold putListLoop
    obtain ⟨⟨w, g1⟩, hw⟩ := hE g (chars.head?.getD 0 % 256) (Nat.mod_lt _ (by norm_num))
    rw [hw]
    exact ih _ _ _ _

theorem putList_returns {G : Type} (elem : G → Nat → Option (Word × G))
    (hE : ∀ g c, c < 256 → ∃ r, elem g c = some r) (s : LD) (g : G) (t : term_t) (len : Nat)
    (chars : CString) : ∃ r, putList elem s g t len chars = some r := by
  unfold putList
  by_cases h0 : len = 0
  · rw [if_pos h0]
    exact ⟨_, rfl⟩
  · rw [if_neg h0]
    rcases allocGlobal s (len * 3 % SIZE_MAX1) with ⟨a, s1⟩
    cases a with
    | none => exact ⟨_, rfl⟩
    | some p =>
      simp only
      obtain ⟨q, hq⟩ := putListLoop_returns elem hE len (setHandle s1 t (consPtr p)).mem g p chars
      rw [hq]
      exact ⟨_, rfl⟩

theorem charElem_returns (P : Prims) (g : CodeAtoms) (c : Nat) (hc : c < 256) :
    ∃ r, charElem P g c = some r := by
  unfold charElem codeToAtom
  have h1 : ¬ ((c : Int) = -1) := by omega
  have h2 : ¬ ((c : Int) < 0) := by omega
  have h3 : (c : Int) < 2 ^ 15 := by
    have : (c : Int) < 256 := by exact_mod_cast hc
    omega
  simp only [h1, h2, h3, if_false, if_true]
  split_ifs <;> exact ⟨_, rfl⟩

/-- The first branch of the two list unifiers, for an unbound list: the call returns,
and the scratch handle it made is still there. -/
theorem unifyListChars_var {G : Type} (P : Prims)
    (put : LD → G → term_t → Nat → CString → Option (Bool × LD × G))
    (unifyElem : G → LD → term_t → Nat → Option (Bool × LD × G))
    (fuel : Nat) (s : LD) (g : G) (l : term_t) (len : Nat) (chars : CString)
    (hput : ∀ s g t n cs, ∃ r, put s g t n cs = some r ∧ handlesOf r.2.1 = handlesOf s)
    (hu : ∀ s p q, handlesOf (P.unify s p q).2 = handlesOf s)
    (hinv : check_term_refs s = true)
    (hvar : PL_is_variable fuel s l = some true)
    (hsp : (ensureLocalSpace s sizeofWord).1 = true) :
    ∃ r, unifyListChars P put unifyElem fuel s g l len chars = some r ∧
      oneMoreHandle s r.2.1 := by
  obtain ⟨s1, hnew, ⟨hl1, ha1⟩, -⟩ := (PL_new_term_ref_handles s hinv).1 hsp
  unfold unifyListChars
  simp only [hvar, hnew]
  obtain ⟨⟨b, s2, g1⟩, hp, he⟩ := hput s1 g (consTermRef s s.lTop) len chars
  simp only [hp]
  cases b with
  | false =>
    refine ⟨_, rfl, ?_, ?_⟩
    · exact (handlesOf_lTop _ _ he).trans hl1
    · exact (handlesOf_activeSize _ _ he).trans ha1
  | true =>
    refine ⟨_, rfl, ?_, ?_⟩
    · exact (handlesOf_lTop _ _ ((hu _ _ _).trans he)).trans hl1
    · exact (handlesOf_activeSize _ _ ((hu _ _ _).trans he)).trans ha1

/-- The second branch of the two list unifiers, for a list that is not unbound, on the
path where every unification of the loop succeeds: `PL_reset_term_refs(head)` gives the
handles back. -/
theorem unifyListChars_bound {G : Type} (P : Prims)
    (put : LD → G → term_t → Nat → CString → Option (Bool × LD × G))
    (unifyElem : G → LD → term_t → Nat → Option (Bool × LD × G))
    (fuel : Nat) (s : LD) (g : G) (l : term_t) (len : Nat) (chars : CString)
    (hE : ∀ g s head c r, c < 256 → unifyElem g s head c = some r →
      handlesOf r.2.1 = handlesOf s)
    (hinv : check_term_refs s = true) (hbase : s.lBase ≤ s.lTop)
    (hvar : PL_is_variable fuel s l = some false)
    (hsp : (ensureLocalSpace s sizeofWord).1 = true)
    (head : term_t) (s1 : LD) (t : term_t) (s2 s3 : LD) (g1 : G) (rval : Bool) (s4 : LD)
    (hnew : PL_new_term_ref s = some (head, s1))
    (hcopy : PL_copy_term_ref fuel s1 l = some (t, s2))
    (hloop : unifyListLoop unifyElem fuel len s2 g t head chars = some (true, s3, g1))
    (hnil : PL_unify_nil P fuel s3 t = some (rval, s4)) :
    ∃ s5, unifyListChars P put unifyElem fuel s g l len chars = some (rval, s5, g1) ∧
      sameHandleCount s s5 := by
  obtain ⟨s1', hnew', -, hsl1⟩ := (PL_new_term_ref_handles s hinv).1 hsp
  rw [hnew] at hnew'
  simp only [Option.some.injEq, Prod.mk.injEq] at hnew'
  obtain ⟨hh, hs1⟩ := hnew'
  subst hh hs1
  have hsl2 : slotsOf s2 = slotsOf s := (PL_copy_term_ref_slots fuel s1 l _ hcopy).trans hsl1
  have hsl3 : slotsOf s3 = slotsOf s :=
    (slotsOf_of_handlesOf _ _
      (unifyListLoop_handles unifyElem fuel hE len s2 g t _ chars _ hloop)).trans hsl2
  have hsl4 : slotsOf s4 = slotsOf s :=
    (slotsOf_of_handlesOf _ _ (PL_unify_atomic_handles _ fuel s3 t _ _ hnil)).trans hsl3
  obtain ⟨s5, hreset, hsame⟩ := PL_reset_term_refs_restores s s4 hinv hbase hsl4
  refine ⟨s5, ?_, hsame⟩
  unfold unifyListChars
  simp only [hvar, hnew, hcopy, hloop, hnil, hreset, Option.map_some']

theorem unifyCode_handles (P : Prims) (fuel : Nat)
    (hfit : ∀ c : Nat, c < 256 → P.fitsTagged (c : Int) = true) (g : Unit) (s : LD)
    (head : term_t) (c : Nat) (r : Bool × LD × Unit) (hc : c < 256)
    (hr : unifyCode P fuel g s head c = some r) : handlesOf r.2.1 = handlesOf s := by
  unfold unifyCode at hr
  cases h1 : PL_unify_integer P fuel s head (c : Int) with
  | none => simp [h1] at hr
  | some q =>
    simp only [h1, Option.map_some', Option.some.injEq] at hr
    subst hr
    exact PL_unify_integer_handles P fuel s head _ q (hfit c hc) h1

theorem unifyChar_handles (P : Prims) (fuel : Nat) (g : CodeAtoms) (s : LD) (head : term_t)
    (c : Nat) (r : Bool × LD × CodeAtoms) (hr : unifyChar P fuel g s head c = some r) :
    handlesOf r.2.1 = handlesOf s := by
  unfold unifyChar at hr
  obtain ⟨a, -, hr⟩ := Option.bind_eq_some.mp hr
  obtain ⟨q, h1, hq⟩ := Option.map_eq_some'.mp hr
  subst hq
  exact PL_unify_atomic_handles _ fuel s head _ q h1

/-- C25 as stated fails.  With the unbound handle 12 of `demoListLD` as the list, both
`PL_unify_list_ncodes` and `PL_unify_list_nchars` return true with the local-stack top
at 114 and the size counter of the active frame at 6, where they were 113 and 5 before
the call: the scratch handle of the first branch is not released.  With the list `[3]`
in handle 8 of `demoShortListLD` and the byte 4, the unification of the element fails
and the `return false` inside the loop leaves both scratch handles, the top at 115 and
the counter at 7.  In `demoFullLD`, where the local stack has no room for a handle,
`PL_new_term_ref` returns 0, and with the bound handle 8 and no byte
`PL_reset_term_refs(head)` puts the top at the base of the local stack, 100, and the
counter at -8, where they were 120 and 12. -/
theorem PL_unify_list_chars_counterexample :
    (demoListLD.lTop = 113 ∧ activeSize demoListLD = some 5 ∧
      (PL_unify_list_ncodes demoPrims 4 demoListLD 12 2 [97, 98, 0]).map
        (fun r => (r.1, r.2.1.lTop, activeSize r.2.1)) = some (true, 114, some 6) ∧
      (PL_unify_list_nchars demoPrims 4 demoListLD demoCodeAtoms 12 2 [97, 98, 0]).map
        (fun r => (r.1, r.2.1.lTop, activeSize r.2.1)) = some (true, 114, some 6)) ∧
    (demoShortListLD.lTop = 113 ∧ activeSize demoShortListLD = some 5 ∧
      (PL_unify_list_ncodes demoPrims 4 demoShortListLD 8 1 [4]).map
        (fun r => (r.1, r.2.1.lTop, activeSize r.2.1)) = some (false, 115, some 7) ∧
      (PL_unify_list_nchars demoPrims 4 demoShortListLD demoCodeAtoms 8 1 [4]).map
        (fun r => (r.1, r.2.1.lTop, activeSize r.2.1)) = some (false, 115, some 7)) ∧
    (demoFullLD.lTop = 120 ∧ activeSize demoFullLD = some 12 ∧
      (ensureLocalSpace demoFullLD sizeofWord).1 = false ∧
      (PL_unify_list_ncodes demoPrims 4 demoFullLD 8 0 [0]).map
        (fun r => (r.2.1.lTop, activeSize r.2.1)) = some (100, some (-8)) ∧
      (PL_unify_list_nchars demoPrims 4 demoFullLD demoCodeAtoms 8 0 [0]).map
        (fun r => (r.2.1.lTop, activeSize r.2.1)) = some (100, some (-8))) := by
  decide

/-- C25, amended.  From a state in which the size counter of the active frame agrees
with the local-stack top (`check_term_refs`), the top is not below the base of the
local stack and the local stack has room for one more handle, with an absent
`unify_ptrs` that leaves the handles alone and every byte fitting a tagged integer:
when the list argument is unbound, `PL_unify_list_ncodes` and `PL_unify_list_nchars`
return with one handle more than before, the local-stack top and the size counter of
the active frame one higher;
when the list argument is not unbound and every unification of the loop succeeds, they
return the result of `PL_unify_nil` with the local-stack top and the size counter as
before the call. -/
theorem PL_unify_list_chars_amended (P : Prims) (fuel : Nat) (s : LD) (g : CodeAtoms)
    (l : term_t) (len : Nat) (chars : CString)
    (hinv : check_term_refs s = true) (hbase : s.lBase ≤ s.lTop)
    (hsp : (ensureLocalSpace s sizeofWord).1 = true)
    (hu : ∀ s p q, handlesOf (P.unify s p q).2 = handlesOf s)
    (hfit : ∀ c : Nat, c < 256 → P.fitsTagged (c : Int) = true) :
    (PL_is_variable fuel s l = some true →
      (∃ r, PL_unify_list_ncodes P fuel s l len chars = some r ∧ oneMoreHandle s r.2.1) ∧
      (∃ r, PL_unify_list_nchars P fuel s g l len chars = some r ∧ oneMoreHandle s r.2.1)) ∧
    (PL_is_variable fuel s l = some false →
      ∀ head s1 t s2, PL_new_term_ref s = some (head, s1) →
        PL_copy_term_ref fuel s1 l = some (t, s2) →
        (∀ s3 rval s4,
          unifyListLoop (unifyCode P fuel) fuel len s2 () t head chars = some (true, s3, ()) →
          PL_unify_nil P fuel s3 t = some (rval, s4) →
          ∃ s5, PL_unify_list_ncodes P fuel s l len chars = some (rval, s5, ()) ∧
            sameHandleCount s s5) ∧
        (∀ s3 g1 rval s4,
          unifyListLoop (unifyChar P fuel) fuel len s2 g t head chars = some (true, s3, g1) →
          PL_unify_nil P fuel s3 t = some (rval, s4) →
          ∃ s5, PL_unify_list_nchars P fuel s g l len chars = some (rval, s5, g1) ∧
            sameHandleCount s s5)) := by
  constructor
  · intro hvar
    constructor
    · refine unifyListChars_var P _ _ fuel s () l len chars ?_ hu hinv hvar hsp
      intro s0 g0 t n cs
      obtain ⟨r, hr⟩ := putList_returns codeElem (fun g c _ => ⟨_, rfl⟩) s0 () t n cs
      exact ⟨r, hr, putList_handles _ _ _ _ _ _ _ hr⟩
    · refine unifyListChars_var P _ _ fuel s g l len chars ?_ hu hinv hvar hsp
      intro s0 g0 t n cs
      obtain ⟨r, hr⟩ := putList_returns (charElem P) (charElem_returns P) s0 g0 t n cs
      exact ⟨r, hr, putList_handles _ _ _ _ _ _ _ hr⟩
  · intro hvar head s1 t s2 hnew hcopy
    constructor
    · intro s3 rval s4 hloop hnil
      exact unifyListChars_bound P _ (unifyCode P fuel) fuel s () l len chars
        (fun g0 s0 h0 c r hc hr => unifyCode_handles P fuel hfit g0 s0 h0 c r hc hr)
        hinv hbase hvar hsp head s1 t s2 s3 () rval s4 hnew hcopy hloop hnil
    · intro s3 g1 rval s4 hloop hnil
      exact unifyListChars_bound P _ (unifyChar P fuel) fuel s g l len chars
        (fun g0 s0 h0 c r _ hr => unifyChar_handles P fuel g0 s0 h0 c r hr)
        hinv hbase hvar hsp head s1 t s2 s3 g1 rval s4 hnew hcopy hloop hnil

theorem demoPrims_fitsTagged (c : Nat) (hc : c < 256) :
    demoPrims.fitsTagged (c : Int) = true := by
  simp only [demoPrims, decide_eq_true_eq]
  constructor <;> omega

/-- C25, amended, at the list `[3]` in handle 8 of `demoShortListLD` and the byte 3:
`PL_unify_list_ncodes` returns true with the handles as before the call. -/
theorem PL_unify_list_chars_amended_witness :
    ∃ s5, PL_unify_list_ncodes demoPrims 4 demoShortListLD 8 1 [3] = some (true, s5, ()) ∧
      sameHandleCount demoShortListLD s5 :=
  (((PL_unify_list_chars_amended demoPrims 4 demoShortListLD demoCodeAtoms 8 1 [3]
    (by decide) (by decide) (by decide) (fun _ _ _ => rfl) demoPrims_fitsTagged).2 (by decide)
    _ _ _ _ rfl rfl).1 _ _ _ rfl rfl)

/-! ## No reference from an argument cell to the local stack -/

theorem isRef_cases (w : Word) : (∃ q, w = Word.ref q) ∨ isRef w = false := by
  cases w <;> simp [isRef]

theorem canBind_not_ref (w : Word) (h : canBind w = true) : isRef w = false := by
  cases w <;> simp_all [canBind, needsRef, isVar, isAttVar, isRef]

theorem canBind_cases (w : Word) (h : canBind w = true) :
    w = Word.var ∨ isAttVar w = true := by
  cases w <;> simp_all [canBind, needsRef, isVar, isAttVar]

/-- The cell where dereferencing ends holds no reference. -/
theorem deRef_end (mem : Nat → Word) :
    ∀ (fuel a q : Nat), deRef mem fuel a = some q → isRef (mem q) = false := by
  intro fuel
  induction fuel with
  | zero =>
    intro a q hq
    rcases isRef_cases (mem a) with ⟨q0, h0⟩ | h0
    · rw [deRef_ref_zero mem a q0 h0] at hq
      cases hq
    · rw [deRef_nonref mem 0 a h0] at hq
      cases hq
      exact h0
  | succ k ih =>
    intro a q hq
    rcases isRef_cases (mem a) with ⟨q0, h0⟩ | h0
    · rw [deRef_ref_succ mem k a q0 h0] at hq
      exact ih q0 q hq
    · rw [deRef_nonref mem (k + 1) a h0] at hq
      cases hq
      exact h0

theorem ConsInv_init (m0 : Nat → Word) (g lB : Nat) : ConsInv m0 g lB g m0 :=
  ⟨fun _ _ => Or.inl rfl, fun _ h1 h2 => absurd h2 (not_lt.mpr h1)⟩

/-- A word that is no reference, stored in the next new cell. -/
theorem ConsInv_store (m0 m : Nat → Word) (g lB b : Nat) (w : Word)
    (inv : ConsInv m0 g lB b m) (hgb : g ≤ b) (hbl : b < lB) (hw : isRef w = false) :
    ConsInv m0 g lB (b + 1) (Function.update m b w) := by
  constructor
  · intro a ha
    have hab : a ≠ b := by omega
    rw [Function.update_noteq hab]
    rcases inv.outside a ha with h | ⟨h1, h2, c, hc1, hc2, hc3, hc4⟩
    · exact Or.inl h
    · refine Or.inr ⟨h1, h2, c, hc1, by omega, hc3, ?_⟩
      rw [Function.update_noteq (by omega)]
      exact hc4
  · intro c hc1 hc2 q hq
    by_cases hcb : c = b
    · subst hcb
      rw [Function.update_same] at hq
      rw [hq] at hw
      simp [isRef] at hw
    · rw [Function.update_noteq hcb] at hq
      exact inv.block c hc1 (by omega) q hq

/-- Where dereferencing a cell in use ends while the new cells are written: at a cell
in use that is as it was, or at a new cell that is unbound. -/
theorem ConsInv_deRef (m0 m : Nat → Word) (g lB b : Nat) (wf : HeapOrder m0 g lB)
    (inv : ConsInv m0 g lB b m) :
    ∀ (fuel a q : Nat), (a < g ∨ lB ≤ a) → deRef m fuel a = some q →
      ((q < g ∨ lB ≤ q) ∧ m q = m0 q) ∨ (g ≤ q ∧ q < b ∧ m q = Word.var) := by
  intro fuel
  induction fuel with
  | zero =>
    intro a q ha hq
    rcases isRef_cases (m a) with ⟨q0, h0⟩ | h0
    · rw [deRef_ref_zero m a q0 h0] at hq
      cases hq
    · rw [deRef_nonref m 0 a h0] at hq
      cases hq
      rcases inv.outside a ha with h | ⟨-, -, c, -, -, hc3, -⟩
      · exact Or.inl ⟨ha, h⟩
      · rw [hc3] at h0
        simp [isRef] at h0
  | succ k ih =>
    intro a q ha hq
    rcases isRef_cases (m a) with ⟨q0, h0⟩ | h0
    · rw [deRef_ref_succ m k a q0 h0] at hq
      rcases inv.outside a ha with h | ⟨-, -, c, hc1, hc2, hc3, hc4⟩
      · exact ih q0 q (wf.refs a q0 ha (h ▸ h0)) hq
      · rw [hc3] at h0
        cases h0
        rw [deRef_nonref m k q0 (by rw [hc4]; rfl)] at hq
        cases hq
        exact Or.inr ⟨hc1, hc2, hc4⟩
    · rw [deRef_nonref m (k + 1) a h0] at hq
      cases hq
      rcases inv.outside a ha with h | ⟨-, -, c, -, -, hc3, -⟩
      · exact Or.inl ⟨ha, h⟩
      · rw [hc3] at h0
        simp [isRef] at h0

/-- Dereferencing a cell in use still ends while the new cells are written, with one
step more than before. -/
theorem ConsInv_deRef_returns (m0 m : Nat → Word) (g lB b : Nat) (wf : HeapOrder m0 g lB)
    (inv : ConsInv m0 g lB b m) :
    ∀ (k a p : Nat), (a < g ∨ lB ≤ a) → deRef m0 k a = some p →
      ∃ q, deRef m (k + 1) a = some q ∧
        ((q = p ∧ m p = m0 p) ∨
          (lB ≤ p ∧ m0 p = Word.var ∧ g ≤ q ∧ q < b ∧ m p = Word.ref q ∧ m q = Word.var)) := by
  intro k
  induction k with
  | zero =>
    intro a p ha hp
    rcases isRef_cases (m0 a) with ⟨q0, h0⟩ | h0
    · rw [deRef_ref_zero m0 a q0 h0] at hp
      cases hp
    · rw [deRef_nonref m0 0 a h0] at hp
      cases hp
      rcases inv.outside a ha with h | ⟨h1, h2, c, hc1, hc2, hc3, hc4⟩
      · exact ⟨a, deRef_nonref m 1 a (by rw [h]; exact h0), Or.inl ⟨rfl, h⟩⟩
      · refine ⟨c, ?_, Or.inr ⟨h1, h2, hc1, hc2, hc3, hc4⟩⟩
        rw [deRef_ref_succ m 0 a c hc3]
        exact deRef_nonref m 0 c (by rw [hc4]; rfl)
  | succ k ih =>
    intro a p ha hp
    rcases isRef_cases (m0 a) with ⟨q0, h0⟩ | h0
    · rw [deRef_ref_succ m0 k a q0 h0] at hp
      have hma : m a = Word.ref q0 := by
        rcases inv.outside a ha with h | ⟨-, h2, -⟩
        · rw [h, h0]
        · rw [h2] at h0
          cases h0
      obtain ⟨q, hq, hrel⟩ := ih q0 p (wf.refs a q0 ha h0) hp
      exact ⟨q, by rw [deRef_ref_succ m (k + 1) a q0 hma]; exact hq, hrel⟩
    · rw [deRef_nonref m0 (k + 1) a h0] at hp
      cases hp
      rcases inv.outside a ha with h | ⟨h1, h2, c, hc1, hc2, hc3, hc4⟩
      · exact ⟨a, deRef_nonref m _ a (by rw [h]; exact h0), Or.inl ⟨rfl, h⟩⟩
      · refine ⟨c, ?_, Or.inr ⟨h1, h2, hc1, hc2, hc3, hc4⟩⟩
        rw [deRef_ref_succ m (k + 1) a c hc3]
        exact deRef_nonref m _ c (by rw [hc4]; rfl)
/-- One `bindConsVal` into the next new cell: the order of the cells is kept, a local
variable bound before stays bound, and a local variable that the source dereferences
to is bound to the new cell. -/
theorem ConsInv_bind (m0 m m1 : Nat → Word) (g lB b fuel p0 : Nat) (wf : HeapOrder m0 g lB)
    (inv : ConsInv m0 g lB b m) (hgb : g ≤ b) (hbl : b < lB) (hp0 : lB ≤ p0)
    (hb : bindConsVal m fuel b p0 = some m1) :
    ConsInv m0 g lB (b + 1) m1 ∧
    (∀ a c, lB ≤ a → c < b → m a = Word.ref c → m c = Word.var →
      m1 a = Word.ref c ∧ m1 c = Word.var) ∧
    (∀ q, deRef m fuel p0 = some q → lB ≤ q → m q = Word.var →
      m1 q = Word.ref b ∧ m1 b = Word.var) := by
  unfold bindConsVal at hb
  cases hd : deRef m fuel p0 with
  | none => rw [hd] at hb; cases hb
  | some q =>
    rw [hd] at hb
    dsimp only at hb
    have hend := ConsInv_deRef m0 m g lB b wf inv fuel p0 q (Or.inr hp0) hd
    have hnr := deRef_end m fuel p0 q hd
    by_cases hc : canBind (m q) = true
    · by_cases hlt : b < q ∧ ¬ isAttVar (m q) = true
      · rw [if_pos hc, if_pos hlt] at hb
        cases hb
        have hq : lB ≤ q ∧ m q = m0 q := by
          rcases hend with ⟨h1, h2⟩ | ⟨-, h2, -⟩
          · exact ⟨by omega, h2⟩
          · omega
        have hqv : m q = Word.var := by
          rcases canBind_cases (m q) hc with h | h
          · exact h
          · exact absurd h hlt.2
        have hqb : q ≠ b := by omega
        refine ⟨⟨?_, ?_⟩, ?_, ?_⟩
        · intro a ha
          by_cases haq : a = q
          · subst haq
            refine Or.inr ⟨hq.1, by rw [← hq.2]; exact hqv, b, hgb, by omega, ?_, ?_⟩
            · rw [Function.update_same]
              rfl
            · rw [Function.update_noteq (Ne.symm hqb), Function.update_same]
          · have hab : a ≠ b := by omega
            rw [Function.update_noteq haq, Function.update_noteq hab]
            rcases inv.outside a ha with h | ⟨h1, h2, c, hc1, hc2, hc3, hc4⟩
            · exact Or.inl h
            · refine Or.inr ⟨h1, h2, c, hc1, by omega, hc3, ?_⟩
              rw [Function.update_noteq (by omega), Function.update_noteq (by omega)]
              exact hc4
        · intro c hc1 hc2 r hr
          have hcq : c ≠ q := by omega
          rw [Function.update_noteq hcq] at hr
          by_cases hcb : c = b
          · subst hcb
            rw [Function.update_same] at hr
            cases hr
          · rw [Function.update_noteq hcb] at hr
            exact inv.block c hc1 (by omega) r hr
        · intro a c ha hcb hac hcv
          have haq : a ≠ q := by
            intro h
            subst h
            rw [hac] at hqv
            cases hqv
          rw [Function.update_noteq haq, Function.update_noteq (by omega),
            Function.update_noteq (by omega), Function.update_noteq (by omega)]
          exact ⟨hac, hcv⟩
        · intro q1 hq1 _ _
          cases hq1
          rw [Function.update_same, Function.update_noteq (Ne.symm hqb), Function.update_same]
          exact ⟨rfl, rfl⟩
      · rw [if_pos hc, if_neg hlt] at hb
        cases hb
        refine ⟨⟨?_, ?_⟩, ?_, ?_⟩
        · intro a ha
          have hab : a ≠ b := by omega
          rw [Function.update_noteq hab]
          rcases inv.outside a ha with h | ⟨h1, h2, c, hc1, hc2, hc3, hc4⟩
          · exact Or.inl h
          · refine Or.inr ⟨h1, h2, c, hc1, by omega, hc3, ?_⟩
            rw [Function.update_noteq (by omega)]
            exact hc4
        · intro c hc1 hc2 r hr
          by_cases hcb : c = b
          · subst hcb
            rw [Function.update_same] at hr
            simp only [makeRefG, Word.ref.injEq] at hr
            subst hr
            rcases hend with ⟨h1, h2⟩ | ⟨-, h2, -⟩
            · rcases h1 with h1 | h1
              · omega
              · exfalso
                have hatt : isAttVar (m q) = true := by
                  by_contra hna
                  exact hlt ⟨by omega, hna⟩
                rw [h2, wf.attvars q h1] at hatt
                cases hatt
            · omega
          · rw [Function.update_noteq hcb] at hr
            exact inv.block c hc1 (by omega) r hr
        · intro a c ha hcb hac hcv
          rw [Function.update_noteq (by omega), Function.update_noteq (by omega)]
          exact ⟨hac, hcv⟩
        · intro q1 hq1 hl hv
          cases hq1
          exfalso
          apply hlt
          refine ⟨by omega, ?_⟩
          rw [hv]
          simp [isAttVar]
    · rw [if_neg hc] at hb
      cases hb
      refine ⟨ConsInv_store m0 m g lB b (m q) inv hgb hbl hnr, ?_, ?_⟩
      · intro a c ha hcb hac hcv
        rw [Function.update_noteq (by omega), Function.update_noteq (by omega)]
        exact ⟨hac, hcv⟩
      · intro q1 hq1 _ hv
        cases hq1
        rw [hv] at hc
        simp [canBind, needsRef, isVar] at hc
theorem bindConsVal_below (m m1 : Nat → Word) (fuel b p0 : Nat)
    (hb : bindConsVal m fuel b p0 = some m1) : ∀ x, x < b → m1 x = m x := by
  intro x hx
  unfold bindConsVal at hb
  cases hd : deRef m fuel p0 with
  | none => rw [hd] at hb; cases hb
  | some q =>
    rw [hd] at hb
    dsimp only at hb
    by_cases hc : canBind (m q) = true
    · by_cases hlt : b < q ∧ ¬ isAttVar (m q) = true
      · rw [if_pos hc, if_pos hlt] at hb
        cases hb
        rw [Function.update_noteq (by omega), Function.update_noteq (by omega)]
      · rw [if_pos hc, if_neg hlt] at hb
        cases hb
        rw [Function.update_noteq (by omega)]
    · rw [if_neg hc] at hb
      cases hb
      rw [Function.update_noteq (by omega)]

theorem bindConsVal_returns (m : Nat → Word) (fuel b p0 q : Nat)
    (hd : deRef m fuel p0 = some q) : ∃ m1, bindConsVal m fuel b p0 = some m1 := by
  unfold bindConsVal
  rw [hd]
  dsimp only
  split_ifs <;> exact ⟨_, rfl⟩

/-- One `bindConsVal` into the next new cell, from a source whose dereferencing ended
at the cell `p` before the new cells were written: the call returns, and when `p` is an
unbound variable of the local stack it is bound to a new cell afterwards. -/
theorem ConsInv_bind_returns (m0 m : Nat → Word) (g lB b k p0 p : Nat)
    (wf : HeapOrder m0 g lB) (inv : ConsInv m0 g lB b m) (hgb : g ≤ b) (hbl : b < lB)
    (hp0 : lB ≤ p0) (hp : deRef m0 k p0 = some p) :
    ∃ m1, bindConsVal m (k + 1) b p0 = some m1 ∧ ConsInv m0 g lB (b + 1) m1 ∧
      (∀ x, x < b → m1 x = m x) ∧
      (∀ a c, lB ≤ a → c < b → m a = Word.ref c → m c = Word.var →
        m1 a = Word.ref c ∧ m1 c = Word.var) ∧
      (lB ≤ p → m0 p = Word.var →
        ∃ c, c < b + 1 ∧ m1 p = Word.ref c ∧ m1 c = Word.var) := by
  obtain ⟨q, hq, hrel⟩ := ConsInv_deRef_returns m0 m g lB b wf inv k p0 p (Or.inr hp0) hp
  obtain ⟨m1, hm1⟩ := bindConsVal_returns m (k + 1) b p0 q hq
  obtain ⟨hinv, hpers, hbound⟩ := ConsInv_bind m0 m m1 g lB b (k + 1) p0 wf inv hgb hbl hp0 hm1
  refine ⟨m1, hm1, hinv, bindConsVal_below m m1 (k + 1) b p0 hm1, hpers, ?_⟩
  intro hpl hpv
  rcases hrel with ⟨h1, h2⟩ | ⟨-, -, -, h4, h5, h6⟩
  · subst h1
    obtain ⟨e1, e2⟩ := hbound q hq hpl (by rw [h2]; exact hpv)
    exact ⟨b, by omega, e1, e2⟩
  · obtain ⟨e1, e2⟩ := hpers p q hpl h4 h5 h6
    exact ⟨q, by omega, e1, e2⟩

/-- The loop of `PL_cons_functor_v` over sources on the local stack. -/
theorem consArgsV_inv (m0 : Nat → Word) (g lB k : Nat) (wf : HeapOrder m0 g lB) :
    ∀ (n : Nat) (m : Nat → Word) (a ai : Nat), ConsInv m0 g lB (a + 1) m → g ≤ a + 1 →
      a + n < lB → lB ≤ ai →
      (∀ j, j < n → ∃ p, deRef m0 k (ai + j) = some p) →
      ∃ m1, consArgsV (k + 1) n m a ai = some m1 ∧ ConsInv m0 g lB (a + 1 + n) m1 ∧
        (∀ x, x < a + 1 → m1 x = m x) ∧
        (∀ x c, lB ≤ x → c < a + 1 → m x = Word.ref c → m c = Word.var →
          m1 x = Word.ref c ∧ m1 c = Word.var) ∧
        (∀ j, j < n → ∀ p, deRef m0 k (ai + j) = some p → lB ≤ p → m0 p = Word.var →
          ∃ c, c < a + 1 + n ∧ m1 p = Word.ref c ∧ m1 c = Word.var) := by
  intro n
  induction n with
  | zero =>
    intro m a ai inv _ _ _ _
    exact ⟨m, rfl, inv, fun _ _ => rfl, fun _ _ _ _ h1 h2 => ⟨h1, h2⟩,
      fun j hj => absurd hj (Nat.not_lt_zero j)⟩
  | succ n ih =>
    intro m a ai inv hga hal hai hsrc
    obtain ⟨p0, hp0⟩ := hsrc 0 (Nat.succ_pos n)
    rw [Nat.add_zero] at hp0
    obtain ⟨m1, hm1, inv1, hbelow1, hpers1, hbound1⟩ :=
      ConsInv_bind_returns m0 m g lB (a + 1) k ai p0 wf inv hga (by omega) hai hp0
    obtain ⟨m2, hm2, inv2, hbelow2, hpers2, hbound2⟩ :=
      ih m1 (a + 1) (ai + 1) inv1 (by omega) (by omega) (by omega) (by
        intro j hj
        have := hsrc (j + 1) (by omega)
        rwa [show ai + (j + 1) = ai + 1 + j from by omega] at this)
    refine ⟨m2, ?_, ?_, ?_, ?_, ?_⟩
    · unfold consArgsV
      rw [hm1]
      exact hm2
    · rw [show a + 1 + (n + 1) = a + 1 + 1 + n from by omega]
      exact inv2
    · intro x hx
      rw [hbelow2 x (by omega), hbelow1 x hx]
    · intro x c hx hc h1 h2
      obtain ⟨e1, e2⟩ := hpers1 x c hx hc h1 h2
      exact hpers2 x c hx (by omega) e1 e2
    · intro j hj p hp hpl hpv
      cases j with
      | zero =>
        rw [Nat.add_zero] at hp
        rw [hp0] at hp
        cases hp
        obtain ⟨c, hc, e1, e2⟩ := hbound1 hpl hpv
        obtain ⟨f1, f2⟩ := hpers2 p0 c hpl hc e1 e2
        exact ⟨c, by omega, f1, f2⟩
      | succ j =>
        rw [show ai + (j + 1) = ai + 1 + j from by omega] at hp
        obtain ⟨c, hc, e1, e2⟩ := hbound2 j (by omega) p hp hpl hpv
        exact ⟨c, by omega, e1, e2⟩

/-- The loop of `PL_cons_list_v` over sources on the local stack. -/
theorem consListVLoop_inv (m0 : Nat → Word) (g lB k : Nat) (wf : HeapOrder m0 g lB) :
    ∀ (n : Nat) (m : Nat → Word) (p e : Nat), ConsInv m0 g lB p m → g ≤ p →
      p + 3 * n ≤ lB → lB ≤ e →
      (∀ j, j < n → ∃ q, deRef m0 k (e + j) = some q) →
      ∃ m1, consListVLoop (k + 1) n m p e = some (m1, p + 3 * n) ∧
        ConsInv m0 g lB (p + 3 * n) m1 ∧
        (∀ x c, lB ≤ x → c < p → m x = Word.ref c → m c = Word.var →
          m1 x = Word.ref c ∧ m1 c = Word.var) ∧
        (∀ j, j < n → ∀ q, deRef m0 k (e + j) = some q → lB ≤ q → m0 q = Word.var →
          ∃ c, c < p + 3 * n ∧ m1 q = Word.ref c ∧ m1 c = Word.var) := by
  intro n
  induction n with
  | zero =>
    intro m p e inv _ _ _ _
    exact ⟨m, rfl, inv, fun _ _ _ _ h1 h2 => ⟨h1, h2⟩,
      fun j hj => absurd hj (Nat.not_lt_zero j)⟩
  | succ n ih =>
    intro m p e inv hgp hpl he hsrc
    obtain ⟨q0, hq0⟩ := hsrc 0 (Nat.succ_pos n)
    rw [Nat.add_zero] at hq0
    have invA := ConsInv_store m0 m g lB p FUNCTOR_dot2 inv hgp (by omega) rfl
    obtain ⟨m2, hm2, invB, -, hpersB, hboundB⟩ :=
      ConsInv_bind_returns m0 _ g lB (p + 1) k e q0 wf invA (by omega) (by omega) he hq0
    have hw : isRef (if n > 0 then consPtr (p + 3) else ATOM_nil) = false := by
      split_ifs <;> rfl
    have invC := ConsInv_store m0 m2 g lB (p + 1 + 1) _ invB (by omega) (by omega) hw
    rw [show p + 1 + 1 + 1 = p + 3 from by omega, show p + 1 + 1 = p + 2 from by omega] at invC
    obtain ⟨m3, hm3, invD, hpersD, hboundD⟩ :=
      ih _ (p + 3) (e + 1) invC (by omega) (by omega) (by omega) (by
        intro j hj
        have := hsrc (j + 1) (by omega)
        rwa [show e + (j + 1) = e + 1 + j from by omega] at this)
    have hpersC : ∀ x c, lB ≤ x → c < p + 2 → m2 x = Word.ref c → m2 c = Word.var →
        Function.update m2 (p + 2) (if n > 0 then consPtr (p + 3) else ATOM_nil) x = Word.ref c ∧
        Function.update m2 (p + 2) (if n > 0 then consPtr (p + 3) else ATOM_nil) c = Word.var := by
      intro x c hx hc h1 h2
      rw [Function.update_noteq (by omega), Function.update_noteq (by omega)]
      exact ⟨h1, h2⟩
    refine ⟨m3, ?_, ?_, ?_, ?_⟩
    · unfold consListVLoop
      dsimp only
      rw [hm2]
      dsimp only
      rw [hm3]
      rw [show p + 3 + 3 * n = p + 3 * (n + 1) from by omega]
    · rw [show p + 3 * (n + 1) = p + 3 + 3 * n from by omega]
      exact invD
    · intro x c hx hc h1 h2
      have hA : Function.update m p FUNCTOR_dot2 x = Word.ref c ∧
          Function.update m p FUNCTOR_dot2 c = Word.var := by
        rw [Function.update_noteq (by omega), Function.update_noteq (by omega)]
        exact ⟨h1, h2⟩
      obtain ⟨e1, e2⟩ := hpersB x c hx (by omega) hA.1 hA.2
      obtain ⟨f1, f2⟩ := hpersC x c hx (by omega) e1 e2
      exact hpersD x c hx (by omega) f1 f2
    · intro j hj q hq hql hqv
      cases j with
      | zero =>
        rw [Nat.add_zero] at hq
        rw [hq0] at hq
        cases hq
        obtain ⟨c, hc, e1, e2⟩ := hboundB hql hqv
        obtain ⟨f1, f2⟩ := hpersC q0 c hql (by omega) e1 e2
        obtain ⟨h1, h2⟩ := hpersD q0 c hql (by omega) f1 f2
        exact ⟨c, by omega, h1, h2⟩
      | succ j =>
        rw [show e + (j + 1) = e + 1 + j from by omega] at hq
        obtain ⟨c, hc, e1, e2⟩ := hboundD j (by omega) q hq hql hqv
        exact ⟨c, by omega, e1, e2⟩
theorem arityFunctor_pos (fd : Word) (h : 0 < arityFunctor fd) :
    isRef fd = false ∧ fd ≠ Word.var := by
  cases fd <;> simp_all [arityFunctor, isRef]

/-- `PL_cons_functor_v` on a state with the stacks in order. -/
theorem PL_cons_functor_v_no_local (k : Nat) (s : LD) (h : term_t) (fd : Word) (a0 : term_t)
    (hn : 0 < arityFunctor fd)
    (hroom : s.gTop + (1 + arityFunctor fd) ≤ s.gMax ∨
      s.gTop + (1 + arityFunctor fd) ≤ s.gLimit)
    (hbelow : s.gTop + (1 + arityFunctor fd) ≤ s.lBase)
    (wf : HeapOrder s.mem s.gTop s.lBase)
    (hsrc : ∀ j, j < arityFunctor fd → ∃ p, deRef s.mem k (valTermRef s (a0 + j)) = some p) :
    ∃ s1, PL_cons_functor_v (k + 1) s h fd a0 = some (true, s1) ∧
      s1.gTop = s.gTop + (1 + arityFunctor fd) ∧
      (∀ c, s.gTop ≤ c → c < s1.gTop → ∀ q, s1.mem c = Word.ref q → q < s.lBase) ∧
      (∀ j, j < arityFunctor fd → ∀ p, deRef s.mem k (valTermRef s (a0 + j)) = some p →
        s.lBase ≤ p → s.mem p = Word.var → p ≠ valTermRef s h →
        ∃ c, s.gTop < c ∧ c < s1.gTop ∧ s1.mem p = Word.ref c ∧ s1.mem c = Word.var) := by
  obtain ⟨hfr, hfv⟩ := arityFunctor_pos fd hn
  obtain ⟨gm, hreq⟩ := requireGlobalSpace_room s (1 + arityFunctor fd) hroom
  have inv0 := ConsInv_store s.mem s.mem s.gTop s.lBase s.gTop fd
    (ConsInv_init s.mem s.gTop s.lBase) (le_refl _) (by omega) hfr
  obtain ⟨m1, hm1, inv1, hbelow1, -, hbound1⟩ :=
    consArgsV_inv s.mem s.gTop s.lBase k wf (arityFunctor fd) _ s.gTop (s.lBase + a0) inv0
      (by omega) (by omega) (by omega) (by
        intro j hj
        have := hsrc j hj
        rwa [show valTermRef s (a0 + j) = s.lBase + a0 + j from by
          unfold valTermRef; omega] at this)
  have hne : arityFunctor fd ≠ 0 := by omega
  refine ⟨setHandle { s with gMax := gm, gTop := s.gTop + (1 + arityFunctor fd), mem := m1 } h
    (consPtr s.gTop), ?_, rfl, ?_, ?_⟩
  · unfold PL_cons_functor_v
    simp only [hne, if_false, hreq, valTermRef, hm1]
  · intro c hc1 hc2 q hq
    change c < s.gTop + (1 + arityFunctor fd) at hc2
    have hcs : c ≠ s.lBase + h := by omega
    simp only [setHandle, valTermRef, Function.update_noteq hcs] at hq
    exact inv1.block c hc1 (by omega) q hq
  · intro j hj p hp hpl hpv hph
    obtain ⟨c, hc, e1, e2⟩ := hbound1 j hj p (by
      rwa [show valTermRef s (a0 + j) = s.lBase + a0 + j from by
        unfold valTermRef; omega] at hp) hpl hpv
    have hcg : c ≠ s.gTop := by
      intro hcg
      subst hcg
      rw [hbelow1 s.gTop (by omega), Function.update_same] at e2
      exact hfv e2
    have hcl : c ≠ s.lBase + h := by omega
    have hcge : s.gTop ≤ c := by
      rcases inv1.outside p (Or.inr hpl) with h1 | ⟨-, -, c1, hc1, -, hc3, -⟩
      · rw [h1, hpv] at e1
        cases e1
      · rw [hc3] at e1
        cases e1
        exact hc1
    refine ⟨c, by omega, (by omega : c < s.gTop + (1 + arityFunctor fd)), ?_, ?_⟩
    · simp only [setHandle, valTermRef]
      rw [Function.update_noteq (by unfold valTermRef at hph; exact hph)]
      exact e1
    · simp only [setHandle, valTermRef]
      rw [Function.update_noteq hcl]
      exact e2
/-- `PL_cons_list` on a state with the stacks in order. -/
theorem PL_cons_list_no_local (k : Nat) (s : LD) (l head tail : term_t) (ph pt : Nat)
    (hroom : s.gTop + 3 ≤ s.gMax ∨ s.gTop + 3 ≤ s.gLimit)
    (hbelow : s.gTop + 3 ≤ s.lBase)
    (wf : HeapOrder s.mem s.gTop s.lBase)
    (hh : deRef s.mem k (valTermRef s head) = some ph)
    (ht : deRef s.mem k (valTermRef s tail) = some pt) :
    ∃ s1, PL_cons_list (k + 1) s l head tail = some (true, s1) ∧
      s1.gTop = s.gTop + 3 ∧
      (∀ c, s.gTop ≤ c → c < s1.gTop → ∀ q, s1.mem c = Word.ref q → q < s.lBase) ∧
      (∀ p, p = ph ∨ p = pt → s.lBase ≤ p → s.mem p = Word.var → p ≠ valTermRef s l →
        ∃ c, s.gTop ≤ c ∧ c < s1.gTop ∧ s1.mem p = Word.ref c ∧ s1.mem c = Word.var) := by
  obtain ⟨gm, hreq⟩ := requireGlobalSpace_room s 3 hroom
  have inv0 := ConsInv_store s.mem s.mem s.gTop s.lBase s.gTop FUNCTOR_dot2
    (ConsInv_init s.mem s.gTop s.lBase) (le_refl _) (by omega) rfl
  obtain ⟨m1, hm1, inv1, -, -, hbound1⟩ :=
    ConsInv_bind_returns s.mem _ s.gTop s.lBase (s.gTop + 1) k (s.lBase + head) ph wf inv0
      (by omega) (by omega) (by omega) hh
  obtain ⟨m2, hm2, inv2, -, hpers2, hbound2⟩ :=
    ConsInv_bind_returns s.mem m1 s.gTop s.lBase (s.gTop + 1 + 1) k (s.lBase + tail) pt wf inv1
      (by omega) (by omega) (by omega) ht
  rw [show s.gTop + 1 + 1 = s.gTop + 2 from by omega] at hm2 hpers2
  rw [show s.gTop + 1 + 1 + 1 = s.gTop + 3 from by omega] at inv2 hbound2
  refine ⟨setHandle { s with gMax := gm, gTop := s.gTop + 3, mem := m2 } l (consPtr s.gTop),
    ?_, rfl, ?_, ?_⟩
  · unfold PL_cons_list
    simp only [hreq, valTermRef, hm1, hm2]
  · intro c hc1 hc2 q hq
    change c < s.gTop + 3 at hc2
    have hcs : c ≠ s.lBase + l := by omega
    simp only [setHandle, valTermRef, Function.update_noteq hcs] at hq
    exact inv2.block c hc1 hc2 q hq
  · intro p hp hpl hpv hpn
    have key : ∃ c, c < s.gTop + 3 ∧ m2 p = Word.ref c ∧ m2 c = Word.var := by
      rcases hp with hp | hp
      · subst hp
        obtain ⟨c, hc, e1, e2⟩ := hbound1 hpl hpv
        obtain ⟨f1, f2⟩ := hpers2 p c hpl (by omega) e1 e2
        exact ⟨c, by omega, f1, f2⟩
      · subst hp
        exact hbound2 hpl hpv
    obtain ⟨c, hc, e1, e2⟩ := key
    have hcge : s.gTop ≤ c := by
      rcases inv2.outside p (Or.inr hpl) with h1 | ⟨-, -, c1, hc1, -, hc3, -⟩
      · rw [h1, hpv] at e1
        cases e1
      · rw [hc3] at e1
        cases e1
        exact hc1
    refine ⟨c, hcge, (by omega : c < s.gTop + 3), ?_, ?_⟩
    · simp only [setHandle, valTermRef]
      rw [Function.update_noteq (by unfold valTermRef at hpn; exact hpn)]
      exact e1
    · simp only [setHandle, valTermRef]
      rw [Function.update_noteq (by omega)]
      exact e2

/-- `PL_cons_list_v` on a state with the stacks in order. -/
theorem PL_cons_list_v_no_local (k : Nat) (s : LD) (list : term_t) (count : Nat)
    (elems : term_t) (hn : 0 < count) (hsmall : 3 * count < SIZE_MAX1)
    (hroom : s.gTop + 3 * count ≤ s.gMax ∨ s.gTop + 3 * count ≤ s.gLimit)
    (hbelow : s.gTop + 3 * count ≤ s.lBase)
    (wf : HeapOrder s.mem s.gTop s.lBase)
    (hsrc : ∀ j, j < count → ∃ p, deRef s.mem k (valTermRef s (elems + j)) = some p) :
    ∃ s1, PL_cons_list_v (k + 1) s list count elems = some (true, s1) ∧
      s1.gTop = s.gTop + 3 * count ∧
      (∀ c, s.gTop ≤ c → c < s1.gTop → ∀ q, s1.mem c = Word.ref q → q < s.lBase) ∧
      (∀ j, j < count → ∀ p, deRef s.mem k (valTermRef s (elems + j)) = some p →
        s.lBase ≤ p → s.mem p = Word.var → p ≠ valTermRef s list →
        ∃ c, s.gTop ≤ c ∧ c < s1.gTop ∧ s1.mem p = Word.ref c ∧ s1.mem c = Word.var) := by
  obtain ⟨gm, hreq⟩ := requireGlobalSpace_room s (3 * count) hroom
  obtain ⟨m1, hm1, inv1, -, hbound1⟩ :=
    consListVLoop_inv s.mem s.gTop s.lBase k wf count s.mem s.gTop (s.lBase + elems)
      (ConsInv_init s.mem s.gTop s.lBase) (le_refl _) hbelow (by omega) (by
        intro j hj
        have := hsrc j hj
        rwa [show valTermRef s (elems + j) = s.lBase + elems + j from by
          unfold valTermRef; omega] at this)
  refine ⟨{ setHandle { s with gMax := gm, mem := m1 } list (consPtr s.gTop) with
    gTop := s.gTop + 3 * count }, ?_, rfl, ?_, ?_⟩
  · unfold PL_cons_list_v
    simp only [hn, if_true, Nat.mod_eq_of_lt hsmall, hreq, valTermRef, hm1]
  · intro c hc1 hc2 q hq
    change c < s.gTop + 3 * count at hc2
    have hcs : c ≠ s.lBase + list := by omega
    simp only [setHandle, valTermRef, Function.update_noteq hcs] at hq
    exact inv1.block c hc1 hc2 q hq
  · intro j hj p hp hpl hpv hpn
    obtain ⟨c, hc, e1, e2⟩ := hbound1 j hj p (by
      rwa [show valTermRef s (elems + j) = s.lBase + elems + j from by
        unfold valTermRef; omega] at hp) hpl hpv
    have hcge : s.gTop ≤ c := by
      rcases inv1.outside p (Or.inr hpl) with h1 | ⟨-, -, c1, hc1, -, hc3, -⟩
      · rw [h1, hpv] at e1
        cases e1
      · rw [hc3] at e1
        cases e1
        exact hc1
    refine ⟨c, hcge, (by omega : c < s.gTop + 3 * count), ?_, ?_⟩
    · simp only [setHandle, valTermRef]
      rw [Function.update_noteq (by unfold valTermRef at hpn; exact hpn)]
      exact e1
    · simp only [setHandle, valTermRef]
      rw [Function.update_noteq (by omega)]
      exact e2

theorem ConsFree_store (m : Nat → Word) (g lB b : Nat) (w : Word)
    (inv : ConsFree g lB b m) (hbl : b < lB) (hw : isRef w = false) :
    ConsFree g lB (b + 1) (Function.update m b w) := by
  constructor
  · intro a ha
    rw [Function.update_noteq (by omega)]
    exact inv.attvars a ha
  · intro c hc1 hc2 q hq
    by_cases hcb : c = b
    · subst hcb
      rw [Function.update_same] at hq
      rw [hq] at hw
      simp [isRef] at hw
    · rw [Function.update_noteq hcb] at hq
      exact inv.block c hc1 (by omega) q hq

/-- One `bindConsVal` into the next new cell stores no reference to the local stack,
whatever the source. -/
theorem ConsFree_bind (m m1 : Nat → Word) (g lB b fuel p0 : Nat)
    (inv : ConsFree g lB b m) (hbl : b < lB)
    (hb : bindConsVal m fuel b p0 = some m1) : ConsFree g lB (b + 1) m1 := by
  unfold bindConsVal at hb
  cases hd : deRef m fuel p0 with
  | none => rw [hd] at hb; cases hb
  | some q =>
    rw [hd] at hb
    dsimp only at hb
    have hnr := deRef_end m fuel p0 q hd
    by_cases hc : canBind (m q) = true
    · by_cases hlt : b < q ∧ ¬ isAttVar (m q) = true
      · rw [if_pos hc, if_pos hlt] at hb
        cases hb
        have hqb : q ≠ b := by omega
        constructor
        · intro a ha
          by_cases haq : a = q
          · subst haq
            rw [Function.update_same]
            rfl
          · rw [Function.update_noteq haq, Function.update_noteq (by omega)]
            exact inv.attvars a ha
        · intro c hc1 hc2 r hr
          rw [Function.update_noteq (by omega)] at hr
          by_cases hcb : c = b
          · subst hcb
            rw [Function.update_same] at hr
            cases hr
          · rw [Function.update_noteq hcb] at hr
            exact inv.block c hc1 (by omega) r hr
      · rw [if_pos hc, if_neg hlt] at hb
        cases hb
        constructor
        · intro a ha
          rw [Function.update_noteq (by omega)]
          exact inv.attvars a ha
        · intro c hc1 hc2 r hr
          by_cases hcb : c = b
          · subst hcb
            rw [Function.update_same] at hr
            simp only [makeRefG, Word.ref.injEq] at hr
            subst hr
            by_contra hge
            have hatt : isAttVar (m q) = true := by
              by_contra hna
              exact hlt ⟨by omega, hna⟩
            rw [inv.attvars q (by omega)] at hatt
            cases hatt
          · rw [Function.update_noteq hcb] at hr
            exact inv.block c hc1 (by omega) r hr
    · rw [if_neg hc] at hb
      cases hb
      exact ConsFree_store m g lB b (m q) inv hbl hnr

theorem consArgsV_free (g lB fuel : Nat) :
    ∀ (n : Nat) (m m1 : Nat → Word) (a ai : Nat), ConsFree g lB (a + 1) m → a + n < lB →
      consArgsV fuel n m a ai = some m1 → ConsFree g lB (a + 1 + n) m1 := by
  intro n
  induction n with
  | zero =>
    intro m m1 a ai inv _ h
    unfold consArgsV at h
    cases h
    exact inv
  | succ n ih =>
    intro m m1 a ai inv hal h
    unfold consArgsV at h
    cases hb : bindConsVal m fuel (a + 1) ai with
    | none => rw [hb] at h; cases h
    | some m2 =>
      rw [hb] at h
      dsimp only at h
      have inv2 := ConsFree_bind m m2 g lB (a + 1) fuel ai inv (by omega) hb
      have := ih m2 m1 (a + 1) (ai + 1) inv2 (by omega) h
      rwa [show a + 1 + 1 + n = a + 1 + (n + 1) from by omega] at this

theorem consListVLoop_free (g lB fuel : Nat) :
    ∀ (n : Nat) (m m1 : Nat → Word) (p p1 e : Nat), ConsFree g lB p m → p + 3 * n ≤ lB →
      consListVLoop fuel n m p e = some (m1, p1) →
      p1 = p + 3 * n ∧ ConsFree g lB (p + 3 * n) m1 := by
  intro n
  induction n with
  | zero =>
    intro m m1 p p1 e inv _ h
    unfold consListVLoop at h
    cases h
    exact ⟨rfl, inv⟩
  | succ n ih =>
    intro m m1 p p1 e inv hpl h
    unfold consListVLoop at h
    dsimp only at h
    have invA := ConsFree_store m g lB p FUNCTOR_dot2 inv (by omega) rfl
    cases hb : bindConsVal (Function.update m p FUNCTOR_dot2) fuel (p + 1) e with
    | none => rw [hb] at h; cases h
    | some m2 =>
      rw [hb] at h
      dsimp only at h
      have invB := ConsFree_bind _ m2 g lB (p + 1) fuel e invA (by omega) hb
      have hw : isRef (if n > 0 then consPtr (p + 3) else ATOM_nil) = false := by
        split_ifs <;> rfl
      have invC := ConsFree_store m2 g lB (p + 1 + 1) _ invB (by omega) hw
      rw [show p + 1 + 1 + 1 = p + 3 from by omega, show p + 1 + 1 = p + 2 from by omega] at invC
      obtain ⟨e1, e2⟩ := ih _ m1 (p + 3) p1 (e + 1) invC (by omega) h
      refine ⟨by omega, ?_⟩
      rwa [show p + 3 + 3 * n = p + 3 * (n + 1) from by omega] at e2

theorem requireGlobalSpace_true (s s1 : LD) (n : Nat)
    (h : requireGlobalSpace s n = (true, s1)) : ∃ gm, s1 = { s with gMax := gm } := by
  unfold requireGlobalSpace at h
  by_cases hg : ¬ hasGlobalSpace s n = true
  · rw [if_pos hg] at h
    unfold ensureGlobalSpace raiseStackOverflow at h
    split_ifs at h
    · cases h
      exact ⟨s.gMax, rfl⟩
    · cases h
      exact ⟨s.gLimit, rfl⟩
    · cases h
  · rw [if_neg hg] at h
    cases h
    exact ⟨s.gMax, rfl⟩

/-- Whenever `PL_cons_functor_v` returns true, none of the cells it made holds a
reference to the local stack. -/
theorem PL_cons_functor_v_free (fuel : Nat) (s s1 : LD) (h : term_t) (fd : Word) (a0 : term_t)
    (hbelow : s.gTop + (1 + arityFunctor fd) ≤ s.lBase)
    (hatt : ∀ a, s.lBase ≤ a → isAttVar (s.mem a) = false)
    (hr : PL_cons_functor_v fuel s h fd a0 = some (true, s1)) : noLocalRefs s s1 := by
  unfold PL_cons_functor_v at hr
  dsimp only at hr
  by_cases hn : arityFunctor fd = 0
  · rw [if_pos hn] at hr
    cases hr
    intro c hc1 hc2
    change c < s.gTop at hc2
    omega
  · rw [if_neg hn] at hr
    rcases hreq : requireGlobalSpace s (1 + arityFunctor fd) with ⟨b, s2⟩
    rw [hreq] at hr
    cases b with
    | false => cases hr
    | true =>
      obtain ⟨gm, rfl⟩ := requireGlobalSpace_true s s2 _ hreq
      simp only [valTermRef] at hr
      cases hl : consArgsV fuel (arityFunctor fd) (Function.update s.mem s.gTop fd) s.gTop
          (s.lBase + a0) with
      | none => rw [hl] at hr; cases hr
      | some m1 =>
        rw [hl] at hr
        cases hr
        have hfr := (arityFunctor_pos fd (Nat.pos_of_ne_zero hn)).1
        have inv0 : ConsFree s.gTop s.lBase (s.gTop + 1) (Function.update s.mem s.gTop fd) :=
          ConsFree_store s.mem s.gTop s.lBase s.gTop fd
            ⟨hatt, fun c h1 h2 => absurd h2 (not_lt.mpr h1)⟩ (by omega) hfr
        have inv1 := consArgsV_free s.gTop s.lBase fuel _ _ m1 s.gTop _ inv0 (by omega) hl
        intro c hc1 hc2 q hq
        change c < s.gTop + (1 + arityFunctor fd) at hc2
        have hcs : c ≠ s.lBase + h := by omega
        simp only [setHandle, valTermRef, Function.update_noteq hcs] at hq
        exact inv1.block c hc1 (by omega) q hq

/-- Whenever `PL_cons_list` returns true, none of the cells it made holds a reference to
the local stack. -/
theorem PL_cons_list_free (fuel : Nat) (s s1 : LD) (l head tail : term_t)
    (hbelow : s.gTop + 3 ≤ s.lBase)
    (hatt : ∀ a, s.lBase ≤ a → isAttVar (s.mem a) = false)
    (hr : PL_cons_list fuel s l head tail = some (true, s1)) : noLocalRefs s s1 := by
  unfold PL_cons_list at hr
  rcases hreq : requireGlobalSpace s 3 with ⟨b, s2⟩
  rw [hreq] at hr
  cases b with
  | false => cases hr
  | true =>
    obtain ⟨gm, rfl⟩ := requireGlobalSpace_true s s2 _ hreq
    simp only [valTermRef] at hr
    cases h1 : bindConsVal (Function.update s.mem s.gTop FUNCTOR_dot2) fuel (s.gTop + 1)
        (s.lBase + head) with
    | none => rw [h1] at hr; cases hr
    | some m1 =>
      rw [h1] at hr
      dsimp only at hr
      cases h2 : bindConsVal m1 fuel (s.gTop + 2) (s.lBase + tail) with
      | none => rw [h2] at hr; cases hr
      | some m2 =>
        rw [h2] at hr
        cases hr
        have inv0 : ConsFree s.gTop s.lBase (s.gTop + 1)
            (Function.update s.mem s.gTop FUNCTOR_dot2) :=
          ConsFree_store s.mem s.gTop s.lBase s.gTop FUNCTOR_dot2
            ⟨hatt, fun c h1 h2 => absurd h2 (not_lt.mpr h1)⟩ (by omega) rfl
        have inv1 := ConsFree_bind _ m1 s.gTop s.lBase (s.gTop + 1) fuel _ inv0 (by omega) h1
        have inv2 := ConsFree_bind m1 m2 s.gTop s.lBase (s.gTop + 1 + 1) fuel _ inv1
          (by omega) h2
        intro c hc1 hc2 q hq
        change c < s.gTop + 3 at hc2
        have hcs : c ≠ s.lBase + l := by omega
        simp only [setHandle, valTermRef, Function.update_noteq hcs] at hq
        exact inv2.block c hc1 (by omega) q hq

/-- Whenever `PL_cons_list_v` returns true, none of the cells it made holds a reference
to the local stack. -/
theorem PL_cons_list_v_free (fuel : Nat) (s s1 : LD) (list : term_t) (count : Nat)
    (elems : term_t) (hbelow : s.gTop + 3 * count ≤ s.lBase)
    (hatt : ∀ a, s.lBase ≤ a → isAttVar (s.mem a) = false)
    (hr : PL_cons_list_v fuel s list count elems = some (true, s1)) : noLocalRefs s s1 := by
  unfold PL_cons_list_v at hr
  by_cases hn : count > 0
  · rw [if_pos hn] at hr
    rcases hreq : requireGlobalSpace s (3 * count % SIZE_MAX1) with ⟨b, s2⟩
    rw [hreq] at hr
    cases b with
    | false => cases hr
    | true =>
      obtain ⟨gm, rfl⟩ := requireGlobalSpace_true s s2 _ hreq
      simp only [valTermRef] at hr
      cases hl : consListVLoop fuel count s.mem s.gTop (s.lBase + elems) with
      | none => rw [hl] at hr; cases hr
      | some r =>
        obtain ⟨m1, p1⟩ := r
        rw [hl] at hr
        cases hr
        obtain ⟨hp1, inv1⟩ := consListVLoop_free s.gTop s.lBase fuel count s.mem m1 s.gTop p1 _
          ⟨hatt, fun c h1 h2 => absurd h2 (not_lt.mpr h1)⟩ hbelow hl
        intro c hc1 hc2 q hq
        change c < p1 at hc2
        have hcs : c ≠ s.lBase + list := by omega
        simp only [setHandle, valTermRef, Function.update_noteq hcs] at hq
        exact inv1.block c hc1 (by omega) q hq
  · rw [if_neg hn] at hr
    cases hr
    intro c hc1 hc2
    change c < s.gTop at hc2
    omega

/-- C23.  On a state where no attributed variable lives on the local stack:
whenever `PL_cons_functor_v`, `PL_cons_list` or `PL_cons_list_v` returns true, the
cells it made lying below the local stack, none of these cells holds a reference to a
cell of the local stack, whatever the argument handles lead to;
and when the references of the cells in use lead to cells in use, with room for the
new cells and fuel for the references behind the argument handles, the three return
true and every unbound variable of the local stack that an argument handle leads to,
the slot of the result handle apart, is bound to a reference to one of the new cells,
which is unbound. -/
theorem cons_no_local_reference (k : Nat) (s : LD)
    (hatt : ∀ a, s.lBase ≤ a → isAttVar (s.mem a) = false) :
    (∀ fuel h fd a0 s1, s.gTop + (1 + arityFunctor fd) ≤ s.lBase →
      PL_cons_functor_v fuel s h fd a0 = some (true, s1) → noLocalRefs s s1) ∧
    (∀ fuel l head tail s1, s.gTop + 3 ≤ s.lBase →
      PL_cons_list fuel s l head tail = some (true, s1) → noLocalRefs s s1) ∧
    (∀ fuel list count elems s1, s.gTop + 3 * count ≤ s.lBase →
      PL_cons_list_v fuel s list count elems = some (true, s1) → noLocalRefs s s1) ∧
    ((∀ a q, (a < s.gTop ∨ s.lBase ≤ a) → s.mem a = Word.ref q →
        (q < s.gTop ∨ s.lBase ≤ q)) →
      (∀ (h : term_t) (fd : Word) (a0 : term_t), 0 < arityFunctor fd →
        (s.gTop + (1 + arityFunctor fd) ≤ s.gMax ∨
          s.gTop + (1 + arityFunctor fd) ≤ s.gLimit) →
        s.gTop + (1 + arityFunctor fd) ≤ s.lBase →
        (∀ j, j < arityFunctor fd → ∃ p, deRef s.mem k (valTermRef s (a0 + j)) = some p) →
        ∃ s1, PL_cons_functor_v (k + 1) s h fd a0 = some (true, s1) ∧
          ∀ j, j < arityFunctor fd → ∀ p, deRef s.mem k (valTermRef s (a0 + j)) = some p →
            s.lBase ≤ p → s.mem p = Word.var → p ≠ valTermRef s h → boundToNewCell s s1 p) ∧
      (∀ (l head tail : term_t) (ph pt : Nat),
        (s.gTop + 3 ≤ s.gMax ∨ s.gTop + 3 ≤ s.gLimit) → s.gTop + 3 ≤ s.lBase →
        deRef s.mem k (valTermRef s head) = some ph →
        deRef s.mem k (valTermRef s tail) = some pt →
        ∃ s1, PL_cons_list (k + 1) s l head tail = some (true, s1) ∧
          ∀ p, p = ph ∨ p = pt → s.lBase ≤ p → s.mem p = Word.var → p ≠ valTermRef s l →
            boundToNewCell s s1 p) ∧
      (∀ (list : term_t) (count : Nat) (elems : term_t), 0 < count →
        3 * count < SIZE_MAX1 →
        (s.gTop + 3 * count ≤ s.gMax ∨ s.gTop + 3 * count ≤ s.gLimit) →
        s.gTop + 3 * count ≤ s.lBase →
        (∀ j, j < count → ∃ p, deRef s.mem k (valTermRef s (elems + j)) = some p) →
        ∃ s1, PL_cons_list_v (k + 1) s list count elems = some (true, s1) ∧
          ∀ j, j < count → ∀ p, deRef s.mem k (valTermRef s (elems + j)) = some p →
            s.lBase ≤ p → s.mem p = Word.var → p ≠ valTermRef s list →
            boundToNewCell s s1 p)) := by
  refine ⟨?_, ?_, ?_, ?_⟩
  · intro fuel h fd a0 s1 hbelow hr
    exact PL_cons_functor_v_free fuel s s1 h fd a0 hbelow hatt hr
  · intro fuel l head tail s1 hbelow hr
    exact PL_cons_list_free fuel s s1 l head tail hbelow hatt hr
  · intro fuel list count elems s1 hbelow hr
    exact PL_cons_list_v_free fuel s s1 list count elems hbelow hatt hr
  · intro hrefs
    have wf : HeapOrder s.mem s.gTop s.lBase := ⟨hrefs, hatt⟩
    refine ⟨?_, ?_, ?_⟩
    · intro h fd a0 hn hroom hbelow hsrc
      obtain ⟨s1, hs1, -, -, hb⟩ :=
        PL_cons_functor_v_no_local k s h fd a0 hn hroom hbelow wf hsrc
      refine ⟨s1, hs1, ?_⟩
      intro j hj p hp hpl hpv hpn
      obtain ⟨c, hc1, hc2, e1, e2⟩ := hb j hj p hp hpl hpv hpn
      exact ⟨c, le_of_lt hc1, hc2, e1, e2⟩
    · intro l head tail ph pt hroom hbelow hh ht
      obtain ⟨s1, hs1, -, -, hb⟩ :=
        PL_cons_list_no_local k s l head tail ph pt hroom hbelow wf hh ht
      exact ⟨s1, hs1, hb⟩
    · intro list count elems hn hsmall hroom hbelow hsrc
      obtain ⟨s1, hs1, -, -, hb⟩ :=
        PL_cons_list_v_no_local k s list count elems hn hsmall hroom hbelow wf hsrc
      exact ⟨s1, hs1, hb⟩

/-- C23 at the state `demoVarsLD`, for `PL_cons_list` with the unbound handle 8 as
head and as tail and handle 9 for the result: the call returns true, and the variable
in the slot 108 is bound to one of the three new cells. -/
theorem cons_no_local_reference_witness :
    ∃ s1, PL_cons_list (0 + 1) demoVarsLD 9 8 8 = some (true, s1) ∧
      ∀ p, p = 108 ∨ p = 108 → demoVarsLD.lBase ≤ p → demoVarsLD.mem p = Word.var →
        p ≠ valTermRef demoVarsLD 9 → boundToNewCell demoVarsLD s1 p :=
  ((cons_no_local_reference 0 demoVarsLD (fun _ _ => rfl)).2.2.2
    (fun _ _ _ h => by simp [demoVarsLD] at h)).2.1 9 8 8 108 108 (by decide) (by decide)
    rfl rfl

/-! ## C15: binding the arguments of a new compound -/

/-- The loop of `PL_cons_functor_v` returns the memory `m1` exactly when there is a
chain of memories from `m` to `m1` in which step `i` is `bindConsVal` on the argument
cell `a+1+i` and the slot `ai+i`. -/
theorem consArgsV_chain (fuel : Nat) :
    ∀ (n : Nat) (m : Nat → Word) (a ai : Nat) (m1 : Nat → Word),
      consArgsV fuel n m a ai = some m1 ↔
        ∃ ms : Nat → Nat → Word, ms 0 = m ∧
          (∀ i, i < n → bindConsVal (ms i) fuel (a + 1 + i) (ai + i) = some (ms (i + 1))) ∧
          ms n = m1 := by
  intro n
  induction n with
  | zero =>
    intro m a ai m1
    simp only [consArgsV, Option.some.injEq]
    constructor
    · intro h
      exact ⟨fun _ => m, rfl, fun i hi => absurd hi (by omega), h⟩
    · rintro ⟨ms, h0, _, hn⟩
      rw [← h0, hn]
  | succ k ih =>
    intro m a ai m1
    constructor
    · intro h
      rw [consArgsV] at h
      cases hb : bindConsVal m fuel (a + 1) ai with
      | none => rw [hb] at h; cases h
      | some m2 =>
        rw [hb] at h
        dsimp only at h
        obtain ⟨ms, h0, hstep, hn⟩ := (ih m2 (a + 1) (ai + 1) m1).mp h
        refine ⟨fun i => match i with | 0 => m | j + 1 => ms j, rfl, ?_, hn⟩
        intro i hi
        cases i with
        | zero =>
          simp only [Nat.add_zero]
          rw [hb, h0]
        | succ j =>
          dsimp only
          rw [show a + 1 + (j + 1) = a + 1 + 1 + j from by omega,
            show ai + (j + 1) = ai + 1 + j from by omega]
          exact hstep j (by omega)
    · rintro ⟨ms, h0, hstep, hn⟩
      rw [consArgsV]
      have hb := hstep 0 (by omega)
      simp only [Nat.add_zero, Nat.zero_add, h0] at hb
      rw [hb]
      dsimp only
      refine (ih (ms 1) (a + 1) (ai + 1) m1).mpr ⟨fun i => ms (i + 1), rfl, ?_, hn⟩
      intro i hi
      have := hstep (i + 1) (by omega)
      rw [show a + 1 + (i + 1) = a + 1 + 1 + i from by omega,
        show ai + (i + 1) = ai + 1 + i from by omega] at this
      exact this

/-- The loop of `cons_functorv` returns the memory `m1` exactly when there is a chain
of memories from `m` to `m1` in which step `i` is `bindConsVal` on the argument cell
`a+1+i` and the slot of the handle that is argument `i`. -/
theorem consArgsList_chain (fuel lBase : Nat) :
    ∀ (n : Nat) (m : Nat → Word) (a : Nat) (args : List term_t) (m1 : Nat → Word),
      consArgsList fuel lBase n m a args = some m1 ↔
        ∃ ms : Nat → Nat → Word, ms 0 = m ∧
          (∀ i, i < n → ∃ r, args.get? i = some r ∧
            bindConsVal (ms i) fuel (a + 1 + i) (lBase + r) = some (ms (i + 1))) ∧
          ms n = m1 := by
  intro n
  induction n with
  | zero =>
    intro m a args m1
    simp only [consArgsList, Option.some.injEq]
    constructor
    · intro h
      exact ⟨fun _ => m, rfl, fun i hi => absurd hi (by omega), h⟩
    · rintro ⟨ms, h0, _, hn⟩
      rw [← h0, hn]
  | succ k ih =>
    intro m a args m1
    cases args with
    | nil =>
      constructor
      · intro h
        simp [consArgsList] at h
      · rintro ⟨ms, _, hstep, _⟩
        obtain ⟨r, hr, _⟩ := hstep 0 (by omega)
        simp at hr
    | cons r0 rest =>
      constructor
      · intro h
        rw [consArgsList] at h
        cases hb : bindConsVal m fuel (a + 1) (lBase + r0) with
        | none => rw [hb] at h; cases h
        | some m2 =>
          rw [hb] at h
          dsimp only at h
          obtain ⟨ms, h0, hstep, hn⟩ := (ih m2 (a + 1) rest m1).mp h
          refine ⟨fun i => match i with | 0 => m | j + 1 => ms j, rfl, ?_, hn⟩
          intro i hi
          cases i with
          | zero =>
            refine ⟨r0, rfl, ?_⟩
            simp only [Nat.add_zero]
            rw [hb, h0]
          | succ j =>
            obtain ⟨r, hr, hs⟩ := hstep j (by omega)
            refine ⟨r, by simpa using hr, ?_⟩
            dsimp only
            rw [show a + 1 + (j + 1) = a + 1 + 1 + j from by omega]
            exact hs
      · rintro ⟨ms, h0, hstep, hn⟩
        rw [consArgsList]
        obtain ⟨r, hr, hb⟩ := hstep 0 (by omega)
        simp only [List.get?_cons_zero, Option.some.injEq] at hr
        subst hr
        simp only [Nat.add_zero, Nat.zero_add, h0] at hb
        rw [hb]
        dsimp only
        refine (ih (ms 1) (a + 1) rest m1).mpr ⟨fun i => ms (i + 1), rfl, ?_, hn⟩
        intro i hi
        obtain ⟨r, hr, hs⟩ := hstep (i + 1) (by omega)
        refine ⟨r, by simpa using hr, ?_⟩
        rw [show a + 1 + (i + 1) = a + 1 + 1 + i from by omega] at hs
        exact hs

theorem requireGlobalSpace_fst (s : LD) (n : Nat)
    (h : (requireGlobalSpace s n).1 = true) :
    requireGlobalSpace s n = (true, (requireGlobalSpace s n).2) ∧
    (requireGlobalSpace s n).2.mem = s.mem ∧ (requireGlobalSpace s n).2.gTop = s.gTop ∧
    (requireGlobalSpace s n).2.lBase = s.lBase := by
  have e : requireGlobalSpace s n = (true, (requireGlobalSpace s n).2) := by
    rw [← h]
  obtain ⟨gm, hg⟩ := requireGlobalSpace_true s _ n e
  refine ⟨e, ?_, ?_, ?_⟩ <;> rw [hg]

/-- C15. `bindConsVal(to, p)`, with `q` the cell that dereferencing the source `p` ends
at: a plain unbound variable at a higher address than `to` leaves `to` an unbound
variable and makes `q` a reference to it; a plain unbound variable at a lower address,
or an attributed variable at any address, makes `to` a reference to `q` and writes
nothing else; a bound value is copied to `to`.  `bArgVar(ap, vp)` treats plain
variables the same way, trailing the binding of the source, makes `ap` a reference to
an attributed variable, and copies a bound word.  `PL_cons_functor`,
`PL_cons_functor_v` and `PL_cons_list`, when the functor has arguments and the room
for the new cells is there, return exactly when `bindConsVal` returns for every
argument, and then return true with the functor at the old global top, argument cell
`i` of the new compound bound by `bindConsVal` from the slot of the supplied handle
`i`, in the memory that the steps before it left, and the result handle set to the
new compound. -/
theorem cons_bind_rule (fuel : Nat) :
    (∀ (s : LD) (dest p q : Nat), deRef s.mem fuel p = some q →
      (s.mem q = Word.var → dest < q →
        bindConsVal s.mem fuel dest p
          = some (Function.update (Function.update s.mem dest Word.var) q (makeRefG dest)) ∧
        bArgVar fuel s dest p
          = some (Trail { s with mem := Function.update s.mem dest Word.var } q
              (makeRefG dest))) ∧
      (s.mem q = Word.var → q < dest →
        bindConsVal s.mem fuel dest p = some (Function.update s.mem dest (makeRefG q)) ∧
        bArgVar fuel s dest p
          = some { s with mem := Function.update s.mem dest (makeRefG q) }) ∧
      (isAttVar (s.mem q) = true →
        bindConsVal s.mem fuel dest p = some (Function.update s.mem dest (makeRefG q)) ∧
        bArgVar fuel s dest p
          = some { s with mem := Function.update s.mem dest (makeRefG q) }) ∧
      (canBind (s.mem q) = false →
        bindConsVal s.mem fuel dest p = some (Function.update s.mem dest (s.mem q)) ∧
        bArgVar fuel s dest p
          = some { s with mem := Function.update s.mem dest (s.mem q) })) ∧
    (∀ (s : LD) (h : term_t) (fd : Word) (args : List term_t) (r : Bool × LD),
      0 < arityFunctor fd → (requireGlobalSpace s (1 + arityFunctor fd)).1 = true →
      (PL_cons_functor fuel s h fd args = some r ↔
        ∃ ms : Nat → Nat → Word, ms 0 = Function.update s.mem s.gTop fd ∧
          (∀ i, i < arityFunctor fd → ∃ a, args.get? i = some a ∧
            bindConsVal (ms i) fuel (s.gTop + 1 + i) (valTermRef s a) = some (ms (i + 1))) ∧
          r = (true, setHandle { (requireGlobalSpace s (1 + arityFunctor fd)).2 with
            gTop := s.gTop + (1 + arityFunctor fd), mem := ms (arityFunctor fd) }
            h (consPtr s.gTop)))) ∧
    (∀ (s : LD) (h : term_t) (fd : Word) (a0 : term_t) (r : Bool × LD),
      0 < arityFunctor fd → (requireGlobalSpace s (1 + arityFunctor fd)).1 = true →
      (PL_cons_functor_v fuel s h fd a0 = some r ↔
        ∃ ms : Nat → Nat → Word, ms 0 = Function.update s.mem s.gTop fd ∧
          (∀ i, i < arityFunctor fd →
            bindConsVal (ms i) fuel (s.gTop + 1 + i) (valTermRef s (a0 + i))
              = some (ms (i + 1))) ∧
          r = (true, setHandle { (requireGlobalSpace s (1 + arityFunctor fd)).2 with
            gTop := s.gTop + (1 + arityFunctor fd), mem := ms (arityFunctor fd) }
            h (consPtr s.gTop)))) ∧
    (∀ (s : LD) (l head tail : term_t) (r : Bool × LD),
      (requireGlobalSpace s 3).1 = true →
      (PL_cons_list fuel s l head tail = some r ↔
        ∃ m1 m2 : Nat → Word,
          bindConsVal (Function.update s.mem s.gTop FUNCTOR_dot2) fuel (s.gTop + 1)
            (valTermRef s head) = some m1 ∧
          bindConsVal m1 fuel (s.gTop + 2) (valTermRef s tail) = some m2 ∧
          r = (true, setHandle { (requireGlobalSpace s 3).2 with
            gTop := s.gTop + 3, mem := m2 } l (consPtr s.gTop)))) := by
  refine ⟨?_, ?_, ?_, ?_⟩
  · intro s dest p q hq
    refine ⟨?_, ?_, ?_, ?_⟩
    · intro hv hlt
      constructor
      · simp [bindConsVal, hq, hv, canBind, needsRef, isVar, isAttVar, hlt]
      · simp [bArgVar, hq, hv, isVar, hlt]
    · intro hv hlt
      have hnlt : ¬ dest < q := by omega
      constructor
      · simp [bindConsVal, hq, hv, canBind, needsRef, isVar, isAttVar, hnlt]
      · simp [bArgVar, hq, hv, isVar, hnlt]
    · intro ha
      have hnv : isVar (s.mem q) = false := by
        cases hm : s.mem q <;> simp_all [isVar, isAttVar]
      constructor
      · simp [bindConsVal, hq, ha, canBind, needsRef]
      · simp [bArgVar, hq, ha, hnv]
    · intro hb
      have hnv : isVar (s.mem q) = false := by
        cases hm : s.mem q <;> simp_all [canBind, needsRef, isVar, isAttVar]
      have hna : isAttVar (s.mem q) = false := by
        cases hm : s.mem q <;> simp_all [canBind, needsRef, isVar, isAttVar]
      constructor
      · simp [bindConsVal, hq, hb]
      · simp [bArgVar, hq, hnv, hna]
  · intro s h fd args r hpos hroom
    obtain ⟨hreq, hmem, htop, hbase⟩ := requireGlobalSpace_fst s _ hroom
    have hn : ¬ arityFunctor fd = 0 := by omega
    unfold PL_cons_functor cons_functorv
    dsimp only
    rw [if_neg hn, hreq]
    dsimp only
    rw [hmem, htop, hbase]
    constructor
    · intro hr
      cases hc : consArgsList fuel s.lBase (arityFunctor fd)
          (Function.update s.mem s.gTop fd) s.gTop args with
      | none => rw [hc] at hr; cases hr
      | some m1 =>
        rw [hc] at hr
        obtain ⟨ms, h0, hstep, hlast⟩ := (consArgsList_chain fuel s.lBase _ _ _ _ _).mp hc
        refine ⟨ms, h0, hstep, ?_⟩
        simp only [Option.some.injEq] at hr
        rw [← hr, hlast]
    · rintro ⟨ms, h0, hstep, hr⟩
      have hc := (consArgsList_chain fuel s.lBase (arityFunctor fd)
        (Function.update s.mem s.gTop fd) s.gTop args (ms (arityFunctor fd))).mpr
        ⟨ms, h0, hstep, rfl⟩
      rw [hc, hr]
  · intro s h fd a0 r hpos hroom
    obtain ⟨hreq, hmem, htop, hbase⟩ := requireGlobalSpace_fst s _ hroom
    have hn : ¬ arityFunctor fd = 0 := by omega
    unfold PL_cons_functor_v
    dsimp only
    rw [if_neg hn, hreq]
    dsimp only [valTermRef]
    rw [hmem, htop, hbase]
    constructor
    · intro hr
      cases hc : consArgsV fuel (arityFunctor fd)
          (Function.update s.mem s.gTop fd) s.gTop (s.lBase + a0) with
      | none => rw [hc] at hr; cases hr
      | some m1 =>
        rw [hc] at hr
        obtain ⟨ms, h0, hstep, hlast⟩ := (consArgsV_chain fuel _ _ _ _ _).mp hc
        refine ⟨ms, h0, fun i hi => by rw [← Nat.add_assoc]; exact hstep i hi, ?_⟩
        simp only [Option.some.injEq] at hr
        rw [← hr, hlast]
    · rintro ⟨ms, h0, hstep, hr⟩
      have hc := (consArgsV_chain fuel (arityFunctor fd)
        (Function.update s.mem s.gTop fd) s.gTop (s.lBase + a0) (ms (arityFunctor fd))).mpr
        ⟨ms, h0, fun i hi => by rw [Nat.add_assoc s.lBase]; exact hstep i hi, rfl⟩
      rw [hc, hr]
  · intro s l head tail r hroom
    obtain ⟨hreq, hmem, htop, hbase⟩ := requireGlobalSpace_fst s _ hroom
    unfold PL_cons_list
    rw [hreq]
    dsimp only [valTermRef]
    rw [hmem, htop, hbase]
    constructor
    · intro hr
      cases h1 : bindConsVal (Function.update s.mem s.gTop FUNCTOR_dot2) fuel (s.gTop + 1)
          (s.lBase + head) with
      | none => rw [h1] at hr; cases hr
      | some m1 =>
        rw [h1] at hr
        dsimp only at hr
        cases h2 : bindConsVal m1 fuel (s.gTop + 2) (s.lBase + tail) with
        | none => rw [h2] at hr; cases hr
        | some m2 =>
          rw [h2] at hr
          simp only [Option.some.injEq] at hr
          exact ⟨m1, m2, rfl, h2, hr.symm⟩
    · rintro ⟨m1, m2, h1, h2, hr⟩
      rw [h1]
      dsimp only
      rw [h2, hr]

/-- C15 at work.  In `demoLD` the unbound slot 109 is bound towards the lower cell 11
and the integer in slot 108 is copied into cell 11.  In `demoVarsLD`
`PL_cons_list(9, 8, 8)` makes the list cell at 10: the unbound slot 108 of handle 8
is bound towards the head cell 11, which stays unbound, and the tail cell 12, coming
after the variable that handle 8 now leads to, becomes a reference to cell 11. -/
theorem cons_bind_rule_witness :
    (bindConsVal demoLD.mem 0 11 109
        = some (Function.update (Function.update demoLD.mem 11 Word.var) 109 (makeRefG 11)) ∧
      bArgVar 0 demoLD 11 109
        = some (Trail { demoLD with mem := Function.update demoLD.mem 11 Word.var } 109
            (makeRefG 11))) ∧
    (bindConsVal demoLD.mem 0 11 108 = some (Function.update demoLD.mem 11 (demoLD.mem 108)) ∧
      bArgVar 0 demoLD 11 108
        = some { demoLD with mem := Function.update demoLD.mem 11 (demoLD.mem 108) }) ∧
    PL_cons_list 1 demoVarsLD 9 8 8
      = some (true, setHandle { (requireGlobalSpace demoVarsLD 3).2 with
          gTop := demoVarsLD.gTop + 3
          mem := Function.update (Function.update (Function.update
            (Function.update demoVarsLD.mem demoVarsLD.gTop FUNCTOR_dot2) 11 Word.var)
            108 (makeRefG 11)) 12 (makeRefG 11) } 9 (consPtr demoVarsLD.gTop)) :=
  ⟨((cons_bind_rule 0).1 demoLD 11 109 109 (by decide)).1 (by decide) (by decide),
   ((cons_bind_rule 0).1 demoLD 11 108 108 (by decide)).2.2.2 (by decide),
   ((cons_bind_rule 1).2.2.2 demoVarsLD 9 8 8 _ (by decide)).mpr
     ⟨_, _, rfl, rfl, rfl⟩⟩

end SwiplFli
